import Mathlib

/-!
Bilateral filter (`src/main.cpp`): shallow embedding.

The filter loop of `main` (lines 69-95) is embedded as a pure function from the input
raster, the spatial kernel and the intensity weight to the output pixel.

* The C++ `double` operations the loop performs are the fields of a record `DoubleOps`,
  and the loop is written once against that record.  It is read in two ways:
  `exactOps K`, where every operation is the exact operation of an ordered field `K`
  (`ℚ` for evaluation, `ℝ` for the statements about `exp`), and `binary64Ops`, where
  every operation is the exact rational result rounded to the nearest IEEE-754 binary64
  number, ties to even, and a result that is not a finite number is `none`.
* `util.h` (`MIN`, `MAX`, `G`, `Array<double>`, `get_gaussian_kernel`) is not among the
  sources.  `MIN`/`MAX`, `G` and `get_gaussian_kernel` are modelled from the spec; the loop
  itself takes the kernel table and the intensity weight as arguments.
* `png::rgba_pixel` has four 8-bit channels (`Fin 256`); `png::image` is a width, a height
  and a total lookup function `px row column`.
* The statements about the values written are proved for both readings.  For `binary64Ops`
  the rounding function is shown to have relative error at most `2^-53` (plus `2^-1075` in
  the subnormal range); the two sequential sums and the division of the loop are bounded
  from these in `roundedOps`, the same arithmetic without the overflow check, and the loop
  is shown to stay within the finite numbers, where the two agree.
-/

namespace BilateralFilter

/-! ## Integer macros -/

/-- Modelled from the spec: `MIN` is a macro of `util.h`, which is not among the sources;
the spec's clamping of coordinates "to `[0, width-1]`" and of channels "to [0,255]" fixes
it as the usual two-argument minimum `((a) < (b) ? (a) : (b))`. -/
def MIN (a b : Int) : Int := if a < b then a else b

/-- Modelled from the spec: `MAX` is a macro of `util.h`, which is not among the sources;
it is the usual two-argument maximum `((a) > (b) ? (a) : (b))`. -/
def MAX (a b : Int) : Int := if a > b then a else b

/-- The macro `CLAMP_INT(p)` of line 7: `MIN(255,MAX(0,p))`. -/
def CLAMP_INT (p : Int) : Int := MIN 255 (MAX 0 p)

/-- The macro `CLAMP(val,min,max)` of line 8: `MIN(max,MAX(min,val))`. -/
def CLAMP (val min max : Int) : Int := MIN max (MAX min val)

/-- Two's-complement reduction of an integer to the range of a 32-bit `int`. -/
def wrap32 (z : Int) : Int := (z + 2147483648) % 4294967296 - 2147483648

/-! ## Pixels, rasters, kernels -/

/-- The type `png::rgba_pixel`: four 8-bit channels. -/
structure rgba_pixel where
  red : Fin 256
  green : Fin 256
  blue : Fin 256
  alpha : Fin 256
deriving DecidableEq, Repr

/-- The type `png::image<png::rgba_pixel>`: `px y x` is `I[y][x]`. -/
structure Image where
  get_width : Nat
  get_height : Nat
  px : Nat → Nat → rgba_pixel

/-- The type `Array<double>` of `util.h` as `main` uses it: `height()`, `width()` (read as
`int`) and the lookup `kernel(i, j)`. -/
structure Kernel (D : Type) where
  height : Int
  width : Int
  get : Int → Int → D

/-- The macro `PIXEL(r,g,b)` of line 9: each channel goes through `CLAMP_INT` and is then
narrowed to a byte by the `rgba_pixel` constructor; alpha is the constant 255. -/
def PIXEL (r g b : Int) : rgba_pixel :=
  { red := Fin.ofNat (CLAMP_INT r).toNat
    green := Fin.ofNat (CLAMP_INT g).toNat
    blue := Fin.ofNat (CLAMP_INT b).toNat
    alpha := 255 }

/-! ## The `double` operations -/

/-- The operations on `double` that `main` uses.  `of_int` is the conversion of an integer
to `double`, `lit` the value of a decimal literal, `to_unsigned` the cast `(unsigned int)`
and `to_int` the cast `(int)`. -/
structure DoubleOps (D : Type) where
  of_int : Int → D
  lit : ℚ → D
  add : D → D → D
  sub : D → D → D
  mul : D → D → D
  div : D → D → D
  fabs : D → D
  to_unsigned : D → Int
  to_int : D → Int

/-- Truncation toward zero, the rounding of a C++ floating-to-integer conversion. -/
def trunc {K : Type} [LinearOrderedField K] [FloorRing K] (q : K) : Int :=
  if 0 ≤ q then ⌊q⌋ else ⌈q⌉

/-- The operations of `double` read as the exact operations of an ordered field.  The two
casts truncate toward zero; a conversion whose value does not fit the target type is
undefined in C++ and is reduced modulo 2^32 here. -/
def exactOps (K : Type) [LinearOrderedField K] [FloorRing K] : DoubleOps K where
  of_int n := (n : K)
  lit q := (q : K)
  add a b := a + b
  sub a b := a - b
  mul a b := a * b
  div a b := a / b
  fabs a := |a|
  to_unsigned q := trunc q % 4294967296
  to_int q := wrap32 (trunc q)

/-- Quotient of two naturals rounded to the nearest natural, ties to even. -/
def div_rne (a b : Nat) : Nat :=
  if 2 * (a % b) < b then a / b
  else if b < 2 * (a % b) then a / b + 1
  else if a / b % 2 = 0 then a / b else a / b + 1

/-- Binary search for the position of the leading bit: `acc` grows by each step `k` of the
list for which `2^(acc+k)` still does not exceed `n`. -/
def log2_from (n : Nat) : List Nat → Nat → Nat
  | [], acc => acc
  | k :: ks, acc => if 2 ^ (acc + k) ≤ n then log2_from n ks (acc + k) else log2_from n ks acc

/-- The steps `2^(m-1), ..., 2, 1` of the binary search. -/
def halving : Nat → List Nat
  | 0 => []
  | m + 1 => 2 ^ m :: halving m

/-- The least `m' ≥ m` with `n < 2^(2^m')`, searched upward with the given fuel. -/
def steps_from (n : Nat) : Nat → Nat → Nat
  | 0, m => m
  | fuel + 1, m => if n < 2 ^ 2 ^ m then m else steps_from n fuel (m + 1)

/-- The position of the leading bit of `n > 0`: `2^e ≤ n < 2^(e+1)`. -/
def floor_log2 (n : Nat) : Nat := log2_from n (halving (steps_from n n 0)) 0

/-- The exponent `e` with `2^e ≤ n/d < 2^(e+1)`, for positive `n` and `d`. -/
def ilog2 (n d : Nat) : Int :=
  let e0 : Int := (floor_log2 n : Int) - (floor_log2 d : Int)
  if 0 ≤ e0 then (if d * 2 ^ e0.toNat ≤ n then e0 else e0 - 1)
  else (if d ≤ n * 2 ^ (-e0).toNat then e0 else e0 - 1)

/-- The multiple of `2^s` nearest to `n/d`, ties to the even multiple. -/
def round_to_grid (n d : Nat) (s : Int) : ℚ :=
  if 0 ≤ s then ((div_rne n (d * 2 ^ s.toNat) * 2 ^ s.toNat : Nat) : ℚ)
  else mkRat (div_rne (n * 2 ^ (-s).toNat) d : Nat) (2 ^ (-s).toNat)

/-- Rounding of a rational to the nearest IEEE-754 binary64 number, ties to even: 53
significant bits, the unit in the last place `2^s` never below `2^-1074`.  The exponent is
not bounded above here: overflow is the business of `binary64_finite`. -/
def binary64_round (q : ℚ) : ℚ :=
  if q = 0 then 0
  else if 0 ≤ q then
    round_to_grid q.num.natAbs q.den (max (ilog2 q.num.natAbs q.den - 52) (-1074))
  else -round_to_grid q.num.natAbs q.den (max (ilog2 q.num.natAbs q.den - 52) (-1074))

/-- The binary64 operations without the bound on the exponent: each result is the exact
rational result rounded by `binary64_round`.  This is the arithmetic of `binary64Ops` as long
as no result overflows and no divisor is zero; the error bounds are proved for it. -/
def roundedOps : DoubleOps ℚ where
  of_int n := binary64_round (n : ℚ)
  lit q := binary64_round q
  add a b := binary64_round (a + b)
  sub a b := binary64_round (a - b)
  mul a b := binary64_round (a * b)
  div a b := binary64_round (a / b)
  fabs a := |a|
  to_unsigned q := trunc q % 4294967296
  to_int q := wrap32 (trunc q)

/-- The binary64 result of an operation whose exact result is `q`: the rounded value when it
is finite, `none` when the operation overflows (the rounded magnitude reaches 2^1024). -/
def binary64_finite (q : ℚ) : Option ℚ :=
  if |binary64_round q| < 2 ^ 1024 then some (binary64_round q) else none

/-- The operations of `double` as IEEE-754 binary64 arithmetic, round to nearest even.  A
value is `some q` for the finite number `q`; `none` stands for an infinity or a NaN, which
arises from an overflow or a division by zero.  Every operation passes a `none` on, so a
result `some q` is the result of a computation all of whose intermediate values were finite
(what IEEE-754 computes from an infinity, such as `x/inf = 0`, is not represented).  The
casts of a `none`, undefined in C++, are given the value 0. -/
def binary64Ops : DoubleOps (Option ℚ) where
  of_int n := binary64_finite (n : ℚ)
  lit q := binary64_finite q
  add a b := a.bind (fun a => b.bind (fun b => binary64_finite (a + b)))
  sub a b := a.bind (fun a => b.bind (fun b => binary64_finite (a - b)))
  mul a b := a.bind (fun a => b.bind (fun b => binary64_finite (a * b)))
  div a b := a.bind (fun a => b.bind (fun b => if b = 0 then none else binary64_finite (a / b)))
  fabs a := a.map (fun a => |a|)
  to_unsigned a := match a with
    | some q => trunc q % 4294967296
    | none => 0
  to_int a := match a with
    | some q => wrap32 (trunc q)
    | none => 0

/-- A kernel table of finite values, as a table of `double`. -/
def finite_kernel (kernel : Kernel ℚ) : Kernel (Option ℚ) where
  height := kernel.height
  width := kernel.width
  get i j := some (kernel.get i j)

/-- An intensity weight with finite values on finite arguments, as a function of `double`. -/
def finite_weight (G : ℚ → ℚ → ℚ) (x sigma : Option ℚ) : Option ℚ :=
  x.bind (fun x => sigma.map (fun sigma => G x sigma))

/-! ## `main`: parameters -/

/-- Line 52: `1+2*(int)(gaussian_kernel_sigma*1.5)`, in 32-bit `int` arithmetic. -/
def gaussian_kernel_dim {D : Type} (ops : DoubleOps D) (gaussian_kernel_sigma : D) : Int :=
  wrap32 (1 + wrap32 (2 * ops.to_int (ops.mul gaussian_kernel_sigma (ops.lit (3 / 2)))))

/-- Modelled from the spec: `G` is a function of `util.h`, which is not among the sources;
the spec gives the intensity weight as `exp(-(|sample_luma - center_luma|)² / (2σ_i²))`,
so `G(x, sigma) = exp(-(x*x) / (2*sigma*sigma))`.  The exponential is an argument. -/
def G {D : Type} (ops : DoubleOps D) (exp : D → D) (x sigma : D) : D :=
  exp (ops.div (ops.sub (ops.of_int 0) (ops.mul x x))
    (ops.mul (ops.mul (ops.of_int 2) sigma) sigma))

/-- Modelled from the spec: `get_gaussian_kernel` is a function of `util.h`, which is not
among the sources; the spec gives a square table of side `dim` whose cell at offset `(r,c)`
from the centre `(dim/2, dim/2)` holds `exp(-(r²+c²) / (2σ_s²))`, unnormalized. -/
def get_gaussian_kernel {D : Type} (ops : DoubleOps D) (exp : D → D) (dim : Int) (sigma : D) :
    Kernel D where
  height := dim
  width := dim
  get i j :=
    exp (ops.div
      (ops.sub (ops.of_int 0)
        (ops.of_int ((i - Int.tdiv dim 2) * (i - Int.tdiv dim 2)
          + (j - Int.tdiv dim 2) * (j - Int.tdiv dim 2))))
      (ops.mul (ops.mul (ops.of_int 2) sigma) sigma))

/-! ## `main`: the filter loop -/

/-- Lines 15-17: `pixel_to_grayscale`. -/
def pixel_to_grayscale {D : Type} (ops : DoubleOps D) (p : rgba_pixel) : D :=
  ops.add
    (ops.add (ops.mul (ops.of_int p.red.val) (ops.lit (299 / 1000)))
      (ops.mul (ops.of_int p.green.val) (ops.lit (587 / 1000))))
    (ops.mul (ops.of_int p.blue.val) (ops.lit (114 / 1000)))

/-- The four accumulators of lines 72-75. -/
structure Accum (D : Type) where
  final_red : D
  final_green : D
  final_blue : D
  normalization_term : D

/-- The values `lo, lo+1, ..., hi-1` of a loop `for (int v = lo; v < hi; v++)`. -/
def int_range (lo hi : Int) : List Int :=
  (List.range (hi - lo).toNat).map (fun (i : Nat) => lo + (i : Int))

/-- The pixel read at line 81 for the offsets `(r, c)`:
`I[CLAMP(y+r,0,I.get_height()-1)][CLAMP(x+c,0,I.get_width()-1)]`. -/
def sample (I : Image) (x y : Nat) (r c : Int) : rgba_pixel :=
  I.px (CLAMP ((y : Int) + r) 0 ((I.get_height : Int) - 1)).toNat
    (CLAMP ((x : Int) + c) 0 ((I.get_width : Int) - 1)).toNat

/-- Line 83: `kernel(r+kernel.height()/2, c+kernel.height()/2)`.  The column index is
offset by `kernel.height()/2`, as in the source. -/
def spatial_weight {D : Type} (kernel : Kernel D) (r c : Int) : D :=
  kernel.get (r + Int.tdiv kernel.height 2) (c + Int.tdiv kernel.height 2)

/-- Lines 82 and 84: `G(fabs(current_px_lum-center_px_lum), intensity_sigma)`. -/
def intensity_weight {D : Type} (ops : DoubleOps D) (G : D → D → D) (intensity_sigma : D)
    (center_px_lum : D) (current_pixel : rgba_pixel) : D :=
  G (ops.fabs (ops.sub (pixel_to_grayscale ops current_pixel) center_px_lum)) intensity_sigma

/-- Lines 81-90: one pass of the loop body at the offsets `(r, c)`. -/
def loop_body {D : Type} (ops : DoubleOps D) (I : Image) (kernel : Kernel D) (G : D → D → D)
    (intensity_sigma : D) (x y : Nat) (center_px_lum : D) (acc : Accum D) (r c : Int) :
    Accum D :=
  let current_pixel := sample I x y r c
  let sw := spatial_weight kernel r c
  let iw := intensity_weight ops G intensity_sigma center_px_lum current_pixel
  { final_red :=
      ops.add acc.final_red (ops.mul (ops.mul (ops.of_int current_pixel.red.val) sw) iw)
    final_green :=
      ops.add acc.final_green (ops.mul (ops.mul (ops.of_int current_pixel.green.val) sw) iw)
    final_blue :=
      ops.add acc.final_blue (ops.mul (ops.mul (ops.of_int current_pixel.blue.val) sw) iw)
    normalization_term := ops.add acc.normalization_term (ops.mul sw iw) }

/-- The values of `r` at line 78. -/
def rows {D : Type} (kernel : Kernel D) : List Int :=
  int_range (Int.tdiv (-kernel.height) 2) (Int.tdiv kernel.height 2 + 1)

/-- The values of `c` at line 79. -/
def cols {D : Type} (kernel : Kernel D) : List Int :=
  int_range (Int.tdiv (-kernel.width) 2) (Int.tdiv kernel.width 2 + 1)

/-- Lines 72-92: the accumulators after the two window loops at pixel `(x, y)`. -/
def window_loop {D : Type} (ops : DoubleOps D) (I : Image) (kernel : Kernel D) (G : D → D → D)
    (intensity_sigma : D) (x y : Nat) : Accum D :=
  let center_px_lum := pixel_to_grayscale ops (I.px y x)
  (rows kernel).foldl
    (fun acc r =>
      (cols kernel).foldl
        (fun acc c => loop_body ops I kernel G intensity_sigma x y center_px_lum acc r c) acc)
    { final_red := ops.of_int 0
      final_green := ops.of_int 0
      final_blue := ops.of_int 0
      normalization_term := ops.of_int 0 }

/-- Line 93: the pixel written to `J[y][x]`. -/
def main_pixel {D : Type} (ops : DoubleOps D) (I : Image) (kernel : Kernel D) (G : D → D → D)
    (intensity_sigma : D) (x y : Nat) : rgba_pixel :=
  let acc := window_loop ops I kernel G intensity_sigma x y
  PIXEL (ops.to_unsigned (ops.div acc.final_red acc.normalization_term))
    (ops.to_unsigned (ops.div acc.final_green acc.normalization_term))
    (ops.to_unsigned (ops.div acc.final_blue acc.normalization_term))

/-- Lines 60 and 69-95: the output image `J`, of the dimensions of `I`; a cell outside the
raster keeps the default pixel. -/
def main_filter {D : Type} (ops : DoubleOps D) (I : Image) (kernel : Kernel D) (G : D → D → D)
    (intensity_sigma : D) : Image where
  get_width := I.get_width
  get_height := I.get_height
  px y x :=
    if y < I.get_height ∧ x < I.get_width then main_pixel ops I kernel G intensity_sigma x y
    else { red := 0, green := 0, blue := 0, alpha := 0 }

/-- The kernel cells read by line 83 during the two window loops, in loop order. -/
def kernel_reads {D : Type} (kernel : Kernel D) : List (Int × Int) :=
  (rows kernel).flatMap (fun r =>
    (cols kernel).map (fun c => (r + Int.tdiv kernel.height 2, c + Int.tdiv kernel.height 2)))

/-- The offsets `(r, c)` visited by the two window loops, in loop order. -/
def window {D : Type} (kernel : Kernel D) : List (Int × Int) :=
  (rows kernel).flatMap (fun r => (cols kernel).map (fun c => (r, c)))

/-! ## The sums of the specification (exact arithmetic) -/

/-- The product `spatial_weight * intensity_weight` at the window offset `rc = (r, c)` of the
pixel `(x, y)`, in exact arithmetic. -/
def weight_at {K : Type} [LinearOrderedField K] [FloorRing K] (I : Image) (kernel : Kernel K)
    (G : K → K → K) (intensity_sigma : K) (x y : Nat) (rc : Int × Int) : K :=
  spatial_weight kernel rc.1 rc.2
    * intensity_weight (exactOps K) G intensity_sigma (pixel_to_grayscale (exactOps K) (I.px y x))
        (sample I x y rc.1 rc.2)

/-- The normalization term as the spec states it: the sum over the kernel window of
`spatial_weight * intensity_weight`. -/
def normalization_sum {K : Type} [LinearOrderedField K] [FloorRing K] (I : Image)
    (kernel : Kernel K) (G : K → K → K) (intensity_sigma : K) (x y : Nat) : K :=
  ((window kernel).map (weight_at I kernel G intensity_sigma x y)).sum

/-- The accumulated channel as the spec states it: the sum over the kernel window of
`spatial_weight * intensity_weight * channel_value`, for the channel `ch`. -/
def accumulated_sum {K : Type} [LinearOrderedField K] [FloorRing K] (ch : rgba_pixel → Fin 256)
    (I : Image) (kernel : Kernel K) (G : K → K → K) (intensity_sigma : K) (x y : Nat) : K :=
  ((window kernel).map (fun rc =>
    weight_at I kernel G intensity_sigma x y rc * (((ch (sample I x y rc.1 rc.2)).val : Nat) : K))).sum

/-- The pure spatial blur as the spec states it: the sum of `kernel[r][c] * channel` of the
clamped sample over the sum of `kernel[r][c]`. -/
def spatial_blur {K : Type} [LinearOrderedField K] [FloorRing K] (ch : rgba_pixel → Fin 256)
    (I : Image) (kernel : Kernel K) (x y : Nat) : K :=
  ((window kernel).map (fun rc =>
      spatial_weight kernel rc.1 rc.2 * (((ch (sample I x y rc.1 rc.2)).val : Nat) : K))).sum
    / ((window kernel).map (fun rc => spatial_weight kernel rc.1 rc.2)).sum

/-- Two pixels with the same red, green and blue (alpha may differ). -/
def same_rgb (p q : rgba_pixel) : Prop :=
  p.red = q.red ∧ p.green = q.green ∧ p.blue = q.blue

instance (p q : rgba_pixel) : Decidable (same_rgb p q) := by
  unfold same_rgb
  infer_instance

/-! ## Binary64 rounding: the quantities of the error analysis -/

/-- A rational on the grid of the binary64 numbers: an integer multiple of `2^-1074`. -/
def on_grid (q : ℚ) : Prop := ∃ z : ℤ, q = (z : ℚ) * (2 : ℚ) ^ (-1074 : ℤ)

/-- The unit roundoff of binary64: `2^-53`. -/
def u53 : ℚ := (2 : ℚ) ^ (-53 : ℤ)

/-- Half the smallest positive binary64 number: `2^-1075`. -/
def eta64 : ℚ := (2 : ℚ) ^ (-1075 : ℤ)

/-- Sequential binary64 summation: `a`, then each term of `l` added and rounded in turn. -/
def fl_sum (l : List ℚ) (a : ℚ) : ℚ := l.foldl (fun acc t => binary64_round (acc + t)) a

/-- The term `current_pixel.channel*spatial_weight*intensity_weight` of lines 86-88 at the
window offset `rc`, for the channel `ch`. -/
def channel_term {D : Type} (ops : DoubleOps D) (ch : rgba_pixel → Fin 256) (I : Image)
    (kernel : Kernel D) (G : D → D → D) (intensity_sigma : D) (x y : Nat) (rc : Int × Int) : D :=
  ops.mul
    (ops.mul (ops.of_int ((ch (sample I x y rc.1 rc.2)).val : Nat))
      (spatial_weight kernel rc.1 rc.2))
    (intensity_weight ops G intensity_sigma (pixel_to_grayscale ops (I.px y x))
      (sample I x y rc.1 rc.2))

/-- The term `spatial_weight*intensity_weight` of line 90 at the window offset `rc`. -/
def weight_term {D : Type} (ops : DoubleOps D) (I : Image) (kernel : Kernel D) (G : D → D → D)
    (intensity_sigma : D) (x y : Nat) (rc : Int × Int) : D :=
  ops.mul (spatial_weight kernel rc.1 rc.2)
    (intensity_weight ops G intensity_sigma (pixel_to_grayscale ops (I.px y x))
      (sample I x y rc.1 rc.2))

/-- The exact product of the two binary64 operands `spatial_weight` and `intensity_weight`
of line 90 at the window offset `rc`. -/
def rounded_weight (I : Image) (kernel : Kernel ℚ) (G : ℚ → ℚ → ℚ) (intensity_sigma : ℚ)
    (x y : Nat) (rc : Int × Int) : ℚ :=
  spatial_weight kernel rc.1 rc.2
    * intensity_weight roundedOps G intensity_sigma (pixel_to_grayscale roundedOps (I.px y x))
        (sample I x y rc.1 rc.2)

/-- The quotient `final_channel/normalization_term` of line 93 for the channel `ch`, with
every result rounded: two sequential sums of rounded terms and a rounded division. -/
def rounded_quotient (ch : rgba_pixel → Fin 256) (I : Image) (kernel : Kernel ℚ)
    (G : ℚ → ℚ → ℚ) (intensity_sigma : ℚ) (x y : Nat) : ℚ :=
  roundedOps.div
    (fl_sum ((window kernel).map
      (channel_term roundedOps ch I kernel G intensity_sigma x y)) 0)
    (fl_sum ((window kernel).map (weight_term roundedOps I kernel G intensity_sigma x y)) 0)

/-! ## Concrete inputs -/

/-- A 2×2 raster with four different pixels. -/
def raster_2x2 : Image where
  get_width := 2
  get_height := 2
  px y x :=
    if y = 0 then (if x = 0 then ⟨10, 20, 30, 255⟩ else ⟨40, 50, 60, 128⟩)
    else (if x = 0 then ⟨70, 80, 90, 0⟩ else ⟨100, 110, 120, 7⟩)

/-- The 2×2 raster `raster_2x2` with other alpha values. -/
def raster_2x2_alpha : Image where
  get_width := 2
  get_height := 2
  px y x :=
    if y = 0 then (if x = 0 then ⟨10, 20, 30, 0⟩ else ⟨40, 50, 60, 1⟩)
    else (if x = 0 then ⟨70, 80, 90, 2⟩ else ⟨100, 110, 120, 3⟩)

/-- A 2×2 raster that agrees with `raster_2x2` at the pixel `(0, 0)` only. -/
def raster_2x2_corner : Image where
  get_width := 2
  get_height := 2
  px y x := if y = 0 ∧ x = 0 then ⟨10, 20, 30, 9⟩ else ⟨1, 2, 3, 4⟩

/-- A 1×1 kernel table with the single weight 1. -/
def kernel_1x1 : Kernel ℚ where
  height := 1
  width := 1
  get _ _ := 1

/-- A 3×3 kernel table with the weights `2^-(r²+c²)` at offset `(r, c)` from the centre:
the values `exp(-(r²+c²)/(2σ²))` take in exact arithmetic for `σ = 1/√(2 ln 2) ≈ 0.849`, a
sigma for which line 52 gives the side 3. -/
def kernel_3x3 : Kernel ℚ where
  height := 3
  width := 3
  get i j :=
    if i = 1 ∧ j = 1 then 1
    else if i = 1 ∨ j = 1 then 1 / 2
    else 1 / 4

/-- An intensity weight given by its values at the luminance distances 0 and 1: 1 at
distance 0 and 1/2 elsewhere, the values `exp(-x²/(2σ²))` takes at 0 and 1 for
`σ = 1/√(2 ln 2)`. -/
def G_half (x _sigma : ℚ) : ℚ := if x = 0 then 1 else 1 / 2

/-- A 2×1 raster: a black pixel `(0,0,0)` next to the pixel `(1,1,1)`. -/
def raster_step : Image where
  get_width := 2
  get_height := 1
  px _ x := if x = 0 then ⟨0, 0, 0, 255⟩ else ⟨1, 1, 1, 255⟩

/-- The 1×1 raster whose only pixel is `p`. -/
def raster_single (p : rgba_pixel) : Image where
  get_width := 1
  get_height := 1
  px _ _ := p

/-- The binary64 values of `exp(-d/8)` for the squared distances `d = r²+c²` of a 7×7
window (`0x1.c3d6a24ed8222p-1` for `d = 1`, ..., `0x1.afb718e8457f7p-4` for `d = 18`). -/
def exp_neg_eighths (d : Int) : ℚ :=
  if d = 0 then 1
  else if d = 1 then 3974412721635601 / 4503599627370496
  else if d = 2 then 7014813832872459 / 9007199254740992
  else if d = 4 then 2731571253070597 / 4503599627370496
  else if d = 5 then 602650792505981 / 1125899906842624
  else if d = 8 then 828390857088487 / 2251799813685248
  else if d = 9 then 182763091377497 / 562949953421312
  else if d = 10 then 5161211585517647 / 18014398509481984
  else if d = 13 then 1773622694149017 / 9007199254740992
  else if d = 18 then 7594814535391223 / 72057594037927936
  else 0

/-- A rational lower bound of `exp(-1/8)`: the Taylor polynomial of degree 13 at `-1/8`
minus the remainder bound `(1/8)^14 · 15/(14!·14)`. -/
def exp_eighth_lower : ℚ := 430642323716287394578963 / 487981682944214512435200

/-- A rational upper bound of `exp(-1/8)`: the same Taylor polynomial plus the remainder
bound. -/
def exp_eighth_upper : ℚ := 4737065560879161340368623 / 5367798512386359636787200

/-- The 7×7 kernel table of the default spatial sigma 2.0 in binary64: the cell at offset
`(r, c)` from the centre `(3, 3)` holds the binary64 value of `exp(-(r²+c²)/(2·2²))`. -/
def kernel_sigma2 : Kernel ℚ where
  height := 7
  width := 7
  get i j := exp_neg_eighths ((i - 3) * (i - 3) + (j - 3) * (j - 3))

/-- The intensity weight on a flat raster: the loop passes the luminance distance 0 only,
where `exp(-0/(2σ²))` is exactly 1 for every sigma; no other distance is evaluated there. -/
def G_flat (x _sigma : ℚ) : ℚ := if x = 0 then 1 else 0

/-- A function with the two properties of `exp` that the bound on the normalization term
uses: the value 1 at 0 and a value in [0, 1] at every non-positive argument.  It is
`1/(1-t)`, an upper bound of `exp t` for `t ≤ 0`; a NaN is passed on. -/
def exp_bound (t : Option ℚ) : Option ℚ := t.map (fun t => 1 / (1 - t))

/-! ## Integer lemmas -/

theorem MIN_eq_min (a b : Int) : MIN a b = min a b := by
  unfold MIN
  split_ifs with h
  · exact (min_eq_left h.le).symm
  · exact (min_eq_right (not_lt.mp h)).symm

theorem MAX_eq_max (a b : Int) : MAX a b = max a b := by
  unfold MAX
  split_ifs with h
  · exact (max_eq_left (le_of_lt h)).symm
  · exact (max_eq_right (not_lt.mp h)).symm

theorem CLAMP_eq (val lo hi : Int) : CLAMP val lo hi = min hi (max lo val) := by
  unfold CLAMP
  rw [MIN_eq_min, MAX_eq_max]

theorem CLAMP_INT_eq (p : Int) : CLAMP_INT p = min 255 (max 0 p) := by
  unfold CLAMP_INT
  rw [MIN_eq_min, MAX_eq_max]

theorem CLAMP_inside (val hi : Int) (h0 : 0 ≤ val) (h1 : val ≤ hi) : CLAMP val 0 hi = val := by
  rw [CLAMP_eq, max_eq_right h0, min_eq_right h1]

theorem wrap32_of_range (z : Int) (h0 : -2147483648 ≤ z) (h1 : z < 2147483648) :
    wrap32 z = z := by
  unfold wrap32
  omega

theorem tdiv_two_odd (k : Nat) : Int.tdiv (2 * (k : Int) + 1) 2 = k := by
  rw [Int.tdiv_eq_ediv (by omega) (by omega)]
  omega

theorem tdiv_two_neg_odd (k : Nat) : Int.tdiv (-(2 * (k : Int) + 1)) 2 = -(k : Int) := by
  rw [Int.neg_tdiv, tdiv_two_odd]

theorem int_range_odd (k : Nat) :
    int_range (-(k : Int)) ((k : Int) + 1) = (List.range (2 * k + 1)).map (fun (i : Nat) => (i : Int) - k) := by
  unfold int_range
  have h : ((k : Int) + 1 - -(k : Int)).toNat = 2 * k + 1 := by omega
  rw [h]
  apply List.map_congr_left
  intro i _
  ring

theorem rows_odd {D : Type} (kernel : Kernel D) (k : Nat) (hh : kernel.height = 2 * (k : Int) + 1) :
    rows kernel = (List.range (2 * k + 1)).map (fun (i : Nat) => (i : Int) - k) := by
  unfold rows
  rw [hh, tdiv_two_odd, tdiv_two_neg_odd, int_range_odd]

theorem cols_odd {D : Type} (kernel : Kernel D) (k : Nat) (hw : kernel.width = 2 * (k : Int) + 1) :
    cols kernel = (List.range (2 * k + 1)).map (fun (i : Nat) => (i : Int) - k) := by
  unfold cols
  rw [hw, tdiv_two_odd, tdiv_two_neg_odd, int_range_odd]

theorem kernel_reads_odd {D : Type} (kernel : Kernel D) (k : Nat)
    (hh : kernel.height = 2 * (k : Int) + 1) (hw : kernel.width = 2 * (k : Int) + 1) :
    kernel_reads kernel
      = (List.range (2 * k + 1) ×ˢ List.range (2 * k + 1)).map (fun (p : Nat × Nat) => ((p.1 : Int), (p.2 : Int))) := by
  unfold kernel_reads
  rw [rows_odd kernel k hh, cols_odd kernel k hw, hh, tdiv_two_odd]
  simp [SProd.sprod, List.product, List.flatMap_map, List.map_flatMap, Function.comp_def]

/-! ## C3: the sampled coordinate -/

/-- C3. For a raster with width ≥ 1 and height ≥ 1, every pixel `(x, y)` and every offset
`(r, c)`, line 81 reads `I[min(height-1, max(0, y+r))][min(width-1, max(0, x+c))]`; that
coordinate lies inside the raster, equals `(x+c, y+r)` when that is already inside, and is
otherwise the nearest edge coordinate, in each axis independently. -/
theorem sample_coordinate_clamped (I : Image) (x y : Nat) (r c : Int)
    (hW : 1 ≤ I.get_width) (hH : 1 ≤ I.get_height) :
    sample I x y r c
        = I.px (min ((I.get_height : Int) - 1) (max 0 ((y : Int) + r))).toNat
            (min ((I.get_width : Int) - 1) (max 0 ((x : Int) + c))).toNat
      ∧ (min ((I.get_width : Int) - 1) (max 0 ((x : Int) + c))).toNat < I.get_width
      ∧ (min ((I.get_height : Int) - 1) (max 0 ((y : Int) + r))).toNat < I.get_height
      ∧ (0 ≤ (x : Int) + c → (x : Int) + c < I.get_width →
          ((min ((I.get_width : Int) - 1) (max 0 ((x : Int) + c))).toNat : Int) = x + c)
      ∧ (0 ≤ (y : Int) + r → (y : Int) + r < I.get_height →
          ((min ((I.get_height : Int) - 1) (max 0 ((y : Int) + r))).toNat : Int) = y + r)
      ∧ ((x : Int) + c < 0 → (min ((I.get_width : Int) - 1) (max 0 ((x : Int) + c))).toNat = 0)
      ∧ ((I.get_width : Int) ≤ x + c →
          (min ((I.get_width : Int) - 1) (max 0 ((x : Int) + c))).toNat = I.get_width - 1)
      ∧ ((y : Int) + r < 0 → (min ((I.get_height : Int) - 1) (max 0 ((y : Int) + r))).toNat = 0)
      ∧ ((I.get_height : Int) ≤ y + r →
          (min ((I.get_height : Int) - 1) (max 0 ((y : Int) + r))).toNat = I.get_height - 1) := by
  refine ⟨?_, ?_, ?_, ?_, ?_, ?_, ?_, ?_, ?_⟩
  · unfold sample
    rw [CLAMP_eq, CLAMP_eq]
  all_goals omega

/-- The hypotheses of `sample_coordinate_clamped` hold on the 2×2 raster, where the offset
`(-1, 1)` from the pixel `(1, 0)` leaves the raster in both axes and reads `I[0][1]`. -/
theorem sample_coordinate_clamped_witness :
    1 ≤ raster_2x2.get_width ∧ 1 ≤ raster_2x2.get_height
      ∧ sample raster_2x2 1 0 (-1) 1 = raster_2x2.px 0 1 :=
  ⟨by decide, by decide,
    (sample_coordinate_clamped raster_2x2 1 0 (-1) 1 (by decide) (by decide)).1⟩

/-! ## C10: the kernel cells read -/

/-- C10. For a square kernel of odd side `2k+1`, the loops of lines 78-79 run `r` and `c` over
exactly `-k, ..., k`; the cells read at line 83 are exactly the cells `(i, j)` with
`0 ≤ i, j < 2k+1`, each once, in row-major order, none outside the table; and the offset
`(0, 0)` reads the centre cell `(k, k)`. -/
theorem kernel_cells_read_once {D : Type} (kernel : Kernel D) (k : Nat)
    (hh : kernel.height = 2 * (k : Int) + 1) (hw : kernel.width = 2 * (k : Int) + 1) :
    rows kernel = (List.range (2 * k + 1)).map (fun (i : Nat) => (i : Int) - k)
      ∧ cols kernel = (List.range (2 * k + 1)).map (fun (i : Nat) => (i : Int) - k)
      ∧ kernel_reads kernel
          = (List.range (2 * k + 1) ×ˢ List.range (2 * k + 1)).map
              (fun (p : Nat × Nat) => ((p.1 : Int), (p.2 : Int)))
      ∧ (kernel_reads kernel).Nodup
      ∧ (∀ p ∈ kernel_reads kernel,
          0 ≤ p.1 ∧ p.1 < kernel.height ∧ 0 ≤ p.2 ∧ p.2 < kernel.width)
      ∧ (∀ i j : Int, 0 ≤ i → i < kernel.height → 0 ≤ j → j < kernel.width →
          (i, j) ∈ kernel_reads kernel)
      ∧ spatial_weight kernel 0 0 = kernel.get k k := by
  have hreads := kernel_reads_odd kernel k hh hw
  have hinj : Function.Injective (fun (p : Nat × Nat) => ((p.1 : Int), (p.2 : Int))) := by
    intro p q hpq
    simp only [Prod.mk.injEq, Nat.cast_inj] at hpq
    exact Prod.ext hpq.1 hpq.2
  have hnodup : (kernel_reads kernel).Nodup := by
    rw [hreads]
    exact ((List.nodup_range _).product (List.nodup_range _)).map hinj
  have hmem : ∀ p ∈ kernel_reads kernel,
      0 ≤ p.1 ∧ p.1 < kernel.height ∧ 0 ≤ p.2 ∧ p.2 < kernel.width := by
    intro p hp
    rw [hreads] at hp
    obtain ⟨q, hq, rfl⟩ := List.mem_map.mp hp
    rw [List.mem_product, List.mem_range, List.mem_range] at hq
    rw [hh, hw]
    refine ⟨?_, ?_, ?_, ?_⟩ <;> simp only <;> omega
  refine ⟨rows_odd kernel k hh, cols_odd kernel k hw, hreads, hnodup, hmem, ?_, ?_⟩
  · intro i j hi0 hi1 hj0 hj1
    rw [hreads]
    rw [hh] at hi1
    rw [hw] at hj1
    refine List.mem_map.mpr ⟨(i.toNat, j.toNat), ?_, ?_⟩
    · rw [List.mem_product, List.mem_range, List.mem_range]
      constructor <;> omega
    · simp only [Prod.mk.injEq]
      constructor <;> omega
  · unfold spatial_weight
    rw [hh, tdiv_two_odd]
    simp

/-- A 3×3 table of `Nat` cells satisfies the hypotheses of `kernel_cells_read_once` with
`k = 1`; offset `(0, 0)` reads its centre cell. -/
theorem kernel_cells_read_once_witness :
    (3 : Int) = 2 * ((1 : Nat) : Int) + 1
      ∧ spatial_weight (⟨3, 3, fun i j => (3 * i + j).toNat⟩ : Kernel Nat) 0 0 = 4 :=
  ⟨by decide,
    (kernel_cells_read_once (⟨3, 3, fun i j => (3 * i + j).toNat⟩ : Kernel Nat) 1
      (by decide) (by decide)).2.2.2.2.2.2⟩

/-! ## The casts -/

theorem trunc_of_nonneg {K : Type} [LinearOrderedField K] [FloorRing K] (q : K) (h : 0 ≤ q) :
    trunc q = ⌊q⌋ := by
  unfold trunc
  rw [if_pos h]

theorem exactOps_lit_three_halves (K : Type) [LinearOrderedField K] [FloorRing K] :
    (exactOps K).lit (3 / 2) = (3 / 2 : K) := by
  show ((3 / 2 : ℚ) : K) = 3 / 2
  push_cast
  rfl

/-! ## The loop as a fold over the window; dependence on the input -/

theorem foldl_nested {α β γ : Type} (f : α → β → γ → α) (l₁ : List β) (l₂ : List γ) (a : α) :
    l₁.foldl (fun acc r => l₂.foldl (fun acc c => f acc r c) acc) a
      = (l₁.flatMap (fun r => l₂.map (fun c => (r, c)))).foldl (fun acc rc => f acc rc.1 rc.2) a := by
  induction l₁ generalizing a with
  | nil => rfl
  | cons r rs ih =>
    rw [List.foldl_cons, ih, List.flatMap_cons, List.foldl_append, List.foldl_map]

theorem window_loop_eq_foldl {D : Type} (ops : DoubleOps D) (I : Image) (kernel : Kernel D)
    (G : D → D → D) (intensity_sigma : D) (x y : Nat) :
    window_loop ops I kernel G intensity_sigma x y
      = (window kernel).foldl
          (fun acc rc =>
            loop_body ops I kernel G intensity_sigma x y (pixel_to_grayscale ops (I.px y x))
              acc rc.1 rc.2)
          { final_red := ops.of_int 0
            final_green := ops.of_int 0
            final_blue := ops.of_int 0
            normalization_term := ops.of_int 0 } := by
  unfold window_loop window
  exact foldl_nested _ _ _ _

theorem mem_int_range (lo hi v : Int) : v ∈ int_range lo hi ↔ lo ≤ v ∧ v < hi := by
  unfold int_range
  rw [List.mem_map]
  constructor
  · rintro ⟨i, hi', rfl⟩
    rw [List.mem_range] at hi'
    omega
  · rintro ⟨h1, h2⟩
    refine ⟨(v - lo).toNat, ?_, ?_⟩
    · rw [List.mem_range]
      omega
    · omega

theorem mem_window {D : Type} (kernel : Kernel D) (r c : Int) :
    (r, c) ∈ window kernel ↔ r ∈ rows kernel ∧ c ∈ cols kernel := by
  unfold window
  rw [List.mem_flatMap]
  constructor
  · rintro ⟨r', hr', h⟩
    obtain ⟨c', hc', heq⟩ := List.mem_map.mp h
    simp only [Prod.mk.injEq] at heq
    obtain ⟨rfl, rfl⟩ := heq
    exact ⟨hr', hc'⟩
  · rintro ⟨hr, hc⟩
    exact ⟨r, hr, List.mem_map.mpr ⟨c, hc, rfl⟩⟩

theorem zero_mem_rows {D : Type} (kernel : Kernel D) (r : Int) (h : r ∈ rows kernel) :
    (0 : Int) ∈ rows kernel := by
  unfold rows at h ⊢
  rw [mem_int_range] at h ⊢
  rw [Int.neg_tdiv] at h ⊢
  omega

theorem zero_mem_cols {D : Type} (kernel : Kernel D) (c : Int) (h : c ∈ cols kernel) :
    (0 : Int) ∈ cols kernel := by
  unfold cols at h ⊢
  rw [mem_int_range] at h ⊢
  rw [Int.neg_tdiv] at h ⊢
  omega

theorem zero_mem_window {D : Type} (kernel : Kernel D) (h : window kernel ≠ []) :
    ((0 : Int), (0 : Int)) ∈ window kernel := by
  obtain ⟨⟨r, c⟩, hrc⟩ := List.exists_mem_of_ne_nil _ h
  rw [mem_window] at hrc ⊢
  exact ⟨zero_mem_rows kernel r hrc.1, zero_mem_cols kernel c hrc.2⟩

theorem sample_center (I : Image) (x y : Nat) (hx : x < I.get_width) (hy : y < I.get_height) :
    sample I x y 0 0 = I.px y x := by
  unfold sample
  rw [CLAMP_inside _ _ (by omega) (by omega), CLAMP_inside _ _ (by omega) (by omega)]
  simp

theorem pixel_to_grayscale_congr {D : Type} (ops : DoubleOps D) (p q : rgba_pixel)
    (h : same_rgb p q) : pixel_to_grayscale ops p = pixel_to_grayscale ops q := by
  unfold pixel_to_grayscale
  rw [h.1, h.2.1, h.2.2]

theorem loop_body_congr {D : Type} (ops : DoubleOps D) (I₁ I₂ : Image) (kernel : Kernel D)
    (G : D → D → D) (intensity_sigma : D) (x y : Nat) (center_px_lum : D) (acc : Accum D)
    (r c : Int) (h : same_rgb (sample I₁ x y r c) (sample I₂ x y r c)) :
    loop_body ops I₁ kernel G intensity_sigma x y center_px_lum acc r c
      = loop_body ops I₂ kernel G intensity_sigma x y center_px_lum acc r c := by
  unfold loop_body intensity_weight
  simp only [pixel_to_grayscale_congr ops _ _ h, h.1, h.2.1, h.2.2]

theorem window_loop_congr {D : Type} (ops : DoubleOps D) (I₁ I₂ : Image) (kernel : Kernel D)
    (G : D → D → D) (intensity_sigma : D) (x y : Nat)
    (hc : window kernel ≠ [] → same_rgb (I₁.px y x) (I₂.px y x))
    (hw : ∀ rc ∈ window kernel, same_rgb (sample I₁ x y rc.1 rc.2) (sample I₂ x y rc.1 rc.2)) :
    window_loop ops I₁ kernel G intensity_sigma x y
      = window_loop ops I₂ kernel G intensity_sigma x y := by
  rw [window_loop_eq_foldl, window_loop_eq_foldl]
  by_cases hne : window kernel = []
  · rw [hne]
    rfl
  · rw [pixel_to_grayscale_congr ops _ _ (hc hne)]
    apply List.foldl_ext
    intro acc rc hrc
    exact loop_body_congr ops I₁ I₂ kernel G intensity_sigma x y _ acc rc.1 rc.2 (hw rc hrc)

theorem main_pixel_congr {D : Type} (ops : DoubleOps D) (I₁ I₂ : Image) (kernel : Kernel D)
    (G : D → D → D) (intensity_sigma : D) (x y : Nat)
    (hc : window kernel ≠ [] → same_rgb (I₁.px y x) (I₂.px y x))
    (hw : ∀ rc ∈ window kernel, same_rgb (sample I₁ x y rc.1 rc.2) (sample I₂ x y rc.1 rc.2)) :
    main_pixel ops I₁ kernel G intensity_sigma x y
      = main_pixel ops I₂ kernel G intensity_sigma x y := by
  unfold main_pixel
  rw [window_loop_congr ops I₁ I₂ kernel G intensity_sigma x y hc hw]

/-! ## C5: alpha -/

/-- C5. For every input raster and every pixel `(x, y)` the alpha of the pixel written at
line 93 is 255; and two input rasters of the same dimensions that differ in alpha values
only give the same output pixel (red, green, blue and alpha).  The statement holds for
every reading of the `double` operations. -/
theorem alpha_fixed_and_ignored {D : Type} (ops : DoubleOps D) (I₁ I₂ : Image)
    (kernel : Kernel D) (G : D → D → D) (intensity_sigma : D)
    (hW : I₁.get_width = I₂.get_width) (hH : I₁.get_height = I₂.get_height)
    (hrgb : ∀ y x, same_rgb (I₁.px y x) (I₂.px y x)) :
    (∀ x y, (main_pixel ops I₁ kernel G intensity_sigma x y).alpha = 255)
      ∧ (∀ x y, y < I₁.get_height → x < I₁.get_width →
          ((main_filter ops I₁ kernel G intensity_sigma).px y x).alpha = 255)
      ∧ (∀ x y, main_pixel ops I₁ kernel G intensity_sigma x y
          = main_pixel ops I₂ kernel G intensity_sigma x y)
      ∧ (∀ x y, (main_filter ops I₁ kernel G intensity_sigma).px y x
          = (main_filter ops I₂ kernel G intensity_sigma).px y x) := by
  have hpix : ∀ x y, main_pixel ops I₁ kernel G intensity_sigma x y
      = main_pixel ops I₂ kernel G intensity_sigma x y := by
    intro x y
    apply main_pixel_congr
    · intro _
      exact hrgb y x
    · intro rc _
      unfold sample
      rw [hW, hH]
      exact hrgb _ _
  refine ⟨fun x y => rfl, ?_, hpix, ?_⟩
  · intro x y hy hx
    show (if y < I₁.get_height ∧ x < I₁.get_width then _ else _ : rgba_pixel).alpha = 255
    rw [if_pos ⟨hy, hx⟩]
    rfl
  · intro x y
    show (if y < I₁.get_height ∧ x < I₁.get_width then _ else _ : rgba_pixel)
      = (if y < I₂.get_height ∧ x < I₂.get_width then _ else _ : rgba_pixel)
    rw [hW, hH, hpix]

/-- The rasters `raster_2x2` and `raster_2x2_alpha` differ in alpha only; with the 3×3
kernel their outputs at `(1, 0)` are the same pixel. -/
theorem alpha_fixed_and_ignored_witness :
    raster_2x2.get_width = raster_2x2_alpha.get_width
      ∧ raster_2x2.get_height = raster_2x2_alpha.get_height
      ∧ (∀ y x, same_rgb (raster_2x2.px y x) (raster_2x2_alpha.px y x))
      ∧ main_pixel (exactOps ℚ) raster_2x2 kernel_3x3 G_half 5 1 0
          = main_pixel (exactOps ℚ) raster_2x2_alpha kernel_3x3 G_half 5 1 0 := by
  have h : ∀ y x, same_rgb (raster_2x2.px y x) (raster_2x2_alpha.px y x) := by
    intro y x
    unfold raster_2x2 raster_2x2_alpha same_rgb
    by_cases hy : y = 0 <;> by_cases hx : x = 0 <;> simp [hy, hx]
  exact ⟨rfl, rfl, h,
    (alpha_fixed_and_ignored (exactOps ℚ) raster_2x2 raster_2x2_alpha kernel_3x3 G_half 5
      rfl rfl h).2.2.1 1 0⟩

/-! ## C7: locality and determinism -/

/-- C7. The pixel written at `(x, y)` depends on the input only through the red, green and
blue of the pixels at the clamped window coordinates: two input rasters of the same
dimensions that agree there give the same output pixel at `(x, y)`, for every kernel, every
intensity weight and every reading of the `double` operations.  The output raster is a
function of the input raster, the kernel and the intensity weight alone (`main_pixel`
reads `I` only), so a second run on the same input gives the same output. -/
theorem output_depends_on_window_only {D : Type} (ops : DoubleOps D) (I₁ I₂ : Image)
    (kernel : Kernel D) (G : D → D → D) (intensity_sigma : D) (x y : Nat)
    (hW : I₁.get_width = I₂.get_width) (hH : I₁.get_height = I₂.get_height)
    (hx : x < I₁.get_width) (hy : y < I₁.get_height)
    (hagree : ∀ r ∈ rows kernel, ∀ c ∈ cols kernel,
      same_rgb
        (I₁.px (CLAMP ((y : Int) + r) 0 ((I₁.get_height : Int) - 1)).toNat
          (CLAMP ((x : Int) + c) 0 ((I₁.get_width : Int) - 1)).toNat)
        (I₂.px (CLAMP ((y : Int) + r) 0 ((I₁.get_height : Int) - 1)).toNat
          (CLAMP ((x : Int) + c) 0 ((I₁.get_width : Int) - 1)).toNat)) :
    main_pixel ops I₁ kernel G intensity_sigma x y
        = main_pixel ops I₂ kernel G intensity_sigma x y
      ∧ (main_filter ops I₁ kernel G intensity_sigma).px y x
        = (main_filter ops I₂ kernel G intensity_sigma).px y x := by
  have hsample : ∀ rc ∈ window kernel,
      same_rgb (sample I₁ x y rc.1 rc.2) (sample I₂ x y rc.1 rc.2) := by
    intro rc hrc
    have hm := (mem_window kernel rc.1 rc.2).mp hrc
    unfold sample
    rw [← hW, ← hH]
    exact hagree rc.1 hm.1 rc.2 hm.2
  have hcenter : window kernel ≠ [] → same_rgb (I₁.px y x) (I₂.px y x) := by
    intro hne
    have h0 := hsample (0, 0) (zero_mem_window kernel hne)
    rw [sample_center I₁ x y hx hy, sample_center I₂ x y (hW ▸ hx) (hH ▸ hy)] at h0
    exact h0
  have hpix := main_pixel_congr ops I₁ I₂ kernel G intensity_sigma x y hcenter hsample
  refine ⟨hpix, ?_⟩
  show (if y < I₁.get_height ∧ x < I₁.get_width then _ else _ : rgba_pixel)
    = (if y < I₂.get_height ∧ x < I₂.get_width then _ else _ : rgba_pixel)
  rw [← hW, ← hH, hpix]

/-- With the 1×1 kernel the window of the pixel `(0, 0)` is that pixel alone: the rasters
`raster_2x2` and `raster_2x2_corner`, which agree there and nowhere else, give the same
output pixel at `(0, 0)`. -/
theorem output_depends_on_window_only_witness :
    raster_2x2.get_width = raster_2x2_corner.get_width
      ∧ raster_2x2.get_height = raster_2x2_corner.get_height
      ∧ 0 < raster_2x2.get_width ∧ 0 < raster_2x2.get_height
      ∧ main_pixel (exactOps ℚ) raster_2x2 kernel_1x1 G_half 5 0 0
          = main_pixel (exactOps ℚ) raster_2x2_corner kernel_1x1 G_half 5 0 0 :=
  ⟨rfl, rfl, by decide, by decide,
    (output_depends_on_window_only (exactOps ℚ) raster_2x2 raster_2x2_corner kernel_1x1 G_half 5
      0 0 rfl rfl (by decide) (by decide) (by decide)).1⟩

/-! ## The loop in exact arithmetic -/

theorem foldl_accum {K : Type} [LinearOrderedField K] [FloorRing K] (I : Image)
    (kernel : Kernel K) (G : K → K → K) (intensity_sigma : K) (x y : Nat)
    (l : List (Int × Int)) (acc : Accum K) :
    l.foldl
        (fun acc rc =>
          loop_body (exactOps K) I kernel G intensity_sigma x y
            (pixel_to_grayscale (exactOps K) (I.px y x)) acc rc.1 rc.2) acc
      = { final_red := acc.final_red + (l.map (fun rc =>
            weight_at I kernel G intensity_sigma x y rc
              * ((((sample I x y rc.1 rc.2).red).val : Nat) : K))).sum
          final_green := acc.final_green + (l.map (fun rc =>
            weight_at I kernel G intensity_sigma x y rc
              * ((((sample I x y rc.1 rc.2).green).val : Nat) : K))).sum
          final_blue := acc.final_blue + (l.map (fun rc =>
            weight_at I kernel G intensity_sigma x y rc
              * ((((sample I x y rc.1 rc.2).blue).val : Nat) : K))).sum
          normalization_term := acc.normalization_term
            + (l.map (weight_at I kernel G intensity_sigma x y)).sum } := by
  induction l generalizing acc with
  | nil => simp
  | cons rc rs ih =>
    rw [List.foldl_cons, ih]
    simp only [loop_body, exactOps, weight_at, List.map_cons, List.sum_cons, Int.cast_natCast]
    congr 1 <;> ring

theorem window_loop_exact {K : Type} [LinearOrderedField K] [FloorRing K] (I : Image)
    (kernel : Kernel K) (G : K → K → K) (intensity_sigma : K) (x y : Nat) :
    window_loop (exactOps K) I kernel G intensity_sigma x y
      = { final_red := accumulated_sum rgba_pixel.red I kernel G intensity_sigma x y
          final_green := accumulated_sum rgba_pixel.green I kernel G intensity_sigma x y
          final_blue := accumulated_sum rgba_pixel.blue I kernel G intensity_sigma x y
          normalization_term := normalization_sum I kernel G intensity_sigma x y } := by
  rw [window_loop_eq_foldl, foldl_accum]
  simp [exactOps, accumulated_sum, normalization_sum]

theorem to_unsigned_channel {K : Type} [LinearOrderedField K] [FloorRing K] (q : K)
    (h0 : -1 < q) (h1 : q < 4294967296) :
    (((Fin.ofNat (CLAMP_INT ((exactOps K).to_unsigned q)).toNat : Fin 256).val : Nat) : Int)
      = min 255 (max 0 ⌊q⌋) := by
  have hval : ∀ n : Nat, ((Fin.ofNat n : Fin 256).val : Nat) = n % 256 := fun _ => rfl
  show (((Fin.ofNat (CLAMP_INT (trunc q % 4294967296)).toNat : Fin 256).val : Nat) : Int) = _
  rw [hval, CLAMP_INT_eq]
  by_cases hq : 0 ≤ q
  · have hf0 : 0 ≤ ⌊q⌋ := Int.floor_nonneg.mpr hq
    have hf1 : ⌊q⌋ < 4294967296 := by
      rw [Int.floor_lt]
      exact_mod_cast h1
    rw [trunc_of_nonneg q hq]
    omega
  · have hq' : q < 0 := not_le.mp hq
    have hc : ⌈q⌉ = 0 := by
      rw [Int.ceil_eq_iff]
      constructor
      · simpa using h0
      · simpa using hq'.le
    have hf : ⌊q⌋ < 0 := by
      rw [Int.floor_lt]
      simpa using hq'
    unfold trunc
    rw [if_neg hq, hc]
    omega

theorem main_pixel_exact {K : Type} [LinearOrderedField K] [FloorRing K] (I : Image)
    (kernel : Kernel K) (G : K → K → K) (intensity_sigma : K) (x y : Nat) :
    main_pixel (exactOps K) I kernel G intensity_sigma x y
      = PIXEL
          ((exactOps K).to_unsigned
            (accumulated_sum rgba_pixel.red I kernel G intensity_sigma x y
              / normalization_sum I kernel G intensity_sigma x y))
          ((exactOps K).to_unsigned
            (accumulated_sum rgba_pixel.green I kernel G intensity_sigma x y
              / normalization_sum I kernel G intensity_sigma x y))
          ((exactOps K).to_unsigned
            (accumulated_sum rgba_pixel.blue I kernel G intensity_sigma x y
              / normalization_sum I kernel G intensity_sigma x y)) := by
  unfold main_pixel
  rw [window_loop_exact]
  rfl

/-! ## Weighted averages -/

theorem weighted_average_bounds {K : Type} [LinearOrderedField K] {β : Type} (l : List β)
    (w : β → K) (v : β → Nat) (hw : ∀ b ∈ l, 0 ≤ w b) (hN : 0 < (l.map w).sum) :
    (∃ b ∈ l, ((v b : Nat) : K) ≤ (l.map (fun b => w b * ((v b : Nat) : K))).sum / (l.map w).sum)
      ∧ (∃ b ∈ l, (l.map (fun b => w b * ((v b : Nat) : K))).sum / (l.map w).sum
          ≤ ((v b : Nat) : K)) := by
  classical
  have hne : l.toFinset.Nonempty := by
    rcases l with _ | ⟨a, t⟩
    · simp at hN
    · exact ⟨a, by simp⟩
  obtain ⟨lo, hlo, hlo'⟩ := l.toFinset.exists_min_image v hne
  obtain ⟨hi, hhi, hhi'⟩ := l.toFinset.exists_max_image v hne
  rw [List.mem_toFinset] at hlo hhi
  refine ⟨⟨lo, hlo, ?_⟩, ⟨hi, hhi, ?_⟩⟩
  · rw [le_div_iff₀ hN, mul_comm, ← List.sum_map_mul_right]
    apply List.sum_le_sum
    intro b hb
    have h1 : ((v lo : Nat) : K) ≤ ((v b : Nat) : K) := by
      exact_mod_cast hlo' b (List.mem_toFinset.mpr hb)
    exact mul_le_mul_of_nonneg_left h1 (hw b hb)
  · rw [div_le_iff₀ hN, mul_comm, ← List.sum_map_mul_right]
    apply List.sum_le_sum
    intro b hb
    have h1 : ((v b : Nat) : K) ≤ ((v hi : Nat) : K) := by
      exact_mod_cast hhi' b (List.mem_toFinset.mpr hb)
    exact mul_le_mul_of_nonneg_left h1 (hw b hb)

theorem channel_between {K : Type} [LinearOrderedField K] [FloorRing K] (q : K) (lo hi : Fin 256)
    (h0 : ((lo.val : Nat) : K) ≤ q) (h1 : q ≤ ((hi.val : Nat) : K)) :
    lo ≤ (Fin.ofNat (CLAMP_INT ((exactOps K).to_unsigned q)).toNat : Fin 256)
      ∧ (Fin.ofNat (CLAMP_INT ((exactOps K).to_unsigned q)).toNat : Fin 256) ≤ hi
      ∧ CLAMP_INT ((exactOps K).to_unsigned q) = (exactOps K).to_unsigned q
      ∧ (exactOps K).to_unsigned q = ⌊q⌋ := by
  have hq0 : (0 : K) ≤ q := le_trans (Nat.cast_nonneg _) h0
  have hhi : ((hi.val : Nat) : K) < 256 := by exact_mod_cast hi.isLt
  have hq1 : q < 4294967296 := by linarith
  have hf0 : ((lo.val : Nat) : Int) ≤ ⌊q⌋ := by
    rw [Int.le_floor]
    exact_mod_cast h0
  have hf1 : ⌊q⌋ ≤ ((hi.val : Nat) : Int) := by
    have h2 : ((⌊q⌋ : Int) : K) ≤ (((hi.val : Nat) : Int) : K) := by
      push_cast
      exact le_trans (Int.floor_le q) h1
    exact_mod_cast h2
  have hu : (exactOps K).to_unsigned q = ⌊q⌋ := by
    show trunc q % 4294967296 = ⌊q⌋
    rw [trunc_of_nonneg q hq0]
    have := hi.isLt
    omega
  have hv := to_unsigned_channel q (by linarith) hq1
  have hlo := lo.isLt
  have hhi' := hi.isLt
  refine ⟨?_, ?_, ?_, hu⟩
  · rw [Fin.le_def]
    omega
  · rw [Fin.le_def]
    omega
  · rw [hu, CLAMP_INT_eq]
    omega

theorem weight_at_nonneg {K : Type} [LinearOrderedField K] [FloorRing K] (I : Image)
    (kernel : Kernel K) (G : K → K → K) (intensity_sigma : K) (x y : Nat)
    (hk : ∀ rc ∈ window kernel, 0 ≤ spatial_weight kernel rc.1 rc.2)
    (hG : ∀ d, 0 ≤ G d intensity_sigma) :
    ∀ rc ∈ window kernel, 0 ≤ weight_at I kernel G intensity_sigma x y rc := by
  intro rc hrc
  unfold weight_at intensity_weight
  exact mul_nonneg (hk rc hrc) (hG _)

theorem channel_range {K : Type} [LinearOrderedField K] [FloorRing K] (ch : rgba_pixel → Fin 256)
    (I : Image) (kernel : Kernel K) (G : K → K → K) (intensity_sigma : K) (x y : Nat)
    (hk : ∀ rc ∈ window kernel, 0 ≤ spatial_weight kernel rc.1 rc.2)
    (hG : ∀ d, 0 ≤ G d intensity_sigma)
    (hN : 0 < normalization_sum I kernel G intensity_sigma x y) :
    (∃ rc ∈ window kernel,
        ch (sample I x y rc.1 rc.2)
          ≤ (Fin.ofNat (CLAMP_INT ((exactOps K).to_unsigned
              (accumulated_sum ch I kernel G intensity_sigma x y
                / normalization_sum I kernel G intensity_sigma x y))).toNat : Fin 256))
      ∧ (∃ rc ∈ window kernel,
        (Fin.ofNat (CLAMP_INT ((exactOps K).to_unsigned
              (accumulated_sum ch I kernel G intensity_sigma x y
                / normalization_sum I kernel G intensity_sigma x y))).toNat : Fin 256)
          ≤ ch (sample I x y rc.1 rc.2))
      ∧ CLAMP_INT ((exactOps K).to_unsigned
            (accumulated_sum ch I kernel G intensity_sigma x y
              / normalization_sum I kernel G intensity_sigma x y))
          = (exactOps K).to_unsigned
            (accumulated_sum ch I kernel G intensity_sigma x y
              / normalization_sum I kernel G intensity_sigma x y) := by
  obtain ⟨⟨lo, hlo, hlo'⟩, ⟨hi, hhi, hhi'⟩⟩ :=
    weighted_average_bounds (window kernel) (weight_at I kernel G intensity_sigma x y)
      (fun rc => (ch (sample I x y rc.1 rc.2)).val)
      (weight_at_nonneg I kernel G intensity_sigma x y hk hG) hN
  have h := channel_between
    (accumulated_sum ch I kernel G intensity_sigma x y
      / normalization_sum I kernel G intensity_sigma x y)
    (ch (sample I x y lo.1 lo.2)) (ch (sample I x y hi.1 hi.2)) hlo' hhi'
  exact ⟨⟨lo, hlo, h.1⟩, ⟨hi, hhi, h.2.1⟩, h.2.2.1⟩

theorem accumulated_flat {K : Type} [LinearOrderedField K] [FloorRing K]
    (ch : rgba_pixel → Fin 256) (I : Image) (kernel : Kernel K) (G : K → K → K)
    (intensity_sigma : K) (x y : Nat) (v : Fin 256)
    (hch : ∀ r c, ch (sample I x y r c) = v) :
    accumulated_sum ch I kernel G intensity_sigma x y
      = normalization_sum I kernel G intensity_sigma x y * ((v.val : Nat) : K) := by
  unfold accumulated_sum normalization_sum
  rw [← List.sum_map_mul_right]
  simp only [hch]

theorem channel_flat {K : Type} [LinearOrderedField K] [FloorRing K]
    (ch : rgba_pixel → Fin 256) (I : Image) (kernel : Kernel K) (G : K → K → K)
    (intensity_sigma : K) (x y : Nat) (v : Fin 256)
    (hch : ∀ r c, ch (sample I x y r c) = v)
    (hN : normalization_sum I kernel G intensity_sigma x y ≠ 0) :
    (Fin.ofNat (CLAMP_INT ((exactOps K).to_unsigned
        (accumulated_sum ch I kernel G intensity_sigma x y
          / normalization_sum I kernel G intensity_sigma x y))).toNat : Fin 256) = v := by
  rw [accumulated_flat ch I kernel G intensity_sigma x y v hch, mul_div_cancel_left₀ _ hN]
  have h := channel_between (((v.val : Nat) : K)) v v le_rfl le_rfl
  exact le_antisymm h.2.1 h.1

/-! ## The centre of the window -/

theorem zero_mem_window_odd {D : Type} (kernel : Kernel D) (k : Nat)
    (hh : kernel.height = 2 * (k : Int) + 1) (hw : kernel.width = 2 * (k : Int) + 1) :
    ((0 : Int), (0 : Int)) ∈ window kernel := by
  rw [mem_window]
  unfold rows cols
  rw [hh, hw, tdiv_two_odd, tdiv_two_neg_odd, mem_int_range]
  omega

theorem weight_at_center {K : Type} [LinearOrderedField K] [FloorRing K] (I : Image)
    (kernel : Kernel K) (G : K → K → K) (intensity_sigma : K) (x y : Nat)
    (hx : x < I.get_width) (hy : y < I.get_height) :
    weight_at I kernel G intensity_sigma x y (0, 0)
      = spatial_weight kernel 0 0 * G 0 intensity_sigma := by
  unfold weight_at intensity_weight
  rw [sample_center I x y hx hy]
  simp [exactOps]

theorem normalization_ge_one {K : Type} [LinearOrderedField K] [FloorRing K] (I : Image)
    (kernel : Kernel K) (G : K → K → K) (intensity_sigma : K) (x y : Nat)
    (hx : x < I.get_width) (hy : y < I.get_height)
    (hk : ∀ rc ∈ window kernel, 0 ≤ spatial_weight kernel rc.1 rc.2)
    (hG : ∀ d, 0 ≤ G d intensity_sigma)
    (h00 : ((0 : Int), (0 : Int)) ∈ window kernel)
    (hc : spatial_weight kernel 0 0 = 1) (hG0 : G 0 intensity_sigma = 1) :
    1 ≤ normalization_sum I kernel G intensity_sigma x y := by
  have h1 : weight_at I kernel G intensity_sigma x y (0, 0) = 1 := by
    rw [weight_at_center I kernel G intensity_sigma x y hx hy, hc, hG0, mul_one]
  unfold normalization_sum
  rw [← h1]
  apply List.single_le_sum
  · intro w hw
    obtain ⟨rc, hrc, rfl⟩ := List.mem_map.mp hw
    exact weight_at_nonneg I kernel G intensity_sigma x y hk hG rc hrc
  · exact List.mem_map.mpr ⟨(0, 0), h00, rfl⟩

/-! ## The binary64 reading: rounding -/

theorem log2_from_halving (n m acc : Nat) (h0 : 2 ^ acc ≤ n) (h1 : n < 2 ^ (acc + 2 ^ m)) :
    2 ^ log2_from n (halving m) acc ≤ n ∧ n < 2 ^ (log2_from n (halving m) acc + 1) := by
  induction m generalizing acc with
  | zero => exact ⟨h0, by simpa using h1⟩
  | succ m ih =>
    unfold halving log2_from
    split_ifs with h
    · apply ih _ h
      rw [pow_succ] at h1
      have : acc + 2 ^ m + 2 ^ m = acc + 2 ^ m * 2 := by ring
      rw [this]
      exact h1
    · exact ih _ h0 (not_le.mp h)

theorem steps_from_spec (n fuel m : Nat) (h : n < 2 ^ 2 ^ (m + fuel)) :
    n < 2 ^ 2 ^ steps_from n fuel m := by
  induction fuel generalizing m with
  | zero => simpa [steps_from] using h
  | succ fuel ih =>
    unfold steps_from
    split_ifs with h'
    · exact h'
    · apply ih
      have : m + 1 + fuel = m + (fuel + 1) := by ring
      rw [this]
      exact h

theorem floor_log2_spec (n : Nat) (h0 : 0 < n) :
    2 ^ floor_log2 n ≤ n ∧ n < 2 ^ (floor_log2 n + 1) := by
  unfold floor_log2
  apply log2_from_halving n _ 0 (by simpa using h0)
  rw [Nat.zero_add]
  apply steps_from_spec
  rw [Nat.zero_add]
  calc n < 2 ^ n := Nat.lt_two_pow n
    _ ≤ 2 ^ 2 ^ n := Nat.pow_le_pow_right (by norm_num) (Nat.lt_two_pow n).le

theorem div_rne_spec (a b : Nat) (hb : 0 < b) :
    |((div_rne a b : Nat) : ℚ) - (a : ℚ) / (b : ℚ)| ≤ 1 / 2 := by
  have hb' : (0 : ℚ) < (b : ℚ) := by exact_mod_cast hb
  have ha : (a : ℚ) = (b : ℚ) * ((a / b : Nat) : ℚ) + ((a % b : Nat) : ℚ) := by
    exact_mod_cast (Nat.div_add_mod a b).symm
  have hr : ((a % b : Nat) : ℚ) < (b : ℚ) := by exact_mod_cast Nat.mod_lt a hb
  have hr0 : (0 : ℚ) ≤ ((a % b : Nat) : ℚ) := Nat.cast_nonneg _
  have hq : (a : ℚ) / (b : ℚ) = ((a / b : Nat) : ℚ) + ((a % b : Nat) : ℚ) / (b : ℚ) := by
    rw [ha]
    field_simp
    ring
  rw [hq, abs_le]
  unfold div_rne
  split_ifs with h1 h2 h3
  · have h1' : 2 * ((a % b : Nat) : ℚ) < (b : ℚ) := by exact_mod_cast h1
    have hx : ((a % b : Nat) : ℚ) / (b : ℚ) < 1 / 2 := by
      rw [div_lt_iff₀ hb']
      linarith
    have hx0 : (0 : ℚ) ≤ ((a % b : Nat) : ℚ) / (b : ℚ) := div_nonneg hr0 hb'.le
    constructor <;> linarith
  · have h2' : (b : ℚ) < 2 * ((a % b : Nat) : ℚ) := by exact_mod_cast h2
    have hx : 1 / 2 < ((a % b : Nat) : ℚ) / (b : ℚ) := by
      rw [lt_div_iff₀ hb']
      linarith
    have hx1 : ((a % b : Nat) : ℚ) / (b : ℚ) < 1 := by
      rw [div_lt_iff₀ hb']
      linarith
    push_cast
    constructor <;> linarith
  · have h12 : 2 * (a % b) = b := by omega
    have hx : ((a % b : Nat) : ℚ) / (b : ℚ) = 1 / 2 := by
      rw [div_eq_iff hb'.ne']
      have : (2 : ℚ) * ((a % b : Nat) : ℚ) = (b : ℚ) := by exact_mod_cast h12
      linarith
    rw [hx]
    constructor <;> linarith
  · have h12 : 2 * (a % b) = b := by omega
    have hx : ((a % b : Nat) : ℚ) / (b : ℚ) = 1 / 2 := by
      rw [div_eq_iff hb'.ne']
      have : (2 : ℚ) * ((a % b : Nat) : ℚ) = (b : ℚ) := by exact_mod_cast h12
      linarith
    rw [hx]
    push_cast
    constructor <;> linarith

theorem zpow_two_of_nonneg (z : ℤ) (h : 0 ≤ z) : (2 : ℚ) ^ z = ((2 ^ z.toNat : ℕ) : ℚ) := by
  conv_lhs => rw [← Int.toNat_of_nonneg h]
  rw [zpow_natCast]
  push_cast
  rfl

theorem zpow_two_of_nonpos (z : ℤ) (h : z ≤ 0) :
    (2 : ℚ) ^ z = 1 / ((2 ^ (-z).toNat : ℕ) : ℚ) := by
  have hz : z = -(((-z).toNat : ℕ) : ℤ) := by omega
  conv_lhs => rw [hz]
  rw [zpow_neg, zpow_natCast]
  push_cast
  rw [one_div]

theorem ilog2_spec (n d : Nat) (hn : 0 < n) (hd : 0 < d) :
    (2 : ℚ) ^ ilog2 n d ≤ (n : ℚ) / (d : ℚ) ∧ (n : ℚ) / (d : ℚ) < (2 : ℚ) ^ (ilog2 n d + 1) := by
  obtain ⟨ha0, ha1⟩ := floor_log2_spec n hn
  obtain ⟨hb0, hb1⟩ := floor_log2_spec d hd
  have hd' : (0 : ℚ) < (d : ℚ) := by exact_mod_cast hd
  have ha0' : (2 : ℚ) ^ (floor_log2 n : ℤ) ≤ (n : ℚ) := by
    rw [zpow_natCast]
    exact_mod_cast ha0
  have ha1' : (n : ℚ) < (2 : ℚ) ^ ((floor_log2 n : ℤ) + 1) := by
    have : ((floor_log2 n : ℤ) + 1) = ((floor_log2 n + 1 : ℕ) : ℤ) := by push_cast; ring
    rw [this, zpow_natCast]
    exact_mod_cast ha1
  have hb0' : (2 : ℚ) ^ (floor_log2 d : ℤ) ≤ (d : ℚ) := by
    rw [zpow_natCast]
    exact_mod_cast hb0
  have hb1' : (d : ℚ) < (2 : ℚ) ^ ((floor_log2 d : ℤ) + 1) := by
    have : ((floor_log2 d : ℤ) + 1) = ((floor_log2 d + 1 : ℕ) : ℤ) := by push_cast; ring
    rw [this, zpow_natCast]
    exact_mod_cast hb1
  have h2 : (0 : ℚ) < 2 := by norm_num
  -- n/d < 2^(e0+1) and 2^(e0-1) < n/d
  have hup : (n : ℚ) / (d : ℚ) < (2 : ℚ) ^ ((floor_log2 n : ℤ) - (floor_log2 d : ℤ) + 1) := by
    rw [div_lt_iff₀ hd']
    calc (n : ℚ) < (2 : ℚ) ^ ((floor_log2 n : ℤ) + 1) := ha1'
      _ = (2 : ℚ) ^ ((floor_log2 n : ℤ) - (floor_log2 d : ℤ) + 1) * (2 : ℚ) ^ (floor_log2 d : ℤ) := by
          rw [← zpow_add₀ h2.ne']
          congr 1
          ring
      _ ≤ (2 : ℚ) ^ ((floor_log2 n : ℤ) - (floor_log2 d : ℤ) + 1) * (d : ℚ) :=
          mul_le_mul_of_nonneg_left hb0' (zpow_pos h2 _).le
  have hlo : (2 : ℚ) ^ ((floor_log2 n : ℤ) - (floor_log2 d : ℤ) - 1) ≤ (n : ℚ) / (d : ℚ) := by
    rw [le_div_iff₀ hd']
    calc (2 : ℚ) ^ ((floor_log2 n : ℤ) - (floor_log2 d : ℤ) - 1) * (d : ℚ)
        ≤ (2 : ℚ) ^ ((floor_log2 n : ℤ) - (floor_log2 d : ℤ) - 1) * (2 : ℚ) ^ ((floor_log2 d : ℤ) + 1) :=
          mul_le_mul_of_nonneg_left hb1'.le (zpow_pos h2 _).le
      _ = (2 : ℚ) ^ (floor_log2 n : ℤ) := by
          rw [← zpow_add₀ h2.ne']
          congr 1
          ring
      _ ≤ (n : ℚ) := ha0'
  unfold ilog2
  simp only
  have hpos : ∀ k : ℕ, (0 : ℚ) < ((2 ^ k : ℕ) : ℚ) := fun k => by positivity
  split_ifs with h0 h1 h1
  · refine ⟨?_, hup⟩
    rw [le_div_iff₀ hd', zpow_two_of_nonneg _ h0, mul_comm]
    exact_mod_cast h1
  · refine ⟨hlo, ?_⟩
    rw [sub_add_cancel, div_lt_iff₀ hd', zpow_two_of_nonneg _ h0, mul_comm]
    exact_mod_cast not_le.mp h1
  · refine ⟨?_, hup⟩
    rw [le_div_iff₀ hd', zpow_two_of_nonpos _ (not_le.mp h0).le, one_div, inv_mul_le_iff₀ (hpos _),
      mul_comm]
    exact_mod_cast h1
  · refine ⟨hlo, ?_⟩
    rw [sub_add_cancel, div_lt_iff₀ hd', zpow_two_of_nonpos _ (not_le.mp h0).le, one_div,
      lt_inv_mul_iff₀ (hpos _), mul_comm]
    exact_mod_cast not_le.mp h1

theorem round_to_grid_spec (n d : Nat) (hd : 0 < d) (s : ℤ) :
    ∃ M : ℕ, round_to_grid n d s = (M : ℚ) * (2 : ℚ) ^ s
      ∧ |(M : ℚ) - (n : ℚ) / (d : ℚ) / (2 : ℚ) ^ s| ≤ 1 / 2 := by
  have hd' : (0 : ℚ) < (d : ℚ) := by exact_mod_cast hd
  unfold round_to_grid
  split_ifs with hs
  · refine ⟨div_rne n (d * 2 ^ s.toNat), ?_, ?_⟩
    · rw [zpow_two_of_nonneg s hs]
      push_cast
      rfl
    · have h := div_rne_spec n (d * 2 ^ s.toNat) (by positivity)
      rw [zpow_two_of_nonneg s hs, div_div]
      exact_mod_cast h
  · have hs' : s ≤ 0 := (not_le.mp hs).le
    refine ⟨div_rne (n * 2 ^ (-s).toNat) d, ?_, ?_⟩
    · rw [zpow_two_of_nonpos s hs', Rat.mkRat_eq_div]
      push_cast
      ring
    · have h := div_rne_spec (n * 2 ^ (-s).toNat) d hd
      rw [zpow_two_of_nonpos s hs']
      have he : (n : ℚ) / (d : ℚ) / (1 / ((2 ^ (-s).toNat : ℕ) : ℚ))
          = ((n * 2 ^ (-s).toNat : ℕ) : ℚ) / (d : ℚ) := by
        push_cast
        field_simp
      rw [he]
      exact h

theorem rat_eq_natAbs_div (q : ℚ) (hq : 0 ≤ q) : ((q.num.natAbs : ℕ) : ℚ) / (q.den : ℚ) = q := by
  have h0 : 0 ≤ q.num := Rat.num_nonneg.mpr hq
  have h1 : ((q.num.natAbs : ℕ) : ℚ) = (q.num : ℚ) := by
    rw [Nat.cast_natAbs, abs_of_nonneg h0]
  rw [h1]
  exact Rat.num_div_den q

theorem binary64_round_pos (q : ℚ) (hq : 0 < q) :
    ∃ M : ℕ,
      binary64_round q
          = (M : ℚ) * (2 : ℚ) ^ (max (ilog2 q.num.natAbs q.den - 52) (-1074))
        ∧ |(M : ℚ) - q / (2 : ℚ) ^ (max (ilog2 q.num.natAbs q.den - 52) (-1074))| ≤ 1 / 2 := by
  obtain ⟨M, h1, h2⟩ := round_to_grid_spec q.num.natAbs q.den q.den_pos
    (max (ilog2 q.num.natAbs q.den - 52) (-1074))
  rw [rat_eq_natAbs_div q hq.le] at h2
  refine ⟨M, ?_, h2⟩
  unfold binary64_round
  rw [if_neg hq.ne', if_pos hq.le]
  exact h1

theorem ilog2_rat_spec (q : ℚ) (hq : 0 < q) :
    (2 : ℚ) ^ ilog2 q.num.natAbs q.den ≤ q ∧ q < (2 : ℚ) ^ (ilog2 q.num.natAbs q.den + 1) := by
  have hn : 0 < q.num.natAbs := Int.natAbs_pos.mpr (Rat.num_ne_zero.mpr hq.ne')
  have h := ilog2_spec q.num.natAbs q.den hn q.den_pos
  rw [rat_eq_natAbs_div q hq.le] at h
  exact h

theorem on_grid_zero : on_grid 0 := ⟨0, by simp⟩

theorem on_grid_add (a b : ℚ) (ha : on_grid a) (hb : on_grid b) : on_grid (a + b) := by
  obtain ⟨x, rfl⟩ := ha
  obtain ⟨y, rfl⟩ := hb
  exact ⟨x + y, by push_cast; ring⟩

theorem on_grid_neg (a : ℚ) (ha : on_grid a) : on_grid (-a) := by
  obtain ⟨x, rfl⟩ := ha
  exact ⟨-x, by push_cast; ring⟩

theorem round_to_grid_on_grid (n d : Nat) (hd : 0 < d) (s : ℤ) (hs : -1074 ≤ s) :
    on_grid (round_to_grid n d s) := by
  obtain ⟨M, h1, _⟩ := round_to_grid_spec n d hd s
  refine ⟨(M : ℤ) * 2 ^ (s + 1074).toNat, ?_⟩
  rw [h1]
  have h2 : (2 : ℚ) ^ s = (2 : ℚ) ^ ((((s + 1074).toNat : ℕ) : ℤ) + (-1074)) := by
    congr 1
    omega
  rw [h2, zpow_add₀ (by norm_num : (2 : ℚ) ≠ 0), zpow_natCast]
  push_cast
  ring

theorem binary64_round_on_grid (q : ℚ) : on_grid (binary64_round q) := by
  unfold binary64_round
  split_ifs with h0 h1
  · exact on_grid_zero
  · exact round_to_grid_on_grid _ _ q.den_pos _ (le_max_right _ _)
  · exact on_grid_neg _ (round_to_grid_on_grid _ _ q.den_pos _ (le_max_right _ _))

theorem binary64_round_zero : binary64_round 0 = 0 := by
  unfold binary64_round
  rw [if_pos rfl]

theorem binary64_round_nonneg (q : ℚ) (hq : 0 ≤ q) : 0 ≤ binary64_round q := by
  rcases hq.eq_or_lt with h | h
  · rw [← h, binary64_round_zero]
  · obtain ⟨M, h1, _⟩ := binary64_round_pos q h
    rw [h1]
    positivity

theorem binary64_round_half_ulp (q : ℚ) (hq : 0 < q) :
    |binary64_round q - q|
      ≤ (2 : ℚ) ^ (max (ilog2 q.num.natAbs q.den - 52) (-1074)) / 2 := by
  obtain ⟨M, h1, h2⟩ := binary64_round_pos q hq
  have hp : (0 : ℚ) < (2 : ℚ) ^ (max (ilog2 q.num.natAbs q.den - 52) (-1074)) := by positivity
  have he : binary64_round q - q
      = ((M : ℚ) - q / (2 : ℚ) ^ (max (ilog2 q.num.natAbs q.den - 52) (-1074)))
        * (2 : ℚ) ^ (max (ilog2 q.num.natAbs q.den - 52) (-1074)) := by
    rw [h1]
    field_simp
  rw [he, abs_mul, abs_of_pos hp]
  calc |(M : ℚ) - q / (2 : ℚ) ^ (max (ilog2 q.num.natAbs q.den - 52) (-1074))|
        * (2 : ℚ) ^ (max (ilog2 q.num.natAbs q.den - 52) (-1074))
      ≤ 1 / 2 * (2 : ℚ) ^ (max (ilog2 q.num.natAbs q.den - 52) (-1074)) :=
        mul_le_mul_of_nonneg_right h2 hp.le
    _ = (2 : ℚ) ^ (max (ilog2 q.num.natAbs q.den - 52) (-1074)) / 2 := by ring

/-- The rounding error of a non-negative number: at most the relative error `2^-53` plus
the absolute error `2^-1075` of the subnormal range. -/
theorem binary64_round_error (q : ℚ) (hq : 0 ≤ q) :
    |binary64_round q - q| ≤ q * (2 : ℚ) ^ (-53 : ℤ) + (2 : ℚ) ^ (-1075 : ℤ) := by
  rcases hq.eq_or_lt with h | h
  · rw [← h, binary64_round_zero]
    simp
    positivity
  · have hh := binary64_round_half_ulp q h
    have hl := (ilog2_rat_spec q h).1
    have h2 : (2 : ℚ) ≠ 0 := by norm_num
    rcases le_total (-1074) (ilog2 q.num.natAbs q.den - 52) with hs | hs
    · rw [max_eq_left hs] at hh
      have he : (2 : ℚ) ^ (ilog2 q.num.natAbs q.den - 52) / 2
          = (2 : ℚ) ^ ilog2 q.num.natAbs q.den * (2 : ℚ) ^ (-53 : ℤ) := by
        rw [← zpow_add₀ h2, div_eq_mul_inv, ← zpow_neg_one, ← zpow_add₀ h2]
        congr 1
        ring
      rw [he] at hh
      have hle : (2 : ℚ) ^ ilog2 q.num.natAbs q.den * (2 : ℚ) ^ (-53 : ℤ)
          ≤ q * (2 : ℚ) ^ (-53 : ℤ) := mul_le_mul_of_nonneg_right hl (by positivity)
      have hpos : (0 : ℚ) ≤ (2 : ℚ) ^ (-1075 : ℤ) := by positivity
      linarith
    · rw [max_eq_right hs] at hh
      have he : (2 : ℚ) ^ (-1074 : ℤ) / 2 = (2 : ℚ) ^ (-1075 : ℤ) := by
        rw [div_eq_mul_inv, ← zpow_neg_one, ← zpow_add₀ h2]
        norm_num
      rw [he] at hh
      have hpos : (0 : ℚ) ≤ q * (2 : ℚ) ^ (-53 : ℤ) := by positivity
      linarith

/-- The rounding error of a non-negative number on the grid (a sum of binary64 numbers):
at most the relative error `2^-53`; in the subnormal range the rounding is exact. -/
theorem binary64_round_error_grid (q : ℚ) (hq : 0 ≤ q) (hg : on_grid q) :
    |binary64_round q - q| ≤ q * (2 : ℚ) ^ (-53 : ℤ) := by
  rcases hq.eq_or_lt with h | h
  · rw [← h, binary64_round_zero]
    simp
  · have hl := (ilog2_rat_spec q h).1
    have h2 : (2 : ℚ) ≠ 0 := by norm_num
    rcases le_total (-1074) (ilog2 q.num.natAbs q.den - 52) with hs | hs
    · have hh := binary64_round_half_ulp q h
      rw [max_eq_left hs] at hh
      have he : (2 : ℚ) ^ (ilog2 q.num.natAbs q.den - 52) / 2
          = (2 : ℚ) ^ ilog2 q.num.natAbs q.den * (2 : ℚ) ^ (-53 : ℤ) := by
        rw [← zpow_add₀ h2, div_eq_mul_inv, ← zpow_neg_one, ← zpow_add₀ h2]
        congr 1
        ring
      rw [he] at hh
      have hle : (2 : ℚ) ^ ilog2 q.num.natAbs q.den * (2 : ℚ) ^ (-53 : ℤ)
          ≤ q * (2 : ℚ) ^ (-53 : ℤ) := mul_le_mul_of_nonneg_right hl (by positivity)
      linarith
    · obtain ⟨M, h1, h3⟩ := binary64_round_pos q h
      rw [max_eq_right hs] at h1 h3
      obtain ⟨z, hz⟩ := hg
      have hq2 : q / (2 : ℚ) ^ (-1074 : ℤ) = (z : ℚ) := by
        rw [hz]
        field_simp
      rw [hq2] at h3
      have h4 : |(M : ℤ) - z| < 1 := by
        have : |(((M : ℤ) - z : ℤ) : ℚ)| < 1 := by
          push_cast
          linarith
        exact_mod_cast this
      have h5 : (M : ℤ) = z := by
        have := Int.abs_lt_one_iff.mp h4
        omega
      have h6 : binary64_round q = q := by
        rw [h1, hz, ← h5]
        push_cast
        rfl
      rw [h6, sub_self, abs_zero]
      positivity

theorem u53_pos : 0 < u53 := by
  unfold u53
  positivity

theorem u53_lt_one : u53 < 1 := by
  unfold u53
  norm_num

theorem eta64_pos : 0 < eta64 := by
  unfold eta64
  positivity

theorem binary64_round_bounds (q : ℚ) (hq : 0 ≤ q) :
    q * (1 - u53) - eta64 ≤ binary64_round q ∧ binary64_round q ≤ q * (1 + u53) + eta64 := by
  have h := binary64_round_error q hq
  rw [abs_le] at h
  unfold u53 eta64
  constructor <;> linarith [h.1, h.2]

theorem binary64_round_bounds_grid (q : ℚ) (hq : 0 ≤ q) (hg : on_grid q) :
    q * (1 - u53) ≤ binary64_round q ∧ binary64_round q ≤ q * (1 + u53) := by
  have h := binary64_round_error_grid q hq hg
  rw [abs_le] at h
  unfold u53
  constructor <;> linarith [h.1, h.2]

theorem fl_sum_bounds (l : List ℚ) (a : ℚ) (ha : 0 ≤ a) (hag : on_grid a)
    (hl : ∀ t ∈ l, 0 ≤ t ∧ on_grid t) :
    (1 - u53) ^ l.length * (a + l.sum) ≤ fl_sum l a
      ∧ fl_sum l a ≤ (1 + u53) ^ l.length * (a + l.sum)
      ∧ 0 ≤ fl_sum l a := by
  induction l generalizing a with
  | nil =>
    simp [fl_sum, ha]
  | cons t ts ih =>
    have ht := hl t (List.mem_cons_self t ts)
    have hts : ∀ t' ∈ ts, 0 ≤ t' ∧ on_grid t' := fun t' h' => hl t' (List.mem_cons_of_mem t h')
    have hsum : 0 ≤ a + t := add_nonneg ha ht.1
    have hb := binary64_round_bounds_grid (a + t) hsum (on_grid_add a t hag ht.2)
    have hr0 := binary64_round_nonneg (a + t) hsum
    obtain ⟨ih1, ih2, ih3⟩ := ih (binary64_round (a + t)) hr0 (binary64_round_on_grid _) hts
    have hs0 : 0 ≤ ts.sum := List.sum_nonneg (fun t' h' => (hts t' h').1)
    have hu0 : 0 ≤ 1 - u53 := by linarith [u53_lt_one]
    have hu1 : 1 - u53 ≤ 1 := by linarith [u53_pos]
    have hu2 : (1 : ℚ) ≤ 1 + u53 := by linarith [u53_pos]
    have hp0 : 0 ≤ (1 - u53) ^ ts.length := pow_nonneg hu0 _
    have hp1 : 0 ≤ (1 + u53) ^ ts.length := by positivity
    show (1 - u53) ^ (ts.length + 1) * (a + (t :: ts).sum) ≤ fl_sum ts (binary64_round (a + t))
      ∧ fl_sum ts (binary64_round (a + t)) ≤ (1 + u53) ^ (ts.length + 1) * (a + (t :: ts).sum)
      ∧ 0 ≤ fl_sum ts (binary64_round (a + t))
    rw [List.sum_cons]
    refine ⟨?_, ?_, ih3⟩
    · calc (1 - u53) ^ (ts.length + 1) * (a + (t + ts.sum))
          = (1 - u53) ^ ts.length * ((a + t) * (1 - u53) + (1 - u53) * ts.sum) := by ring
        _ ≤ (1 - u53) ^ ts.length * (binary64_round (a + t) + ts.sum) := by
            apply mul_le_mul_of_nonneg_left _ hp0
            have := mul_le_of_le_one_left hs0 hu1
            linarith [hb.1]
        _ ≤ fl_sum ts (binary64_round (a + t)) := ih1
    · calc fl_sum ts (binary64_round (a + t))
          ≤ (1 + u53) ^ ts.length * (binary64_round (a + t) + ts.sum) := ih2
        _ ≤ (1 + u53) ^ ts.length * ((a + t) * (1 + u53) + (1 + u53) * ts.sum) := by
            apply mul_le_mul_of_nonneg_left _ hp1
            have := le_mul_of_one_le_left hs0 hu2
            linarith [hb.2]
        _ = (1 + u53) ^ (ts.length + 1) * (a + (t + ts.sum)) := by ring

theorem binary64_round_exact (q : ℚ) (hq : 0 < q) (z : ℤ)
    (hz : q = (z : ℚ) * (2 : ℚ) ^ (max (ilog2 q.num.natAbs q.den - 52) (-1074))) :
    binary64_round q = q := by
  obtain ⟨M, h1, h3⟩ := binary64_round_pos q hq
  have hdiv : ∀ s : ℤ, q = (z : ℚ) * (2 : ℚ) ^ s → q / (2 : ℚ) ^ s = (z : ℚ) := by
    intro s hs
    rw [eq_comm, eq_div_iff (by positivity)]
    exact hs.symm
  rw [hdiv _ hz] at h3
  have h4 : |(M : ℤ) - z| < 1 := by
    have : |(((M : ℤ) - z : ℤ) : ℚ)| < 1 := by
      push_cast
      linarith
    exact_mod_cast this
  have h5 : (M : ℤ) = z := by
    have := Int.abs_lt_one_iff.mp h4
    omega
  calc binary64_round q
      = (M : ℚ) * (2 : ℚ) ^ (max (ilog2 q.num.natAbs q.den - 52) (-1074)) := h1
    _ = (z : ℚ) * (2 : ℚ) ^ (max (ilog2 q.num.natAbs q.den - 52) (-1074)) := by
        rw [← h5]
        push_cast
        rfl
    _ = q := hz.symm

theorem binary64_round_nat (n : ℕ) (hn : n < 2 ^ 53) : binary64_round (n : ℚ) = (n : ℚ) := by
  rcases Nat.eq_zero_or_pos n with h0 | h0
  · rw [h0, Nat.cast_zero, binary64_round_zero]
  · have hq : (0 : ℚ) < (n : ℚ) := by exact_mod_cast h0
    obtain ⟨hl, hu⟩ := ilog2_rat_spec (n : ℚ) hq
    have h1 : (1 : ℚ) < 2 := by norm_num
    have hn' : (n : ℚ) < (2 : ℚ) ^ (53 : ℤ) := by
      have h53 : (2 : ℚ) ^ (53 : ℤ) = ((2 ^ 53 : ℕ) : ℚ) := by norm_num
      rw [h53]
      exact_mod_cast hn
    have he1 : ilog2 (n : ℚ).num.natAbs (n : ℚ).den < 53 :=
      (zpow_lt_zpow_iff_right₀ h1).mp (lt_of_le_of_lt hl hn')
    have he0 : 0 ≤ ilog2 (n : ℚ).num.natAbs (n : ℚ).den := by
      have h2 : (2 : ℚ) ^ (0 : ℤ) < (2 : ℚ) ^ (ilog2 (n : ℚ).num.natAbs (n : ℚ).den + 1) := by
        have h3 : (1 : ℚ) ≤ (n : ℚ) := by exact_mod_cast h0
        calc (2 : ℚ) ^ (0 : ℤ) = 1 := by simp
          _ ≤ (n : ℚ) := h3
          _ < _ := hu
      have := (zpow_lt_zpow_iff_right₀ h1).mp h2
      omega
    have hs : max (ilog2 (n : ℚ).num.natAbs (n : ℚ).den - 52) (-1074)
        = ilog2 (n : ℚ).num.natAbs (n : ℚ).den - 52 := max_eq_left (by omega)
    apply binary64_round_exact (n : ℚ) hq
      ((n : ℤ) * 2 ^ (52 - ilog2 (n : ℚ).num.natAbs (n : ℚ).den).toNat)
    rw [hs]
    have h4 : (2 : ℚ) ^ (ilog2 (n : ℚ).num.natAbs (n : ℚ).den - 52)
        = ((2 : ℚ) ^ (((52 - ilog2 (n : ℚ).num.natAbs (n : ℚ).den).toNat : ℕ) : ℤ))⁻¹ := by
      rw [← zpow_neg]
      congr 1
      omega
    rw [h4, zpow_natCast]
    push_cast
    field_simp

theorem two_roundings (p g : ℚ) (hp : 0 ≤ p) (hg0 : 0 ≤ g) (hg1 : g ≤ 1) :
    p * g * (1 - u53) ^ 2 - 2 * eta64 ≤ binary64_round (binary64_round p * g)
      ∧ binary64_round (binary64_round p * g) ≤ p * g * (1 + u53) ^ 2 + 3 * eta64
      ∧ 0 ≤ binary64_round (binary64_round p * g) := by
  have ha := binary64_round_bounds p hp
  have ha0 := binary64_round_nonneg p hp
  have hag : 0 ≤ binary64_round p * g := mul_nonneg ha0 hg0
  have ht := binary64_round_bounds (binary64_round p * g) hag
  have hu0 : 0 ≤ 1 - u53 := by linarith [u53_lt_one]
  have hu1 := u53_pos
  have hu2 := u53_lt_one
  have he := eta64_pos
  have hgu0 : 0 ≤ g * (1 - u53) := mul_nonneg hg0 hu0
  have hgu1 : g * (1 - u53) ≤ 1 := by nlinarith
  have hgv0 : 0 ≤ g * (1 + u53) := by positivity
  have hgv1 : g * (1 + u53) ≤ 2 := by nlinarith
  refine ⟨?_, ?_, binary64_round_nonneg _ hag⟩
  · have h1 : (p * (1 - u53) - eta64) * (g * (1 - u53)) ≤ binary64_round p * (g * (1 - u53)) :=
      mul_le_mul_of_nonneg_right ha.1 hgu0
    have h2 : eta64 * (g * (1 - u53)) ≤ eta64 := by nlinarith
    nlinarith [ht.1]
  · have h1 : binary64_round p * (g * (1 + u53)) ≤ (p * (1 + u53) + eta64) * (g * (1 + u53)) :=
      mul_le_mul_of_nonneg_right ha.2 hgv0
    have h2 : eta64 * (g * (1 + u53)) ≤ 2 * eta64 := by nlinarith
    nlinarith [ht.2]

theorem foldl_loop_body {D : Type} (ops : DoubleOps D) (I : Image) (kernel : Kernel D)
    (G : D → D → D) (intensity_sigma : D) (x y : Nat) (l : List (Int × Int)) (acc : Accum D) :
    l.foldl
        (fun acc rc =>
          loop_body ops I kernel G intensity_sigma x y (pixel_to_grayscale ops (I.px y x))
            acc rc.1 rc.2) acc
      = { final_red := l.foldl (fun a rc =>
            ops.add a (channel_term ops rgba_pixel.red I kernel G intensity_sigma x y rc))
            acc.final_red
          final_green := l.foldl (fun a rc =>
            ops.add a (channel_term ops rgba_pixel.green I kernel G intensity_sigma x y rc))
            acc.final_green
          final_blue := l.foldl (fun a rc =>
            ops.add a (channel_term ops rgba_pixel.blue I kernel G intensity_sigma x y rc))
            acc.final_blue
          normalization_term := l.foldl (fun a rc =>
            ops.add a (weight_term ops I kernel G intensity_sigma x y rc))
            acc.normalization_term } := by
  induction l generalizing acc with
  | nil => rfl
  | cons rc rs ih =>
    rw [List.foldl_cons, ih]
    rfl

theorem window_loop_rounded (I : Image) (kernel : Kernel ℚ) (G : ℚ → ℚ → ℚ)
    (intensity_sigma : ℚ) (x y : Nat) :
    window_loop roundedOps I kernel G intensity_sigma x y
      = { final_red := fl_sum ((window kernel).map
            (channel_term roundedOps rgba_pixel.red I kernel G intensity_sigma x y)) 0
          final_green := fl_sum ((window kernel).map
            (channel_term roundedOps rgba_pixel.green I kernel G intensity_sigma x y)) 0
          final_blue := fl_sum ((window kernel).map
            (channel_term roundedOps rgba_pixel.blue I kernel G intensity_sigma x y)) 0
          normalization_term := fl_sum ((window kernel).map
            (weight_term roundedOps I kernel G intensity_sigma x y)) 0 } := by
  rw [window_loop_eq_foldl, foldl_loop_body]
  have h0 : roundedOps.of_int 0 = 0 := by
    show binary64_round ((0 : ℤ) : ℚ) = 0
    rw [Int.cast_zero, binary64_round_zero]
  simp only [h0, fl_sum, List.foldl_map]
  rfl

theorem u53_eq : u53 = 1 / 9007199254740992 := by
  unfold u53
  norm_num

theorem eta64_le : eta64 ≤ 1 / 1267650600228229401496703205376 := by
  unfold eta64
  have h : (2 : ℚ) ^ (-1075 : ℤ) ≤ (2 : ℚ) ^ (-100 : ℤ) :=
    zpow_le_zpow_right₀ (by norm_num) (by norm_num)
  have h2 : (2 : ℚ) ^ (-100 : ℤ) = 1 / 1267650600228229401496703205376 := by norm_num
  rw [← h2]
  exact h

theorem pow_bounds (m : ℕ) (hm : m ≤ 2 ^ 40) :
    0 ≤ (1 - u53) ^ m ∧ (1 - u53) ^ m ≤ 1
      ∧ 1 - 1 / 4096 ≤ (1 - u53) ^ m * (1 - u53) ^ 2
      ∧ 1 ≤ (1 + u53) ^ m
      ∧ (1 + u53) ^ m * (1 + u53) ^ 2 ≤ 1 + 1 / 2048
      ∧ (m : ℚ) * eta64 ≤ 1 / 1152921504606846976 := by
  have hu := u53_pos
  have hu1 := u53_lt_one
  have hm' : (m : ℚ) ≤ 1099511627776 := by exact_mod_cast hm
  have hm0 : (0 : ℚ) ≤ (m : ℚ) := Nat.cast_nonneg m
  have hx : ((m + 2 : ℕ) : ℚ) * u53 ≤ 1 / 4096 := by
    rw [u53_eq]
    push_cast
    linarith
  have hb : 1 - ((m + 2 : ℕ) : ℚ) * u53 ≤ (1 - u53) ^ (m + 2) := by
    have h := one_add_mul_le_pow (a := -u53) (by linarith) (m + 2)
    have e1 : 1 + ((m + 2 : ℕ) : ℚ) * -u53 = 1 - ((m + 2 : ℕ) : ℚ) * u53 := by ring
    have e2 : (1 + -u53) = 1 - u53 := by ring
    rw [e1, e2] at h
    exact h
  have hprod : (1 + u53) ^ (m + 2) * (1 - u53) ^ (m + 2) ≤ 1 := by
    rw [← mul_pow]
    apply pow_le_one₀
    · nlinarith
    · nlinarith
  have hC0 : 0 ≤ (1 + u53) ^ (m + 2) := by positivity
  refine ⟨pow_nonneg (by linarith) _, pow_le_one₀ (by linarith) (by linarith), ?_,
    one_le_pow₀ (by linarith), ?_, ?_⟩
  · rw [← pow_add]
    linarith
  · rw [← pow_add]
    have h1 : (1 + u53) ^ (m + 2) * (1 - ((m + 2 : ℕ) : ℚ) * u53) ≤ 1 :=
      le_trans (mul_le_mul_of_nonneg_left hb hC0) hprod
    have h2 : (1 + u53) ^ (m + 2) * (1 - 1 / 4096)
        ≤ (1 + u53) ^ (m + 2) * (1 - ((m + 2 : ℕ) : ℚ) * u53) :=
      mul_le_mul_of_nonneg_left (by linarith) hC0
    linarith
  · have he := eta64_le
    have he0 := eta64_pos
    calc (m : ℚ) * eta64 ≤ 1099511627776 * eta64 := mul_le_mul_of_nonneg_right hm' he0.le
      _ ≤ 1099511627776 * (1 / 1267650600228229401496703205376) :=
          mul_le_mul_of_nonneg_left he (by norm_num)
      _ ≤ 1 / 1152921504606846976 := by norm_num

theorem quotient_bounds (A N W lo hi : ℚ) (m : ℕ) (hm : m ≤ 2 ^ 40) (hW : 1 ≤ W)
    (hlo : 0 ≤ lo) (hlohi : lo ≤ hi) (hhi : hi ≤ 255) (hA0 : 0 ≤ A)
    (hA1 : (1 - u53) ^ m * (lo * W * (1 - u53) ^ 2 - (m : ℚ) * (2 * eta64)) ≤ A)
    (hA2 : A ≤ (1 + u53) ^ m * (hi * W * (1 + u53) ^ 2 + (m : ℚ) * (3 * eta64)))
    (hN1 : (1 - u53) ^ m * (W * (1 - u53) - (m : ℚ) * eta64) ≤ N)
    (hN2 : N ≤ (1 + u53) ^ m * (W * (1 + u53) + (m : ℚ) * eta64)) :
    0 < N ∧ lo - 1 < A / N * (1 - u53) - eta64 ∧ A / N * (1 + u53) + eta64 < hi + 1 := by
  obtain ⟨hc0, hc1, hc2, hC1, hC2, hmt⟩ := pow_bounds m hm
  have hue := u53_eq
  have he0 := eta64_pos
  have he1 := eta64_le
  have hm0 : (0 : ℚ) ≤ (m : ℚ) * eta64 := mul_nonneg (Nat.cast_nonneg m) he0.le
  have hma : (m : ℚ) * (2 * eta64) = 2 * ((m : ℚ) * eta64) := by ring
  have hmb : (m : ℚ) * (3 * eta64) = 3 * ((m : ℚ) * eta64) := by ring
  rw [hma] at hA1
  rw [hmb] at hA2
  generalize (1 - u53) ^ m = c at *
  generalize (1 + u53) ^ m = C at *
  generalize (m : ℚ) * eta64 = t at *
  generalize eta64 = η at *
  generalize u53 = u at *
  subst hue
  clear hma hmb hm m
  have hW0 : 0 ≤ W := by linarith
  have hhi0 : 0 ≤ hi := le_trans hlo hlohi
  have hC0 : 0 ≤ C := by linarith
  have hcW : 0 ≤ c * W := mul_nonneg hc0 hW0
  have hCW : 0 ≤ C * W := mul_nonneg hC0 hW0
  have hct0 : 0 ≤ c * t := mul_nonneg hc0 hm0
  have hct : c * t ≤ t := by
    have := mul_le_mul_of_nonneg_right hc1 hm0
    linarith
  have hCt0 : 0 ≤ C * t := mul_nonneg hC0 hm0
  have hCk : C ≤ 1 + 1 / 2048 := by
    have h1 : C ≤ C * (1 + 1 / 9007199254740992) ^ 2 := by
      have : (1 : ℚ) ≤ (1 + 1 / 9007199254740992) ^ 2 := by norm_num
      exact le_mul_of_one_le_right hC0 this
    linarith
  have hCt : C * t ≤ (1 + 1 / 2048) * t := mul_le_mul_of_nonneg_right hCk hm0
  have hlW : 0 ≤ lo * W := mul_nonneg hlo hW0
  have hhW : 0 ≤ hi * W := mul_nonneg hhi0 hW0
  have hcl : (1 - 1 / 4096) * (lo * W) ≤ c * (1 - 1 / 9007199254740992) ^ 2 * (lo * W) :=
    mul_le_mul_of_nonneg_right hc2 hlW
  have hCh : C * (1 + 1 / 9007199254740992) ^ 2 * (hi * W) ≤ (1 + 1 / 2048) * (hi * W) :=
    mul_le_mul_of_nonneg_right hC2 hhW
  have hcw : (1 - 1 / 4096) * W ≤ c * (1 - 1 / 9007199254740992) ^ 2 * W :=
    mul_le_mul_of_nonneg_right hc2 hW0
  have hCw : C * (1 + 1 / 9007199254740992) ^ 2 * W ≤ (1 + 1 / 2048) * W :=
    mul_le_mul_of_nonneg_right hC2 hW0
  have hF3 : (1 - 1 / 4096 - 1 / 1152921504606846976) * W ≤ N := by
    have h1 : c * (1 - 1 / 9007199254740992) ^ 2 * W ≤ c * (1 - 1 / 9007199254740992) * W := by
      have : c * W * (1 - 1 / 9007199254740992) ^ 2 ≤ c * W * (1 - 1 / 9007199254740992) :=
        mul_le_mul_of_nonneg_left (by norm_num) hcW
      linarith
    linarith
  have hF4 : N ≤ (1 + 1 / 2048) * (1 + 1 / 1152921504606846976) * W := by
    have h1 : C * (1 + 1 / 9007199254740992) * W ≤ C * (1 + 1 / 9007199254740992) ^ 2 * W := by
      have : C * W * (1 + 1 / 9007199254740992) ≤ C * W * (1 + 1 / 9007199254740992) ^ 2 :=
        mul_le_mul_of_nonneg_left (by norm_num) hCW
      linarith
    linarith
  have hF1 : ((1 - 1 / 4096) * lo - 2 / 1152921504606846976) * W ≤ A := by
    linarith
  have hF2 : A ≤ (1 + 1 / 2048) * (hi + 3 / 1152921504606846976) * W := by
    linarith
  have hN0 : 0 < N := by
    have : (0 : ℚ) < (1 - 1 / 4096 - 1 / 1152921504606846976) * W :=
      mul_pos (by norm_num) (by linarith)
    linarith
  have hWpos : 0 < W := by linarith
  refine ⟨hN0, ?_, ?_⟩
  · have hgoal : (lo - 1 + η) * N < A * (1 - 1 / 9007199254740992) := by
      rcases le_or_lt (lo - 1 + η) 0 with hneg | hpos
      · rcases hneg.eq_or_lt with h0 | h0
        · rw [h0, zero_mul]
          have hApos : 0 < A := by
            have : 0 < ((1 - 1 / 4096) * lo - 2 / 1152921504606846976) * W := by
              apply mul_pos _ hWpos
              linarith
            linarith
          exact mul_pos hApos (by norm_num)
        · have h1 : (lo - 1 + η) * N < 0 := mul_neg_of_neg_of_pos h0 hN0
          have h2 : 0 ≤ A * (1 - 1 / 9007199254740992) := mul_nonneg hA0 (by norm_num)
          linarith
      · have h1 : (lo - 1 + η) * N
            ≤ (lo - 1 + η) * ((1 + 1 / 2048) * (1 + 1 / 1152921504606846976) * W) :=
          mul_le_mul_of_nonneg_left hF4 hpos.le
        have h2 : ((1 - 1 / 4096) * lo - 2 / 1152921504606846976) * W
              * (1 - 1 / 9007199254740992)
            ≤ A * (1 - 1 / 9007199254740992) := mul_le_mul_of_nonneg_right hF1 (by norm_num)
        have h3 : (lo - 1 + η) * ((1 + 1 / 2048) * (1 + 1 / 1152921504606846976))
            < ((1 - 1 / 4096) * lo - 2 / 1152921504606846976)
              * (1 - 1 / 9007199254740992) := by
          linarith
        have h4 := mul_lt_mul_of_pos_right h3 hWpos
        linarith
    have h5 : lo - 1 + η < A * (1 - 1 / 9007199254740992) / N := by
      rw [lt_div_iff₀ hN0]
      exact hgoal
    have h6 : A / N * (1 - 1 / 9007199254740992) = A * (1 - 1 / 9007199254740992) / N := by
      ring
    rw [h6]
    linarith
  · have hgoal : A * (1 + 1 / 9007199254740992) < (hi + 1 - η) * N := by
      have hpos : 0 < hi + 1 - η := by linarith
      have h1 : (hi + 1 - η) * ((1 - 1 / 4096 - 1 / 1152921504606846976) * W)
          ≤ (hi + 1 - η) * N := mul_le_mul_of_nonneg_left hF3 hpos.le
      have h2 : A * (1 + 1 / 9007199254740992)
          ≤ (1 + 1 / 2048) * (hi + 3 / 1152921504606846976) * W
            * (1 + 1 / 9007199254740992) :=
        mul_le_mul_of_nonneg_right hF2 (by norm_num)
      have h3 : (1 + 1 / 2048) * (hi + 3 / 1152921504606846976)
            * (1 + 1 / 9007199254740992)
          < (hi + 1 - η) * (1 - 1 / 4096 - 1 / 1152921504606846976) := by
        linarith
      have h4 := mul_lt_mul_of_pos_right h3 hWpos
      linarith
    have h5 : A * (1 + 1 / 9007199254740992) / N < hi + 1 - η := by
      rw [div_lt_iff₀ hN0]
      exact hgoal
    have h6 : A / N * (1 + 1 / 9007199254740992) = A * (1 + 1 / 9007199254740992) / N := by
      ring
    rw [h6]
    linarith

theorem of_int_channel (n : ℕ) (hn : n < 256) : roundedOps.of_int ((n : ℕ) : ℤ) = (n : ℚ) := by
  show binary64_round (((n : ℕ) : ℤ) : ℚ) = (n : ℚ)
  rw [Int.cast_natCast]
  have h : (256 : ℕ) ≤ 2 ^ 53 := by norm_num
  exact binary64_round_nat n (lt_of_lt_of_le hn h)

theorem intensity_weight_center (I : Image) (G : ℚ → ℚ → ℚ) (intensity_sigma : ℚ) (x y : Nat)
    (hx : x < I.get_width) (hy : y < I.get_height) (hG0 : G 0 intensity_sigma = 1) :
    intensity_weight roundedOps G intensity_sigma (pixel_to_grayscale roundedOps (I.px y x))
      (sample I x y 0 0) = 1 := by
  rw [sample_center I x y hx hy]
  show G |binary64_round (pixel_to_grayscale roundedOps (I.px y x)
      - pixel_to_grayscale roundedOps (I.px y x))| intensity_sigma = 1
  rw [sub_self, binary64_round_zero, abs_zero, hG0]

theorem rounded_weight_nonneg (I : Image) (kernel : Kernel ℚ) (G : ℚ → ℚ → ℚ)
    (intensity_sigma : ℚ) (x y : Nat) (rc : Int × Int)
    (hk : 0 ≤ spatial_weight kernel rc.1 rc.2) (hG : ∀ d, 0 ≤ G d intensity_sigma) :
    0 ≤ rounded_weight I kernel G intensity_sigma x y rc :=
  mul_nonneg hk (hG _)

theorem weight_term_bounds (I : Image) (kernel : Kernel ℚ) (G : ℚ → ℚ → ℚ)
    (intensity_sigma : ℚ) (x y : Nat) (rc : Int × Int)
    (hk : 0 ≤ spatial_weight kernel rc.1 rc.2) (hG : ∀ d, 0 ≤ G d intensity_sigma) :
    rounded_weight I kernel G intensity_sigma x y rc * (1 - u53) - eta64
        ≤ weight_term roundedOps I kernel G intensity_sigma x y rc
      ∧ weight_term roundedOps I kernel G intensity_sigma x y rc
        ≤ rounded_weight I kernel G intensity_sigma x y rc * (1 + u53) + eta64
      ∧ 0 ≤ weight_term roundedOps I kernel G intensity_sigma x y rc
      ∧ on_grid (weight_term roundedOps I kernel G intensity_sigma x y rc) := by
  have h0 := rounded_weight_nonneg I kernel G intensity_sigma x y rc hk hG
  have hb := binary64_round_bounds _ h0
  exact ⟨hb.1, hb.2, binary64_round_nonneg _ h0, binary64_round_on_grid _⟩

theorem channel_term_bounds (ch : rgba_pixel → Fin 256) (I : Image) (kernel : Kernel ℚ)
    (G : ℚ → ℚ → ℚ) (intensity_sigma : ℚ) (x y : Nat) (rc : Int × Int)
    (hk : 0 ≤ spatial_weight kernel rc.1 rc.2)
    (hG : ∀ d, 0 ≤ G d intensity_sigma ∧ G d intensity_sigma ≤ 1) :
    (((ch (sample I x y rc.1 rc.2)).val : ℕ) : ℚ)
          * rounded_weight I kernel G intensity_sigma x y rc * (1 - u53) ^ 2 - 2 * eta64
        ≤ channel_term roundedOps ch I kernel G intensity_sigma x y rc
      ∧ channel_term roundedOps ch I kernel G intensity_sigma x y rc
        ≤ (((ch (sample I x y rc.1 rc.2)).val : ℕ) : ℚ)
          * rounded_weight I kernel G intensity_sigma x y rc * (1 + u53) ^ 2 + 3 * eta64
      ∧ 0 ≤ channel_term roundedOps ch I kernel G intensity_sigma x y rc
      ∧ on_grid (channel_term roundedOps ch I kernel G intensity_sigma x y rc) := by
  have hv : (0 : ℚ) ≤ (((ch (sample I x y rc.1 rc.2)).val : ℕ) : ℚ) := Nat.cast_nonneg _
  have ht := two_roundings
    ((((ch (sample I x y rc.1 rc.2)).val : ℕ) : ℚ) * spatial_weight kernel rc.1 rc.2)
    (intensity_weight roundedOps G intensity_sigma (pixel_to_grayscale roundedOps (I.px y x))
      (sample I x y rc.1 rc.2))
    (mul_nonneg hv hk) (hG _).1 (hG _).2
  have he : channel_term roundedOps ch I kernel G intensity_sigma x y rc
      = binary64_round (binary64_round
          ((((ch (sample I x y rc.1 rc.2)).val : ℕ) : ℚ) * spatial_weight kernel rc.1 rc.2)
        * intensity_weight roundedOps G intensity_sigma
            (pixel_to_grayscale roundedOps (I.px y x)) (sample I x y rc.1 rc.2)) := by
    unfold channel_term
    rw [of_int_channel _ (ch (sample I x y rc.1 rc.2)).isLt]
    rfl
  rw [he]
  unfold rounded_weight
  refine ⟨?_, ?_, ht.2.2, binary64_round_on_grid _⟩
  · rw [← mul_assoc]
    exact ht.1
  · rw [← mul_assoc]
    exact ht.2.1

theorem sum_map_le_add {β : Type} (l : List β) (f g : β → ℚ) (e : ℚ)
    (h : ∀ b ∈ l, f b ≤ g b + e) :
    (l.map f).sum ≤ (l.map g).sum + (l.length : ℚ) * e := by
  induction l with
  | nil => simp
  | cons b t ih =>
    have h1 := h b (List.mem_cons_self b t)
    have h2 := ih (fun b' hb' => h b' (List.mem_cons_of_mem b hb'))
    simp only [List.map_cons, List.sum_cons, List.length_cons]
    push_cast
    linarith

theorem sum_map_scale {β : Type} (l : List β) (w : β → ℚ) (a k : ℚ) :
    (l.map (fun b => a * w b * k)).sum = a * (l.map w).sum * k := by
  induction l with
  | nil => simp
  | cons b t ih =>
    simp only [List.map_cons, List.sum_cons, ih]
    ring

theorem rounded_weight_sum_ge_one (I : Image) (kernel : Kernel ℚ) (G : ℚ → ℚ → ℚ)
    (intensity_sigma : ℚ) (x y : Nat) (hx : x < I.get_width) (hy : y < I.get_height)
    (h0 : ((0 : Int), (0 : Int)) ∈ window kernel)
    (hk : ∀ rc ∈ window kernel, 0 ≤ spatial_weight kernel rc.1 rc.2)
    (hc : 1 ≤ spatial_weight kernel 0 0)
    (hG : ∀ d, 0 ≤ G d intensity_sigma) (hG0 : G 0 intensity_sigma = 1) :
    1 ≤ ((window kernel).map (rounded_weight I kernel G intensity_sigma x y)).sum := by
  have hmem : rounded_weight I kernel G intensity_sigma x y (0, 0)
      ∈ (window kernel).map (rounded_weight I kernel G intensity_sigma x y) :=
    List.mem_map_of_mem _ h0
  have hnn : ∀ t ∈ (window kernel).map (rounded_weight I kernel G intensity_sigma x y),
      0 ≤ t := by
    intro t ht
    obtain ⟨rc, hrc, rfl⟩ := List.mem_map.mp ht
    exact rounded_weight_nonneg I kernel G intensity_sigma x y rc (hk rc hrc) hG
  have h1 := List.single_le_sum hnn _ hmem
  have h2 : rounded_weight I kernel G intensity_sigma x y (0, 0)
      = spatial_weight kernel 0 0 := by
    unfold rounded_weight
    rw [intensity_weight_center I G intensity_sigma x y hx hy hG0, mul_one]
  rw [h2] at h1
  exact le_trans hc h1

theorem rounded_quotient_range (ch : rgba_pixel → Fin 256) (I : Image) (kernel : Kernel ℚ)
    (G : ℚ → ℚ → ℚ) (intensity_sigma : ℚ) (x y : Nat) (lo hi : ℕ)
    (hx : x < I.get_width) (hy : y < I.get_height)
    (hlen : (window kernel).length ≤ 2 ^ 40)
    (h0 : ((0 : Int), (0 : Int)) ∈ window kernel)
    (hk : ∀ rc ∈ window kernel, 0 ≤ spatial_weight kernel rc.1 rc.2)
    (hc : 1 ≤ spatial_weight kernel 0 0)
    (hG : ∀ d, 0 ≤ G d intensity_sigma ∧ G d intensity_sigma ≤ 1)
    (hG0 : G 0 intensity_sigma = 1)
    (hlo : ∀ rc ∈ window kernel, lo ≤ (ch (sample I x y rc.1 rc.2)).val)
    (hhi : ∀ rc ∈ window kernel, (ch (sample I x y rc.1 rc.2)).val ≤ hi)
    (hlohi : lo ≤ hi) (hhi255 : hi ≤ 255) :
    0 < fl_sum ((window kernel).map (weight_term roundedOps I kernel G intensity_sigma x y)) 0
      ∧ 0 ≤ binary64_round
          (fl_sum ((window kernel).map
              (channel_term roundedOps ch I kernel G intensity_sigma x y)) 0
            / fl_sum ((window kernel).map
              (weight_term roundedOps I kernel G intensity_sigma x y)) 0)
      ∧ (lo : ℚ) - 1 < binary64_round
          (fl_sum ((window kernel).map
              (channel_term roundedOps ch I kernel G intensity_sigma x y)) 0
            / fl_sum ((window kernel).map
              (weight_term roundedOps I kernel G intensity_sigma x y)) 0)
      ∧ binary64_round
          (fl_sum ((window kernel).map
              (channel_term roundedOps ch I kernel G intensity_sigma x y)) 0
            / fl_sum ((window kernel).map
              (weight_term roundedOps I kernel G intensity_sigma x y)) 0) < (hi : ℚ) + 1 := by
  have hG' : ∀ d, 0 ≤ G d intensity_sigma := fun d => (hG d).1
  have hW := rounded_weight_sum_ge_one I kernel G intensity_sigma x y hx hy h0 hk hc hG' hG0
  have hu0 : 0 ≤ 1 - u53 := by linarith [u53_lt_one]
  have hu1 : 0 ≤ 1 + u53 := by linarith [u53_pos]
  have hc0 : 0 ≤ (1 - u53) ^ (window kernel).length := pow_nonneg hu0 _
  have hC0 : 0 ≤ (1 + u53) ^ (window kernel).length := pow_nonneg hu1 _
  have hk2 : (0 : ℚ) ≤ (1 - u53) ^ 2 := sq_nonneg _
  have hK2 : (0 : ℚ) ≤ (1 + u53) ^ 2 := sq_nonneg _
  -- the accumulated channel
  have hT := fl_sum_bounds
    ((window kernel).map (channel_term roundedOps ch I kernel G intensity_sigma x y)) 0
    le_rfl on_grid_zero (by
      intro t ht
      obtain ⟨rc, hrc, rfl⟩ := List.mem_map.mp ht
      have h := channel_term_bounds ch I kernel G intensity_sigma x y rc (hk rc hrc) hG
      exact ⟨h.2.2.1, h.2.2.2⟩)
  rw [List.length_map, zero_add] at hT
  have hTlo := sum_map_le_add (window kernel)
    (fun rc => (lo : ℚ) * rounded_weight I kernel G intensity_sigma x y rc * (1 - u53) ^ 2)
    (channel_term roundedOps ch I kernel G intensity_sigma x y) (2 * eta64) (by
      intro rc hrc
      have h := (channel_term_bounds ch I kernel G intensity_sigma x y rc (hk rc hrc) hG).1
      have hw := rounded_weight_nonneg I kernel G intensity_sigma x y rc (hk rc hrc) hG'
      have hv : (lo : ℚ) ≤ (((ch (sample I x y rc.1 rc.2)).val : ℕ) : ℚ) := by
        exact_mod_cast hlo rc hrc
      have h2 := mul_le_mul_of_nonneg_right (mul_le_mul_of_nonneg_right hv hw) hk2
      show (lo : ℚ) * rounded_weight I kernel G intensity_sigma x y rc * (1 - u53) ^ 2
        ≤ channel_term roundedOps ch I kernel G intensity_sigma x y rc + 2 * eta64
      linarith)
  have hThi := sum_map_le_add (window kernel)
    (channel_term roundedOps ch I kernel G intensity_sigma x y)
    (fun rc => (hi : ℚ) * rounded_weight I kernel G intensity_sigma x y rc * (1 + u53) ^ 2)
    (3 * eta64) (by
      intro rc hrc
      have h := (channel_term_bounds ch I kernel G intensity_sigma x y rc (hk rc hrc) hG).2.1
      have hw := rounded_weight_nonneg I kernel G intensity_sigma x y rc (hk rc hrc) hG'
      have hv : (((ch (sample I x y rc.1 rc.2)).val : ℕ) : ℚ) ≤ (hi : ℚ) := by
        exact_mod_cast hhi rc hrc
      have h2 := mul_le_mul_of_nonneg_right (mul_le_mul_of_nonneg_right hv hw) hK2
      show channel_term roundedOps ch I kernel G intensity_sigma x y rc
        ≤ (hi : ℚ) * rounded_weight I kernel G intensity_sigma x y rc * (1 + u53) ^ 2
          + 3 * eta64
      linarith)
  rw [sum_map_scale] at hTlo hThi
  -- the normalization term
  have hN := fl_sum_bounds
    ((window kernel).map (weight_term roundedOps I kernel G intensity_sigma x y)) 0
    le_rfl on_grid_zero (by
      intro t ht
      obtain ⟨rc, hrc, rfl⟩ := List.mem_map.mp ht
      have h := weight_term_bounds I kernel G intensity_sigma x y rc (hk rc hrc) hG'
      exact ⟨h.2.2.1, h.2.2.2⟩)
  rw [List.length_map, zero_add] at hN
  have hNlo := sum_map_le_add (window kernel)
    (fun rc => 1 * rounded_weight I kernel G intensity_sigma x y rc * (1 - u53))
    (weight_term roundedOps I kernel G intensity_sigma x y) eta64 (by
      intro rc hrc
      have h := (weight_term_bounds I kernel G intensity_sigma x y rc (hk rc hrc) hG').1
      show 1 * rounded_weight I kernel G intensity_sigma x y rc * (1 - u53)
        ≤ weight_term roundedOps I kernel G intensity_sigma x y rc + eta64
      linarith)
  have hNhi := sum_map_le_add (window kernel)
    (weight_term roundedOps I kernel G intensity_sigma x y)
    (fun rc => 1 * rounded_weight I kernel G intensity_sigma x y rc * (1 + u53)) eta64 (by
      intro rc hrc
      have h := (weight_term_bounds I kernel G intensity_sigma x y rc (hk rc hrc) hG').2.1
      show weight_term roundedOps I kernel G intensity_sigma x y rc
        ≤ 1 * rounded_weight I kernel G intensity_sigma x y rc * (1 + u53) + eta64
      linarith)
  rw [sum_map_scale, one_mul] at hNlo hNhi
  have hlo0 : (0 : ℚ) ≤ (lo : ℚ) := Nat.cast_nonneg _
  have hlohi' : (lo : ℚ) ≤ (hi : ℚ) := by exact_mod_cast hlohi
  have hhi' : (hi : ℚ) ≤ 255 := by exact_mod_cast hhi255
  have hq := quotient_bounds _ _ _ (lo : ℚ) (hi : ℚ) (window kernel).length hlen hW hlo0 hlohi'
    hhi' hT.2.2
    (le_trans (mul_le_mul_of_nonneg_left (by linarith) hc0) hT.1)
    (le_trans hT.2.1 (mul_le_mul_of_nonneg_left (by linarith) hC0))
    (le_trans (mul_le_mul_of_nonneg_left (by linarith) hc0) hN.1)
    (le_trans hN.2.1 (mul_le_mul_of_nonneg_left (by linarith) hC0))
  have hd0 := div_nonneg hT.2.2 hN.2.2
  have hb := binary64_round_bounds _ hd0
  exact ⟨hq.1, binary64_round_nonneg _ hd0, by linarith [hq.2.1], by linarith [hq.2.2]⟩

theorem main_pixel_rounded (I : Image) (kernel : Kernel ℚ) (G : ℚ → ℚ → ℚ)
    (intensity_sigma : ℚ) (x y : Nat) :
    main_pixel roundedOps I kernel G intensity_sigma x y
      = PIXEL
          (roundedOps.to_unsigned
            (rounded_quotient rgba_pixel.red I kernel G intensity_sigma x y))
          (roundedOps.to_unsigned
            (rounded_quotient rgba_pixel.green I kernel G intensity_sigma x y))
          (roundedOps.to_unsigned
            (rounded_quotient rgba_pixel.blue I kernel G intensity_sigma x y)) := by
  unfold main_pixel
  rw [window_loop_rounded]
  rfl

theorem channel_within_one (q : ℚ) (lo hi : ℕ) (hq0 : 0 ≤ q) (h1 : (lo : ℚ) - 1 < q)
    (h2 : q < (hi : ℚ) + 1) (hhi : hi ≤ 255) :
    lo ≤ (Fin.ofNat (CLAMP_INT (roundedOps.to_unsigned q)).toNat : Fin 256).val + 1
      ∧ (Fin.ofNat (CLAMP_INT (roundedOps.to_unsigned q)).toNat : Fin 256).val ≤ hi
      ∧ CLAMP_INT (roundedOps.to_unsigned q) = roundedOps.to_unsigned q := by
  have hhi' : (hi : ℚ) ≤ 255 := by exact_mod_cast hhi
  have hf0 : 0 ≤ ⌊q⌋ := Int.floor_nonneg.mpr hq0
  have hf1 : (lo : ℤ) - 1 ≤ ⌊q⌋ := by
    rw [Int.le_floor]
    push_cast
    exact h1.le
  have hf2 : ⌊q⌋ < (hi : ℤ) + 1 := by
    rw [Int.floor_lt]
    push_cast
    exact h2
  have hv := to_unsigned_channel q (by linarith) (by linarith)
  have hu : roundedOps.to_unsigned q = ⌊q⌋ := by
    show trunc q % 4294967296 = ⌊q⌋
    rw [trunc_of_nonneg q hq0]
    omega
  have hv' : (((Fin.ofNat (CLAMP_INT (roundedOps.to_unsigned q)).toNat : Fin 256).val : Nat)
      : Int) = min 255 (max 0 ⌊q⌋) := hv
  refine ⟨?_, ?_, ?_⟩
  · omega
  · omega
  · rw [hu, CLAMP_INT_eq]
    omega

theorem channel_range_rounded (ch : rgba_pixel → Fin 256) (I : Image) (kernel : Kernel ℚ)
    (G : ℚ → ℚ → ℚ) (intensity_sigma : ℚ) (x y : Nat)
    (hx : x < I.get_width) (hy : y < I.get_height)
    (hlen : (window kernel).length ≤ 2 ^ 40)
    (h0 : ((0 : Int), (0 : Int)) ∈ window kernel)
    (hk : ∀ rc ∈ window kernel, 0 ≤ spatial_weight kernel rc.1 rc.2)
    (hc : spatial_weight kernel 0 0 = 1)
    (hG : ∀ d, 0 ≤ G d intensity_sigma ∧ G d intensity_sigma ≤ 1)
    (hG0 : G 0 intensity_sigma = 1) :
    (∃ rc ∈ window kernel,
        (ch (sample I x y rc.1 rc.2)).val
          ≤ (Fin.ofNat (CLAMP_INT (roundedOps.to_unsigned
              (rounded_quotient ch I kernel G intensity_sigma x y))).toNat : Fin 256).val + 1)
      ∧ (∃ rc ∈ window kernel,
        (Fin.ofNat (CLAMP_INT (roundedOps.to_unsigned
              (rounded_quotient ch I kernel G intensity_sigma x y))).toNat : Fin 256)
          ≤ ch (sample I x y rc.1 rc.2))
      ∧ CLAMP_INT (roundedOps.to_unsigned
            (rounded_quotient ch I kernel G intensity_sigma x y))
          = roundedOps.to_unsigned (rounded_quotient ch I kernel G intensity_sigma x y) := by
  classical
  have hne : (window kernel).toFinset.Nonempty := ⟨(0, 0), List.mem_toFinset.mpr h0⟩
  obtain ⟨lo, hlo, hlo'⟩ := (window kernel).toFinset.exists_min_image
    (fun rc => (ch (sample I x y rc.1 rc.2)).val) hne
  obtain ⟨hi, hhi, hhi'⟩ := (window kernel).toFinset.exists_max_image
    (fun rc => (ch (sample I x y rc.1 rc.2)).val) hne
  rw [List.mem_toFinset] at hlo hhi
  have hq := rounded_quotient_range ch I kernel G intensity_sigma x y
    (ch (sample I x y lo.1 lo.2)).val (ch (sample I x y hi.1 hi.2)).val hx hy hlen h0 hk
    (le_of_eq hc.symm) hG hG0
    (fun rc hrc => hlo' rc (List.mem_toFinset.mpr hrc))
    (fun rc hrc => hhi' rc (List.mem_toFinset.mpr hrc))
    (hlo' hi (List.mem_toFinset.mpr hhi))
    (Nat.le_of_lt_succ (ch (sample I x y hi.1 hi.2)).isLt)
  have h := channel_within_one (rounded_quotient ch I kernel G intensity_sigma x y)
    (ch (sample I x y lo.1 lo.2)).val (ch (sample I x y hi.1 hi.2)).val
    hq.2.1 hq.2.2.1 hq.2.2.2 (Nat.le_of_lt_succ (ch (sample I x y hi.1 hi.2)).isLt)
  exact ⟨⟨lo, hlo, h.1⟩, ⟨hi, hhi, Fin.le_def.mpr h.2.1⟩, h.2.2⟩

theorem channel_flat_rounded (ch : rgba_pixel → Fin 256) (I : Image) (kernel : Kernel ℚ)
    (G : ℚ → ℚ → ℚ) (intensity_sigma : ℚ) (x y : Nat) (v : Fin 256)
    (hx : x < I.get_width) (hy : y < I.get_height)
    (hlen : (window kernel).length ≤ 2 ^ 40)
    (h0 : ((0 : Int), (0 : Int)) ∈ window kernel)
    (hk : ∀ rc ∈ window kernel, 0 ≤ spatial_weight kernel rc.1 rc.2)
    (hc : spatial_weight kernel 0 0 = 1)
    (hG : ∀ d, 0 ≤ G d intensity_sigma ∧ G d intensity_sigma ≤ 1)
    (hG0 : G 0 intensity_sigma = 1)
    (hch : ∀ r c, ch (sample I x y r c) = v) :
    (Fin.ofNat (CLAMP_INT (roundedOps.to_unsigned
        (rounded_quotient ch I kernel G intensity_sigma x y))).toNat : Fin 256) = v
      ∨ (Fin.ofNat (CLAMP_INT (roundedOps.to_unsigned
          (rounded_quotient ch I kernel G intensity_sigma x y))).toNat : Fin 256).val + 1
        = v.val := by
  obtain ⟨⟨lo, -, hlo⟩, ⟨hi, -, hhi⟩, -⟩ :=
    channel_range_rounded ch I kernel G intensity_sigma x y hx hy hlen h0 hk hc hG hG0
  rw [hch] at hlo hhi
  rw [Fin.le_def] at hhi
  rcases Nat.lt_or_ge
    (Fin.ofNat (CLAMP_INT (roundedOps.to_unsigned
      (rounded_quotient ch I kernel G intensity_sigma x y))).toNat : Fin 256).val v.val
    with hlt | hge
  · right
    omega
  · left
    exact Fin.ext (le_antisymm hhi hge)

/-! ## The binary64 reading: finite results -/

theorem binary64_round_neg (q : ℚ) : binary64_round (-q) = -binary64_round q := by
  unfold binary64_round
  have hn : (-q).num.natAbs = q.num.natAbs := by
    rw [Rat.neg_num, Int.natAbs_neg]
  have hd : (-q).den = q.den := Rat.neg_den q
  rw [hn, hd]
  rcases lt_trichotomy q 0 with h | h | h
  · have h1 : ¬ (-q = 0) := by
      intro h'
      rw [neg_eq_zero] at h'
      exact h.ne h'
    have h2 : (0 : ℚ) ≤ -q := by linarith
    have h3 : ¬ ((0 : ℚ) ≤ q) := not_le.mpr h
    rw [if_neg h1, if_pos h2, if_neg h.ne, if_neg h3, neg_neg]
  · rw [h]
    simp
  · have h1 : ¬ (-q = 0) := by
      intro h'
      rw [neg_eq_zero] at h'
      exact h.ne' h'
    have h2 : ¬ ((0 : ℚ) ≤ -q) := by
      intro h'
      linarith
    rw [if_neg h1, if_neg h2, if_neg h.ne', if_pos h.le]

theorem binary64_round_abs_le (q : ℚ) : |binary64_round q| ≤ |q| * (1 + u53) + eta64 := by
  rcases le_total 0 q with h | h
  · rw [abs_of_nonneg h, abs_of_nonneg (binary64_round_nonneg q h)]
    exact (binary64_round_bounds q h).2
  · have h' : (0 : ℚ) ≤ -q := by linarith
    have e : binary64_round q = -binary64_round (-q) := by
      rw [binary64_round_neg, neg_neg]
    rw [e, abs_neg, abs_of_nonneg (binary64_round_nonneg _ h'), abs_of_nonpos h]
    exact (binary64_round_bounds (-q) h').2

theorem binary64_finite_eq (q : ℚ) (h : |q| ≤ 1267650600228229401496703205376) :
    binary64_finite q = some (binary64_round q) := by
  unfold binary64_finite
  rw [if_pos]
  have h1 := binary64_round_abs_le q
  have hu := u53_eq
  have he := eta64_le
  have hq0 := abs_nonneg q
  have h2 : |q| * (1 + u53) + eta64 ≤ 1267650600228229401496703205376 * 2 + 1 := by
    rw [hu]
    nlinarith
  have h3 : (1267650600228229401496703205376 * 2 + 1 : ℚ) < 2 ^ 1024 := by norm_num
  linarith

theorem binary64_round_le (q B : ℚ) (h0 : 0 ≤ q) (h1 : q ≤ B) (hB : B ≤ 4503599627370496) :
    0 ≤ binary64_round q ∧ binary64_round q ≤ B + 1 := by
  have h := (binary64_round_bounds q h0).2
  have hu := u53_eq
  have he := eta64_le
  refine ⟨binary64_round_nonneg q h0, ?_⟩
  rw [hu] at h
  linarith

theorem binary64Ops_of_int (n : ℕ) (hn : n < 256) :
    binary64Ops.of_int ((n : ℕ) : ℤ) = some (n : ℚ) := by
  show binary64_finite (((n : ℕ) : ℤ) : ℚ) = some (n : ℚ)
  have hn' : (n : ℚ) < 256 := by exact_mod_cast hn
  have h0 : (0 : ℚ) ≤ (n : ℚ) := Nat.cast_nonneg n
  rw [Int.cast_natCast, binary64_finite_eq _ (by rw [abs_of_nonneg h0]; linarith)]
  have h : (256 : ℕ) ≤ 2 ^ 53 := by norm_num
  rw [binary64_round_nat n (lt_of_lt_of_le hn h)]

theorem binary64Ops_zero : binary64Ops.of_int 0 = some 0 := by
  have h := binary64Ops_of_int 0 (by norm_num)
  simpa using h

theorem binary64Ops_lit (q : ℚ) (h : |q| ≤ 1267650600228229401496703205376) :
    binary64Ops.lit q = some (roundedOps.lit q) :=
  binary64_finite_eq q h

theorem binary64Ops_add (a b : ℚ) (h : |a + b| ≤ 1267650600228229401496703205376) :
    binary64Ops.add (some a) (some b) = some (roundedOps.add a b) :=
  binary64_finite_eq (a + b) h

theorem binary64Ops_sub (a b : ℚ) (h : |a - b| ≤ 1267650600228229401496703205376) :
    binary64Ops.sub (some a) (some b) = some (roundedOps.sub a b) :=
  binary64_finite_eq (a - b) h

theorem binary64Ops_mul (a b : ℚ) (h : |a * b| ≤ 1267650600228229401496703205376) :
    binary64Ops.mul (some a) (some b) = some (roundedOps.mul a b) :=
  binary64_finite_eq (a * b) h

theorem binary64Ops_div (a b : ℚ) (hb : b ≠ 0)
    (h : |a / b| ≤ 1267650600228229401496703205376) :
    binary64Ops.div (some a) (some b) = some (roundedOps.div a b) := by
  show (if b = 0 then none else binary64_finite (a / b)) = some (binary64_round (a / b))
  rw [if_neg hb, binary64_finite_eq (a / b) h]

theorem channel_product_bounds (n : ℕ) (hn : n < 256) (c : ℚ) (hc0 : 0 ≤ c) (hc1 : c ≤ 1) :
    binary64Ops.mul (binary64Ops.of_int ((n : ℕ) : ℤ)) (some c)
        = some (roundedOps.mul (roundedOps.of_int ((n : ℕ) : ℤ)) c)
      ∧ 0 ≤ roundedOps.mul (roundedOps.of_int ((n : ℕ) : ℤ)) c
      ∧ roundedOps.mul (roundedOps.of_int ((n : ℕ) : ℤ)) c ≤ 256 := by
  have hn' : (n : ℚ) ≤ 255 := by
    have : n ≤ 255 := by omega
    exact_mod_cast this
  have h0 : (0 : ℚ) ≤ (n : ℚ) := Nat.cast_nonneg n
  have hp0 : 0 ≤ (n : ℚ) * c := mul_nonneg h0 hc0
  have hp1 : (n : ℚ) * c ≤ 255 := by nlinarith
  have e : roundedOps.of_int ((n : ℕ) : ℤ) = (n : ℚ) := of_int_channel n hn
  rw [binary64Ops_of_int n hn, e,
    binary64Ops_mul _ _ (by rw [abs_of_nonneg hp0]; linarith)]
  have hb := binary64_round_le ((n : ℚ) * c) 255 hp0 hp1 (by norm_num)
  exact ⟨rfl, hb.1, by
    have := hb.2
    show binary64_round ((n : ℚ) * c) ≤ 256
    linarith⟩

theorem lit_bounds (q : ℚ) (h0 : 0 ≤ q) (h1 : q ≤ 3 / 5) :
    binary64Ops.lit q = some (roundedOps.lit q) ∧ 0 ≤ roundedOps.lit q ∧ roundedOps.lit q ≤ 1 := by
  have hb := (binary64_round_bounds q h0).2
  have hu := u53_eq
  have he := eta64_le
  refine ⟨binary64Ops_lit q (by rw [abs_of_nonneg h0]; linarith), binary64_round_nonneg q h0, ?_⟩
  show binary64_round q ≤ 1
  rw [hu] at hb
  linarith

theorem pixel_to_grayscale_finite (p : rgba_pixel) :
    pixel_to_grayscale binary64Ops p = some (pixel_to_grayscale roundedOps p)
      ∧ 0 ≤ pixel_to_grayscale roundedOps p ∧ pixel_to_grayscale roundedOps p ≤ 1024 := by
  obtain ⟨l1, l1a, l1b⟩ := lit_bounds (299 / 1000) (by norm_num) (by norm_num)
  obtain ⟨l2, l2a, l2b⟩ := lit_bounds (587 / 1000) (by norm_num) (by norm_num)
  obtain ⟨l3, l3a, l3b⟩ := lit_bounds (114 / 1000) (by norm_num) (by norm_num)
  obtain ⟨m1, m1a, m1b⟩ := channel_product_bounds p.red.val p.red.isLt _ l1a l1b
  obtain ⟨m2, m2a, m2b⟩ := channel_product_bounds p.green.val p.green.isLt _ l2a l2b
  obtain ⟨m3, m3a, m3b⟩ := channel_product_bounds p.blue.val p.blue.isLt _ l3a l3b
  have hs0 : 0 ≤ roundedOps.mul (roundedOps.of_int ((p.red.val : ℕ) : ℤ))
        (roundedOps.lit (299 / 1000))
      + roundedOps.mul (roundedOps.of_int ((p.green.val : ℕ) : ℤ))
        (roundedOps.lit (587 / 1000)) := add_nonneg m1a m2a
  have hs := binary64_round_le _ 512 hs0 (by linarith) (by norm_num)
  have ht0 : 0 ≤ roundedOps.add
        (roundedOps.mul (roundedOps.of_int ((p.red.val : ℕ) : ℤ)) (roundedOps.lit (299 / 1000)))
        (roundedOps.mul (roundedOps.of_int ((p.green.val : ℕ) : ℤ))
          (roundedOps.lit (587 / 1000)))
      + roundedOps.mul (roundedOps.of_int ((p.blue.val : ℕ) : ℤ))
        (roundedOps.lit (114 / 1000)) := add_nonneg hs.1 m3a
  have ht := binary64_round_le _ 769 ht0 (by
    have := hs.2
    show binary64_round _ + _ ≤ 769
    linarith) (by norm_num)
  refine ⟨?_, ht.1, le_trans ht.2 (by norm_num)⟩
  unfold pixel_to_grayscale
  rw [l1, l2, l3, m1, m2, m3,
    binary64Ops_add _ _ (by rw [abs_of_nonneg hs0]; linarith),
    binary64Ops_add _ _ (by
      rw [abs_of_nonneg ht0]
      have := hs.2
      show binary64_round _ + _ ≤ 1267650600228229401496703205376
      linarith)]

theorem intensity_weight_finite (G : ℚ → ℚ → ℚ) (intensity_sigma : ℚ) (p q : rgba_pixel) :
    intensity_weight binary64Ops (finite_weight G) (some intensity_sigma)
        (pixel_to_grayscale binary64Ops q) p
      = some (intensity_weight roundedOps G intensity_sigma (pixel_to_grayscale roundedOps q) p) := by
  obtain ⟨hp, hp0, hp1⟩ := pixel_to_grayscale_finite p
  obtain ⟨hq, hq0, hq1⟩ := pixel_to_grayscale_finite q
  unfold intensity_weight
  rw [hp, hq, binary64Ops_sub _ _ (by
    rw [abs_le]
    constructor <;> linarith)]
  rfl

theorem weight_term_finite (I : Image) (kernel : Kernel ℚ) (G : ℚ → ℚ → ℚ)
    (intensity_sigma : ℚ) (x y : Nat) (rc : Int × Int)
    (hk : 0 ≤ spatial_weight kernel rc.1 rc.2 ∧ spatial_weight kernel rc.1 rc.2 ≤ 1)
    (hG : ∀ d, 0 ≤ G d intensity_sigma ∧ G d intensity_sigma ≤ 1) :
    weight_term binary64Ops I (finite_kernel kernel) (finite_weight G) (some intensity_sigma)
        x y rc
      = some (weight_term roundedOps I kernel G intensity_sigma x y rc)
      ∧ 0 ≤ weight_term roundedOps I kernel G intensity_sigma x y rc
      ∧ weight_term roundedOps I kernel G intensity_sigma x y rc ≤ 512
      ∧ on_grid (weight_term roundedOps I kernel G intensity_sigma x y rc) := by
  have hg := hG (roundedOps.fabs (roundedOps.sub
    (pixel_to_grayscale roundedOps (sample I x y rc.1 rc.2))
    (pixel_to_grayscale roundedOps (I.px y x))))
  have hp0 : 0 ≤ spatial_weight kernel rc.1 rc.2
      * intensity_weight roundedOps G intensity_sigma (pixel_to_grayscale roundedOps (I.px y x))
          (sample I x y rc.1 rc.2) := mul_nonneg hk.1 hg.1
  have hp1 : spatial_weight kernel rc.1 rc.2
      * intensity_weight roundedOps G intensity_sigma (pixel_to_grayscale roundedOps (I.px y x))
          (sample I x y rc.1 rc.2) ≤ 1 := mul_le_one₀ hk.2 hg.1 hg.2
  have hb := binary64_round_le _ 1 hp0 hp1 (by norm_num)
  refine ⟨?_, hb.1, le_trans hb.2 (by norm_num), binary64_round_on_grid _⟩
  unfold weight_term
  rw [intensity_weight_finite]
  exact binary64Ops_mul (spatial_weight kernel rc.1 rc.2)
    (intensity_weight roundedOps G intensity_sigma (pixel_to_grayscale roundedOps (I.px y x))
      (sample I x y rc.1 rc.2)) (by rw [abs_of_nonneg hp0]; linarith)

theorem channel_term_finite (ch : rgba_pixel → Fin 256) (I : Image) (kernel : Kernel ℚ)
    (G : ℚ → ℚ → ℚ) (intensity_sigma : ℚ) (x y : Nat) (rc : Int × Int)
    (hk : 0 ≤ spatial_weight kernel rc.1 rc.2 ∧ spatial_weight kernel rc.1 rc.2 ≤ 1)
    (hG : ∀ d, 0 ≤ G d intensity_sigma ∧ G d intensity_sigma ≤ 1) :
    channel_term binary64Ops ch I (finite_kernel kernel) (finite_weight G)
        (some intensity_sigma) x y rc
      = some (channel_term roundedOps ch I kernel G intensity_sigma x y rc)
      ∧ 0 ≤ channel_term roundedOps ch I kernel G intensity_sigma x y rc
      ∧ channel_term roundedOps ch I kernel G intensity_sigma x y rc ≤ 512
      ∧ on_grid (channel_term roundedOps ch I kernel G intensity_sigma x y rc) := by
  have hg := hG (roundedOps.fabs (roundedOps.sub
    (pixel_to_grayscale roundedOps (sample I x y rc.1 rc.2))
    (pixel_to_grayscale roundedOps (I.px y x))))
  obtain ⟨m, m0, m1⟩ := channel_product_bounds (ch (sample I x y rc.1 rc.2)).val
    (ch (sample I x y rc.1 rc.2)).isLt _ hk.1 hk.2
  have hp0 : 0 ≤ roundedOps.mul
        (roundedOps.of_int (((ch (sample I x y rc.1 rc.2)).val : ℕ) : ℤ))
        (spatial_weight kernel rc.1 rc.2)
      * intensity_weight roundedOps G intensity_sigma (pixel_to_grayscale roundedOps (I.px y x))
          (sample I x y rc.1 rc.2) := mul_nonneg m0 hg.1
  have hp1 : roundedOps.mul
        (roundedOps.of_int (((ch (sample I x y rc.1 rc.2)).val : ℕ) : ℤ))
        (spatial_weight kernel rc.1 rc.2)
      * intensity_weight roundedOps G intensity_sigma (pixel_to_grayscale roundedOps (I.px y x))
          (sample I x y rc.1 rc.2) ≤ 256 := by
    have h := mul_le_mul m1 hg.2 hg.1 (by norm_num : (0 : ℚ) ≤ 256)
    rw [mul_one] at h
    exact h
  have hb := binary64_round_le _ 256 hp0 hp1 (by norm_num)
  refine ⟨?_, hb.1, le_trans hb.2 (by norm_num), binary64_round_on_grid _⟩
  unfold channel_term
  rw [intensity_weight_finite]
  show binary64Ops.mul
      (binary64Ops.mul (binary64Ops.of_int (((ch (sample I x y rc.1 rc.2)).val : ℕ) : ℤ))
        (some (spatial_weight kernel rc.1 rc.2))) _ = _
  rw [m]
  exact binary64Ops_mul _ _ (by rw [abs_of_nonneg hp0]; linarith)

theorem pow_le_bound (j : ℕ) (hj : j ≤ 2 ^ 40) : (1 + u53) ^ j ≤ 1 + 1 / 2048 := by
  obtain ⟨-, -, -, h1, h2, -⟩ := pow_bounds j hj
  have hu := u53_pos
  have h3 : (1 : ℚ) ≤ (1 + u53) ^ 2 := one_le_pow₀ (by linarith)
  have h4 : (1 + u53) ^ j * 1 ≤ (1 + u53) ^ j * (1 + u53) ^ 2 :=
    mul_le_mul_of_nonneg_left h3 (by linarith)
  linarith

theorem foldl_add_finite {β : Type} (l : List β) (f : β → Option ℚ) (g : β → ℚ)
    (hf : ∀ b ∈ l, f b = some (g b) ∧ 0 ≤ g b ∧ g b ≤ 512 ∧ on_grid (g b))
    (j : ℕ) (a : ℚ) (ha0 : 0 ≤ a) (hag : on_grid a)
    (ha : a ≤ (1 + u53) ^ j * ((j : ℚ) * 512)) (hj : j + l.length ≤ 2 ^ 40) :
    l.foldl (fun acc b => binary64Ops.add acc (f b)) (some a)
      = some (l.foldl (fun acc b => roundedOps.add acc (g b)) a) := by
  induction l generalizing j a with
  | nil => rfl
  | cons b t ih =>
    obtain ⟨hb, hb0, hb1, hbg⟩ := hf b (List.mem_cons_self b t)
    have hlen : j + 1 + t.length ≤ 2 ^ 40 := by
      rw [List.length_cons] at hj
      omega
    have hj' : j ≤ 2 ^ 40 := by omega
    have hj0 : (0 : ℚ) ≤ (j : ℚ) := Nat.cast_nonneg j
    have hj1 : (j : ℚ) ≤ 1099511627776 := by exact_mod_cast hj'
    have hu := u53_pos
    have hP := pow_le_bound j hj'
    have hP1 : (1 : ℚ) ≤ (1 + u53) ^ j := one_le_pow₀ (by linarith)
    have hP0 : (0 : ℚ) ≤ (1 + u53) ^ j := by linarith
    have hs0 : 0 ≤ a + g b := add_nonneg ha0 hb0
    have ha' : a ≤ 2 * (1099511627776 * 512) := by
      have h1 : (1 + u53) ^ j * ((j : ℚ) * 512) ≤ (1 + 1 / 2048) * ((j : ℚ) * 512) :=
        mul_le_mul_of_nonneg_right hP (by positivity)
      linarith
    have hr := binary64_round_bounds_grid (a + g b) hs0 (on_grid_add a (g b) hag hbg)
    have hnext : binary64_round (a + g b)
        ≤ (1 + u53) ^ (j + 1) * (((j + 1 : ℕ) : ℚ) * 512) := by
      have h1 : (a + g b) * (1 + u53)
          ≤ ((1 + u53) ^ j * ((j : ℚ) * 512) + (1 + u53) ^ j * 512) * (1 + u53) := by
        apply mul_le_mul_of_nonneg_right _ (by linarith)
        have : g b ≤ (1 + u53) ^ j * 512 := by nlinarith
        linarith
      have h2 : ((1 + u53) ^ j * ((j : ℚ) * 512) + (1 + u53) ^ j * 512) * (1 + u53)
          = (1 + u53) ^ (j + 1) * (((j + 1 : ℕ) : ℚ) * 512) := by
        push_cast
        ring
      linarith [hr.2]
    rw [List.foldl_cons, List.foldl_cons, hb,
      binary64Ops_add a (g b) (by rw [abs_of_nonneg hs0]; linarith)]
    exact ih (fun b' hb' => hf b' (List.mem_cons_of_mem b hb')) (j + 1) _
      (binary64_round_nonneg _ hs0) (binary64_round_on_grid _) hnext hlen

theorem accumulator_finite {β : Type} (l : List β) (f : β → Option ℚ) (g : β → ℚ)
    (hlen : l.length ≤ 2 ^ 40)
    (hf : ∀ b ∈ l, f b = some (g b) ∧ 0 ≤ g b ∧ g b ≤ 512 ∧ on_grid (g b)) :
    l.foldl (fun acc b => binary64Ops.add acc (f b)) (binary64Ops.of_int 0)
      = some (fl_sum (l.map g) 0) := by
  rw [binary64Ops_zero, foldl_add_finite l f g hf 0 0 le_rfl on_grid_zero (by simp)
    (by omega)]
  unfold fl_sum
  rw [List.foldl_map]
  rfl

theorem window_loop_finite (I : Image) (kernel : Kernel ℚ) (G : ℚ → ℚ → ℚ)
    (intensity_sigma : ℚ) (x y : Nat)
    (hlen : (window kernel).length ≤ 2 ^ 40)
    (hk : ∀ rc ∈ window kernel,
      0 ≤ spatial_weight kernel rc.1 rc.2 ∧ spatial_weight kernel rc.1 rc.2 ≤ 1)
    (hG : ∀ d, 0 ≤ G d intensity_sigma ∧ G d intensity_sigma ≤ 1) :
    window_loop binary64Ops I (finite_kernel kernel) (finite_weight G) (some intensity_sigma)
        x y
      = { final_red := some (fl_sum ((window kernel).map
            (channel_term roundedOps rgba_pixel.red I kernel G intensity_sigma x y)) 0)
          final_green := some (fl_sum ((window kernel).map
            (channel_term roundedOps rgba_pixel.green I kernel G intensity_sigma x y)) 0)
          final_blue := some (fl_sum ((window kernel).map
            (channel_term roundedOps rgba_pixel.blue I kernel G intensity_sigma x y)) 0)
          normalization_term := some (fl_sum ((window kernel).map
            (weight_term roundedOps I kernel G intensity_sigma x y)) 0) } := by
  have hw : window (finite_kernel kernel) = window kernel := rfl
  rw [window_loop_eq_foldl, foldl_loop_body, hw]
  have hch : ∀ ch : rgba_pixel → Fin 256,
      (window kernel).foldl
          (fun a rc => binary64Ops.add a
            (channel_term binary64Ops ch I (finite_kernel kernel) (finite_weight G)
              (some intensity_sigma) x y rc))
          (binary64Ops.of_int 0)
        = some (fl_sum ((window kernel).map
            (channel_term roundedOps ch I kernel G intensity_sigma x y)) 0) :=
    fun ch => accumulator_finite (window kernel) _ _ hlen
      (fun rc hrc => channel_term_finite ch I kernel G intensity_sigma x y rc (hk rc hrc) hG)
  have hn : (window kernel).foldl
          (fun a rc => binary64Ops.add a
            (weight_term binary64Ops I (finite_kernel kernel) (finite_weight G)
              (some intensity_sigma) x y rc))
          (binary64Ops.of_int 0)
        = some (fl_sum ((window kernel).map
            (weight_term roundedOps I kernel G intensity_sigma x y)) 0) :=
    accumulator_finite (window kernel) _ _ hlen
      (fun rc hrc => weight_term_finite I kernel G intensity_sigma x y rc (hk rc hrc) hG)
  show ({ final_red := _, final_green := _, final_blue := _, normalization_term := _ }
    : Accum (Option ℚ)) = _
  rw [hch rgba_pixel.red, hch rgba_pixel.green, hch rgba_pixel.blue, hn]

theorem quotient_finite (ch : rgba_pixel → Fin 256) (I : Image) (kernel : Kernel ℚ)
    (G : ℚ → ℚ → ℚ) (intensity_sigma : ℚ) (x y : Nat)
    (hx : x < I.get_width) (hy : y < I.get_height)
    (hlen : (window kernel).length ≤ 2 ^ 40)
    (h0 : ((0 : Int), (0 : Int)) ∈ window kernel)
    (hk : ∀ rc ∈ window kernel,
      0 ≤ spatial_weight kernel rc.1 rc.2 ∧ spatial_weight kernel rc.1 rc.2 ≤ 1)
    (hc : spatial_weight kernel 0 0 = 1)
    (hG : ∀ d, 0 ≤ G d intensity_sigma ∧ G d intensity_sigma ≤ 1)
    (hG0 : G 0 intensity_sigma = 1) :
    binary64Ops.div
        (some (fl_sum ((window kernel).map
          (channel_term roundedOps ch I kernel G intensity_sigma x y)) 0))
        (some (fl_sum ((window kernel).map
          (weight_term roundedOps I kernel G intensity_sigma x y)) 0))
      = some (rounded_quotient ch I kernel G intensity_sigma x y) := by
  have hq := rounded_quotient_range ch I kernel G intensity_sigma x y 0 255 hx hy hlen h0
    (fun rc hrc => (hk rc hrc).1) (le_of_eq hc.symm) hG hG0 (fun _ _ => Nat.zero_le _)
    (fun rc _ => Nat.le_of_lt_succ (ch (sample I x y rc.1 rc.2)).isLt) (by norm_num) le_rfl
  obtain ⟨hN, hq0, -, hq1⟩ := hq
  have hT := fl_sum_bounds
    ((window kernel).map (channel_term roundedOps ch I kernel G intensity_sigma x y)) 0
    le_rfl on_grid_zero (by
      intro t ht
      obtain ⟨rc, hrc, rfl⟩ := List.mem_map.mp ht
      have h := channel_term_finite ch I kernel G intensity_sigma x y rc (hk rc hrc) hG
      exact ⟨h.2.1, h.2.2.2⟩)
  have hd0 : 0 ≤ fl_sum ((window kernel).map
        (channel_term roundedOps ch I kernel G intensity_sigma x y)) 0
      / fl_sum ((window kernel).map
        (weight_term roundedOps I kernel G intensity_sigma x y)) 0 :=
    div_nonneg hT.2.2 hN.le
  have hb := (binary64_round_bounds _ hd0).1
  have hu := u53_eq
  have he := eta64_le
  rw [hu] at hb
  push_cast at hq1
  refine binary64Ops_div _ _ hN.ne' ?_
  rw [abs_of_nonneg hd0]
  linarith

theorem main_pixel_finite (I : Image) (kernel : Kernel ℚ) (G : ℚ → ℚ → ℚ)
    (intensity_sigma : ℚ) (x y : Nat)
    (hx : x < I.get_width) (hy : y < I.get_height)
    (hlen : (window kernel).length ≤ 2 ^ 40)
    (h0 : ((0 : Int), (0 : Int)) ∈ window kernel)
    (hk : ∀ rc ∈ window kernel,
      0 ≤ spatial_weight kernel rc.1 rc.2 ∧ spatial_weight kernel rc.1 rc.2 ≤ 1)
    (hc : spatial_weight kernel 0 0 = 1)
    (hG : ∀ d, 0 ≤ G d intensity_sigma ∧ G d intensity_sigma ≤ 1)
    (hG0 : G 0 intensity_sigma = 1) :
    main_pixel binary64Ops I (finite_kernel kernel) (finite_weight G) (some intensity_sigma)
        x y
      = main_pixel roundedOps I kernel G intensity_sigma x y
      ∧ binary64Ops.div
          (window_loop binary64Ops I (finite_kernel kernel) (finite_weight G)
            (some intensity_sigma) x y).final_red
          (window_loop binary64Ops I (finite_kernel kernel) (finite_weight G)
            (some intensity_sigma) x y).normalization_term
        = some (rounded_quotient rgba_pixel.red I kernel G intensity_sigma x y)
      ∧ binary64Ops.div
          (window_loop binary64Ops I (finite_kernel kernel) (finite_weight G)
            (some intensity_sigma) x y).final_green
          (window_loop binary64Ops I (finite_kernel kernel) (finite_weight G)
            (some intensity_sigma) x y).normalization_term
        = some (rounded_quotient rgba_pixel.green I kernel G intensity_sigma x y)
      ∧ binary64Ops.div
          (window_loop binary64Ops I (finite_kernel kernel) (finite_weight G)
            (some intensity_sigma) x y).final_blue
          (window_loop binary64Ops I (finite_kernel kernel) (finite_weight G)
            (some intensity_sigma) x y).normalization_term
        = some (rounded_quotient rgba_pixel.blue I kernel G intensity_sigma x y) := by
  have hr := quotient_finite rgba_pixel.red I kernel G intensity_sigma x y hx hy hlen h0 hk hc
    hG hG0
  have hg := quotient_finite rgba_pixel.green I kernel G intensity_sigma x y hx hy hlen h0 hk
    hc hG hG0
  have hb := quotient_finite rgba_pixel.blue I kernel G intensity_sigma x y hx hy hlen h0 hk
    hc hG hG0
  rw [main_pixel_rounded]
  unfold main_pixel
  rw [window_loop_finite I kernel G intensity_sigma x y hlen hk hG]
  show PIXEL (binary64Ops.to_unsigned (binary64Ops.div _ _))
      (binary64Ops.to_unsigned (binary64Ops.div _ _))
      (binary64Ops.to_unsigned (binary64Ops.div _ _)) = _ ∧ _
  rw [hr, hg, hb]
  exact ⟨rfl, rfl, rfl, rfl⟩

theorem binary64_round_ge_two_pow (k : ℕ) (q : ℚ) (hq : (2 : ℚ) ^ k ≤ q) :
    (2 : ℚ) ^ k ≤ binary64_round q := by
  have hk0 : (0 : ℚ) < (2 : ℚ) ^ k := by positivity
  have hk1 : (1 : ℚ) ≤ (2 : ℚ) ^ k := one_le_pow₀ (by norm_num)
  have hq0 : (0 : ℚ) < q := by linarith
  rcases lt_or_le q ((2 : ℚ) ^ (k + 1)) with h2 | h2
  · obtain ⟨hl, hu⟩ := ilog2_rat_spec q hq0
    have h1 : (1 : ℚ) < 2 := by norm_num
    have he1 : ilog2 q.num.natAbs q.den < (k : ℤ) + 1 := by
      have h3 : (2 : ℚ) ^ ilog2 q.num.natAbs q.den < (2 : ℚ) ^ ((k : ℤ) + 1) := by
        have e : (2 : ℚ) ^ ((k : ℤ) + 1) = (2 : ℚ) ^ (k + 1) := by
          rw [← zpow_natCast]
          push_cast
          rfl
        rw [e]
        exact lt_of_le_of_lt hl h2
      exact (zpow_lt_zpow_iff_right₀ h1).mp h3
    have he0 : (k : ℤ) ≤ ilog2 q.num.natAbs q.den := by
      have h3 : (2 : ℚ) ^ (k : ℤ) < (2 : ℚ) ^ (ilog2 q.num.natAbs q.den + 1) := by
        rw [zpow_natCast]
        exact lt_of_le_of_lt hq hu
      have := (zpow_lt_zpow_iff_right₀ h1).mp h3
      omega
    have he : ilog2 q.num.natAbs q.den = (k : ℤ) := by omega
    obtain ⟨M, hM1, hM2⟩ := binary64_round_pos q hq0
    have hs : max (ilog2 q.num.natAbs q.den - 52) (-1074) = (k : ℤ) - 52 := by
      rw [he]
      exact max_eq_left (by omega)
    rw [hs] at hM1 hM2
    have hpow : (2 : ℚ) ^ ((k : ℤ) - 52) = (2 : ℚ) ^ k / 4503599627370496 := by
      rw [zpow_sub₀ (by norm_num : (2 : ℚ) ≠ 0), zpow_natCast]
      norm_num
    rw [hpow] at hM1 hM2
    rw [abs_le] at hM2
    have hdiv : q / ((2 : ℚ) ^ k / 4503599627370496) = q / (2 : ℚ) ^ k * 4503599627370496 := by
      field_simp
    have hq1 : 1 ≤ q / (2 : ℚ) ^ k := by
      rw [le_div_iff₀ hk0]
      linarith
    rw [hdiv] at hM2
    have hM3 : (4503599627370496 : ℚ) - 1 / 2 ≤ (M : ℚ) := by
      linarith [hM2.1]
    have hM4 : 4503599627370496 ≤ M := by
      by_contra hlt
      have hlt' : M ≤ 4503599627370495 := by omega
      have : (M : ℚ) ≤ 4503599627370495 := by exact_mod_cast hlt'
      linarith
    have hM5 : (4503599627370496 : ℚ) ≤ (M : ℚ) := by exact_mod_cast hM4
    rw [hM1]
    have h4 : (4503599627370496 : ℚ) * ((2 : ℚ) ^ k / 4503599627370496)
        ≤ (M : ℚ) * ((2 : ℚ) ^ k / 4503599627370496) :=
      mul_le_mul_of_nonneg_right hM5 (by positivity)
    have h5 : (4503599627370496 : ℚ) * ((2 : ℚ) ^ k / 4503599627370496) = (2 : ℚ) ^ k := by
      field_simp
    linarith
  · have hb := (binary64_round_bounds q hq0.le).1
    have hu := u53_eq
    have he := eta64_le
    rw [hu] at hb
    have h3 : (2 : ℚ) ^ (k + 1) = 2 * (2 : ℚ) ^ k := by ring
    rw [h3] at h2
    nlinarith

theorem binary64_round_ge_one (q : ℚ) (hq : 1 ≤ q) : 1 ≤ binary64_round q := by
  have h := binary64_round_ge_two_pow 0 q (by rw [pow_zero]; exact hq)
  rw [pow_zero] at h
  exact h

theorem fl_sum_ge_one_of_ge (l : List ℚ) (a : ℚ) (ha : 1 ≤ a) (hl : ∀ t ∈ l, 0 ≤ t) :
    1 ≤ fl_sum l a := by
  induction l generalizing a with
  | nil => exact ha
  | cons t ts ih =>
    have ht := hl t (List.mem_cons_self t ts)
    exact ih (binary64_round (a + t)) (binary64_round_ge_one _ (by linarith))
      (fun t' h' => hl t' (List.mem_cons_of_mem t h'))

theorem fl_sum_ge_one (l : List ℚ) (a : ℚ) (ha : 0 ≤ a) (hl : ∀ t ∈ l, 0 ≤ t)
    (h1 : ∃ t ∈ l, 1 ≤ t) : 1 ≤ fl_sum l a := by
  induction l generalizing a with
  | nil =>
    obtain ⟨t, ht, -⟩ := h1
    simp at ht
  | cons t ts ih =>
    have ht := hl t (List.mem_cons_self t ts)
    have hts : ∀ t' ∈ ts, 0 ≤ t' := fun t' h' => hl t' (List.mem_cons_of_mem t h')
    obtain ⟨t1, ht1, h1t⟩ := h1
    rcases List.mem_cons.mp ht1 with rfl | hmem
    · exact fl_sum_ge_one_of_ge ts _ (binary64_round_ge_one _ (by linarith)) hts
    · exact ih (binary64_round (a + t)) (binary64_round_nonneg _ (by linarith)) hts
        ⟨t1, hmem, h1t⟩

theorem weight_term_center (I : Image) (kernel : Kernel ℚ) (G : ℚ → ℚ → ℚ)
    (intensity_sigma : ℚ) (x y : Nat) (hx : x < I.get_width) (hy : y < I.get_height)
    (hc : spatial_weight kernel 0 0 = 1) (hG0 : G 0 intensity_sigma = 1) :
    weight_term roundedOps I kernel G intensity_sigma x y (0, 0) = 1 := by
  unfold weight_term
  rw [intensity_weight_center I G intensity_sigma x y hx hy hG0]
  show binary64_round (spatial_weight kernel 0 0 * 1) = 1
  rw [hc, mul_one]
  have h := binary64_round_nat 1 (by norm_num)
  simpa using h

theorem normalization_binary64_ge_one (I : Image) (kernel : Kernel ℚ) (G : ℚ → ℚ → ℚ)
    (intensity_sigma : ℚ) (x y : Nat) (hx : x < I.get_width) (hy : y < I.get_height)
    (hlen : (window kernel).length ≤ 2 ^ 40)
    (h0 : ((0 : Int), (0 : Int)) ∈ window kernel)
    (hk : ∀ rc ∈ window kernel,
      0 ≤ spatial_weight kernel rc.1 rc.2 ∧ spatial_weight kernel rc.1 rc.2 ≤ 1)
    (hc : spatial_weight kernel 0 0 = 1)
    (hG : ∀ d, 0 ≤ G d intensity_sigma ∧ G d intensity_sigma ≤ 1)
    (hG0 : G 0 intensity_sigma = 1) :
    ∃ n : ℚ, (window_loop binary64Ops I (finite_kernel kernel) (finite_weight G)
        (some intensity_sigma) x y).normalization_term = some n ∧ 1 ≤ n := by
  rw [window_loop_finite I kernel G intensity_sigma x y hlen hk hG]
  refine ⟨_, rfl, ?_⟩
  apply fl_sum_ge_one _ 0 le_rfl
  · intro t ht
    obtain ⟨rc, hrc, rfl⟩ := List.mem_map.mp ht
    exact (weight_term_finite I kernel G intensity_sigma x y rc (hk rc hrc) hG).2.1
  · exact ⟨_, List.mem_map_of_mem _ h0,
      le_of_eq (weight_term_center I kernel G intensity_sigma x y hx hy hc hG0).symm⟩

theorem binary64_round_three_halves : binary64_round (3 / 2) = 3 / 2 := by
  decide!

theorem gaussian_kernel_dim_binary64 (sigma : ℚ) (h0 : 0 < sigma)
    (h2 : binary64_round (sigma * (3 / 2)) < 1073741824) :
    gaussian_kernel_dim binary64Ops (some sigma) = 1 + 2 * ⌊binary64_round (sigma * (3 / 2))⌋
      ∧ 0 ≤ ⌊binary64_round (sigma * (3 / 2))⌋
      ∧ sigma * (3 / 2) < 1073741824 := by
  have hq : (0 : ℚ) ≤ sigma * (3 / 2) := by positivity
  have hr0 := binary64_round_nonneg _ hq
  have hf0 : 0 ≤ ⌊binary64_round (sigma * (3 / 2))⌋ := Int.floor_nonneg.mpr hr0
  have hf1 : ⌊binary64_round (sigma * (3 / 2))⌋ < 1073741824 := by
    rw [Int.floor_lt]
    exact_mod_cast h2
  have hlit : binary64Ops.lit (3 / 2) = some (3 / 2) := by
    show binary64_finite (3 / 2) = some (3 / 2)
    rw [binary64_finite_eq _ (by rw [abs_of_nonneg (by norm_num)]; norm_num),
      binary64_round_three_halves]
  have hmul : binary64Ops.mul (some sigma) (some (3 / 2))
      = some (binary64_round (sigma * (3 / 2))) := by
    show binary64_finite (sigma * (3 / 2)) = _
    unfold binary64_finite
    rw [if_pos]
    rw [abs_of_nonneg hr0]
    have : (1073741824 : ℚ) < 2 ^ 1024 := by norm_num
    linarith
  refine ⟨?_, hf0, ?_⟩
  · unfold gaussian_kernel_dim
    rw [hlit, hmul]
    show wrap32 (1 + wrap32 (2 * wrap32 (trunc (binary64_round (sigma * (3 / 2)))))) = _
    rw [trunc_of_nonneg _ hr0,
      wrap32_of_range ⌊binary64_round (sigma * (3 / 2))⌋ (by omega) (by omega),
      wrap32_of_range (2 * ⌊binary64_round (sigma * (3 / 2))⌋) (by omega) (by omega),
      wrap32_of_range (1 + 2 * ⌊binary64_round (sigma * (3 / 2))⌋) (by omega) (by omega)]
  · by_contra hge
    have hge' : (2 : ℚ) ^ 30 ≤ sigma * (3 / 2) := by
      have : (2 : ℚ) ^ 30 = 1073741824 := by norm_num
      rw [this]
      exact not_lt.mp hge
    have := binary64_round_ge_two_pow 30 _ hge'
    have h30 : (2 : ℚ) ^ 30 = 1073741824 := by norm_num
    rw [h30] at this
    linarith

/-! ## C4: the kernel side -/

/-- C4, as the claim states it, fails in two ways.  For `sigma = 2^30` the cast
`(int)(sigma*1.5)` gives 1610612736, which fits an `int`, but `1 + 2*1610612736` does not:
the 32-bit result is -1073741823, not `1 + 2*floor(1.5*sigma) = 3221225473`, and it is not
≥ 1.  For the double `sigma = 0x1.5555555555555p-1` (0.6666666666666666) the real product
`1.5*sigma` lies below 1 but the double product is 1.0: the side is 3, not
`1 + 2*floor(1.5*sigma) = 1`. -/
theorem gaussian_kernel_dim_overflow :
    gaussian_kernel_dim binary64Ops (some 1073741824) = -1073741823
      ∧ gaussian_kernel_dim (exactOps ℚ) 1073741824 = -1073741823
      ∧ 1 + 2 * ⌊(1073741824 : ℚ) * (3 / 2)⌋ = 3221225473
      ∧ gaussian_kernel_dim binary64Ops (some (6004799503160661 / 9007199254740992)) = 3
      ∧ 1 + 2 * ⌊(6004799503160661 / 9007199254740992 : ℚ) * (3 / 2)⌋ = 1 := by
  decide!

theorem gaussian_kernel_dim_exact {K : Type} [LinearOrderedField K] [FloorRing K] (sigma : K)
    (h0 : 0 < sigma) (h1 : sigma * (3 / 2) < 1073741824) :
    gaussian_kernel_dim (exactOps K) sigma = 1 + 2 * ⌊sigma * (3 / 2)⌋
      ∧ Odd (gaussian_kernel_dim (exactOps K) sigma)
      ∧ 1 ≤ gaussian_kernel_dim (exactOps K) sigma
      ∧ gaussian_kernel_dim (exactOps ℚ) 2 = 7 := by
  have hq : (0 : K) ≤ sigma * (3 / 2) := by positivity
  have hf0 : 0 ≤ ⌊sigma * (3 / 2)⌋ := Int.floor_nonneg.mpr hq
  have hf1 : ⌊sigma * (3 / 2)⌋ < 1073741824 := by
    rw [Int.floor_lt]
    exact_mod_cast h1
  have hdim : gaussian_kernel_dim (exactOps K) sigma = 1 + 2 * ⌊sigma * (3 / 2)⌋ := by
    unfold gaussian_kernel_dim
    rw [exactOps_lit_three_halves]
    show wrap32 (1 + wrap32 (2 * wrap32 (trunc (sigma * (3 / 2))))) = _
    rw [trunc_of_nonneg _ hq, wrap32_of_range ⌊sigma * (3 / 2)⌋ (by omega) (by omega),
      wrap32_of_range (2 * ⌊sigma * (3 / 2)⌋) (by omega) (by omega),
      wrap32_of_range (1 + 2 * ⌊sigma * (3 / 2)⌋) (by omega) (by omega)]
  refine ⟨hdim, ?_, ?_, by decide!⟩
  · rw [hdim]
    exact ⟨⌊sigma * (3 / 2)⌋, by ring⟩
  · rw [hdim]
    omega

/-- C4, amended. For every spatial sigma > 0 whose double product `sigma*1.5` (the real
product rounded to binary64) is below 2^30, the kernel side computed at line 52 equals
`1 + 2*floor(sigma*1.5)` for that double product; it is odd and at least 1; the default
sigma 2.0 gives side 7.  In exact arithmetic the same holds with the real product. -/
theorem gaussian_kernel_dim_eq (sigma : ℚ) (h0 : 0 < sigma)
    (h1 : binary64_round (sigma * (3 / 2)) < 1073741824) :
    gaussian_kernel_dim binary64Ops (some sigma)
        = 1 + 2 * ⌊binary64_round (sigma * (3 / 2))⌋
      ∧ Odd (gaussian_kernel_dim binary64Ops (some sigma))
      ∧ 1 ≤ gaussian_kernel_dim binary64Ops (some sigma)
      ∧ gaussian_kernel_dim binary64Ops (some 2) = 7
      ∧ gaussian_kernel_dim (exactOps ℚ) sigma = 1 + 2 * ⌊sigma * (3 / 2)⌋
      ∧ Odd (gaussian_kernel_dim (exactOps ℚ) sigma)
      ∧ 1 ≤ gaussian_kernel_dim (exactOps ℚ) sigma := by
  obtain ⟨hdim, hf0, hlt⟩ := gaussian_kernel_dim_binary64 sigma h0 h1
  have he := gaussian_kernel_dim_exact sigma h0 hlt
  refine ⟨hdim, ?_, ?_, by decide!, he.1, he.2.1, he.2.2.1⟩
  · rw [hdim]
    exact ⟨⌊binary64_round (sigma * (3 / 2))⌋, by ring⟩
  · rw [hdim]
    omega

/-- The default sigma 2.0 satisfies the hypotheses of `gaussian_kernel_dim_eq`: the double
product is 3 and the side is 7. -/
theorem gaussian_kernel_dim_eq_witness :
    (0 : ℚ) < 2 ∧ binary64_round ((2 : ℚ) * (3 / 2)) < 1073741824
      ∧ gaussian_kernel_dim binary64Ops (some 2)
          = 1 + 2 * ⌊binary64_round ((2 : ℚ) * (3 / 2))⌋ :=
  ⟨by norm_num, by decide!, (gaussian_kernel_dim_eq (2 : ℚ) (by norm_num) (by decide!)).1⟩

/-! ## C2: the output channel -/

/-- C2, as the claim states it, fails: on the 2×1 raster `(0,0,0) (1,1,1)` with the 3×3
kernel, the loop at the pixel `(1, 0)` accumulates `final_red = 3` and
`normalization_term = 7/2`, in exact arithmetic and in binary64 alike; the quotient 6/7
rounds to 1, but line 93 writes red 0: the cast `(unsigned int)` truncates. -/
theorem output_channel_not_rounded :
    (window_loop binary64Ops raster_step (finite_kernel kernel_3x3) (finite_weight G_half)
        (some 5) 1 0).final_red = some 3
      ∧ (window_loop binary64Ops raster_step (finite_kernel kernel_3x3) (finite_weight G_half)
        (some 5) 1 0).normalization_term = some (7 / 2)
      ∧ (window_loop (exactOps ℚ) raster_step kernel_3x3 G_half 5 1 0).final_red = 3
      ∧ (window_loop (exactOps ℚ) raster_step kernel_3x3 G_half 5 1 0).normalization_term = 7 / 2
      ∧ min 255 (max 0 (round ((3 : ℚ) / (7 / 2)))) = 1
      ∧ (main_pixel binary64Ops raster_step (finite_kernel kernel_3x3) (finite_weight G_half)
          (some 5) 1 0).red = 0
      ∧ (main_pixel (exactOps ℚ) raster_step kernel_3x3 G_half 5 1 0).red = 0 := by
  decide!

theorem output_channel_exact {K : Type} [LinearOrderedField K] [FloorRing K] (I : Image)
    (kernel : Kernel K) (G : K → K → K) (intensity_sigma : K) (x y : Nat)
    (_hN : normalization_sum I kernel G intensity_sigma x y ≠ 0)
    (hr : -1 < accumulated_sum rgba_pixel.red I kernel G intensity_sigma x y
            / normalization_sum I kernel G intensity_sigma x y
        ∧ accumulated_sum rgba_pixel.red I kernel G intensity_sigma x y
            / normalization_sum I kernel G intensity_sigma x y < 4294967296)
    (hg : -1 < accumulated_sum rgba_pixel.green I kernel G intensity_sigma x y
            / normalization_sum I kernel G intensity_sigma x y
        ∧ accumulated_sum rgba_pixel.green I kernel G intensity_sigma x y
            / normalization_sum I kernel G intensity_sigma x y < 4294967296)
    (hb : -1 < accumulated_sum rgba_pixel.blue I kernel G intensity_sigma x y
            / normalization_sum I kernel G intensity_sigma x y
        ∧ accumulated_sum rgba_pixel.blue I kernel G intensity_sigma x y
            / normalization_sum I kernel G intensity_sigma x y < 4294967296) :
    (window_loop (exactOps K) I kernel G intensity_sigma x y).final_red
        = accumulated_sum rgba_pixel.red I kernel G intensity_sigma x y
      ∧ (window_loop (exactOps K) I kernel G intensity_sigma x y).final_green
        = accumulated_sum rgba_pixel.green I kernel G intensity_sigma x y
      ∧ (window_loop (exactOps K) I kernel G intensity_sigma x y).final_blue
        = accumulated_sum rgba_pixel.blue I kernel G intensity_sigma x y
      ∧ (window_loop (exactOps K) I kernel G intensity_sigma x y).normalization_term
        = normalization_sum I kernel G intensity_sigma x y
      ∧ (((main_pixel (exactOps K) I kernel G intensity_sigma x y).red.val : Nat) : Int)
        = min 255 (max 0 ⌊accumulated_sum rgba_pixel.red I kernel G intensity_sigma x y
            / normalization_sum I kernel G intensity_sigma x y⌋)
      ∧ (((main_pixel (exactOps K) I kernel G intensity_sigma x y).green.val : Nat) : Int)
        = min 255 (max 0 ⌊accumulated_sum rgba_pixel.green I kernel G intensity_sigma x y
            / normalization_sum I kernel G intensity_sigma x y⌋)
      ∧ (((main_pixel (exactOps K) I kernel G intensity_sigma x y).blue.val : Nat) : Int)
        = min 255 (max 0 ⌊accumulated_sum rgba_pixel.blue I kernel G intensity_sigma x y
            / normalization_sum I kernel G intensity_sigma x y⌋) := by
  rw [window_loop_exact, main_pixel_exact]
  exact ⟨rfl, rfl, rfl, rfl, to_unsigned_channel _ hr.1 hr.2, to_unsigned_channel _ hg.1 hg.2,
    to_unsigned_channel _ hb.1 hb.2⟩

/-- C2, amended. Whenever the double quotient `final_channel / normalization_term` of
line 93 is a finite number `q` on which the cast `(unsigned int)` is defined (between -1 and
2^32), the output channel is the floor of `q` (the quotient truncated, not rounded to
nearest), clamped to [0,255].  In exact arithmetic the accumulators of the loop are the sums
of the spec (`accumulated_sum`, `normalization_sum`) and, whenever the normalization term is
not zero and the cast is defined on the quotient, each output channel is the floor of
`accumulated_channel / normalization_term`, clamped to [0,255]. -/
theorem output_channel_floor (I : Image) (kernel : Kernel ℚ) (G : ℚ → ℚ → ℚ)
    (intensity_sigma : ℚ) (x y : Nat) (qr qg qb : ℚ)
    (hr : binary64Ops.div
            (window_loop binary64Ops I (finite_kernel kernel) (finite_weight G)
              (some intensity_sigma) x y).final_red
            (window_loop binary64Ops I (finite_kernel kernel) (finite_weight G)
              (some intensity_sigma) x y).normalization_term = some qr
        ∧ -1 < qr ∧ qr < 4294967296)
    (hg : binary64Ops.div
            (window_loop binary64Ops I (finite_kernel kernel) (finite_weight G)
              (some intensity_sigma) x y).final_green
            (window_loop binary64Ops I (finite_kernel kernel) (finite_weight G)
              (some intensity_sigma) x y).normalization_term = some qg
        ∧ -1 < qg ∧ qg < 4294967296)
    (hb : binary64Ops.div
            (window_loop binary64Ops I (finite_kernel kernel) (finite_weight G)
              (some intensity_sigma) x y).final_blue
            (window_loop binary64Ops I (finite_kernel kernel) (finite_weight G)
              (some intensity_sigma) x y).normalization_term = some qb
        ∧ -1 < qb ∧ qb < 4294967296)
    (hN : normalization_sum I kernel G intensity_sigma x y ≠ 0)
    (hr' : -1 < accumulated_sum rgba_pixel.red I kernel G intensity_sigma x y
            / normalization_sum I kernel G intensity_sigma x y
        ∧ accumulated_sum rgba_pixel.red I kernel G intensity_sigma x y
            / normalization_sum I kernel G intensity_sigma x y < 4294967296)
    (hg' : -1 < accumulated_sum rgba_pixel.green I kernel G intensity_sigma x y
            / normalization_sum I kernel G intensity_sigma x y
        ∧ accumulated_sum rgba_pixel.green I kernel G intensity_sigma x y
            / normalization_sum I kernel G intensity_sigma x y < 4294967296)
    (hb' : -1 < accumulated_sum rgba_pixel.blue I kernel G intensity_sigma x y
            / normalization_sum I kernel G intensity_sigma x y
        ∧ accumulated_sum rgba_pixel.blue I kernel G intensity_sigma x y
            / normalization_sum I kernel G intensity_sigma x y < 4294967296) :
    ((((main_pixel binary64Ops I (finite_kernel kernel) (finite_weight G)
          (some intensity_sigma) x y).red.val : Nat) : Int) = min 255 (max 0 ⌊qr⌋)
      ∧ (((main_pixel binary64Ops I (finite_kernel kernel) (finite_weight G)
          (some intensity_sigma) x y).green.val : Nat) : Int) = min 255 (max 0 ⌊qg⌋)
      ∧ (((main_pixel binary64Ops I (finite_kernel kernel) (finite_weight G)
          (some intensity_sigma) x y).blue.val : Nat) : Int) = min 255 (max 0 ⌊qb⌋))
      ∧ ((window_loop (exactOps ℚ) I kernel G intensity_sigma x y).final_red
          = accumulated_sum rgba_pixel.red I kernel G intensity_sigma x y
        ∧ (window_loop (exactOps ℚ) I kernel G intensity_sigma x y).final_green
          = accumulated_sum rgba_pixel.green I kernel G intensity_sigma x y
        ∧ (window_loop (exactOps ℚ) I kernel G intensity_sigma x y).final_blue
          = accumulated_sum rgba_pixel.blue I kernel G intensity_sigma x y
        ∧ (window_loop (exactOps ℚ) I kernel G intensity_sigma x y).normalization_term
          = normalization_sum I kernel G intensity_sigma x y
        ∧ (((main_pixel (exactOps ℚ) I kernel G intensity_sigma x y).red.val : Nat) : Int)
          = min 255 (max 0 ⌊accumulated_sum rgba_pixel.red I kernel G intensity_sigma x y
            / normalization_sum I kernel G intensity_sigma x y⌋)
        ∧ (((main_pixel (exactOps ℚ) I kernel G intensity_sigma x y).green.val : Nat) : Int)
          = min 255 (max 0 ⌊accumulated_sum rgba_pixel.green I kernel G intensity_sigma x y
            / normalization_sum I kernel G intensity_sigma x y⌋)
        ∧ (((main_pixel (exactOps ℚ) I kernel G intensity_sigma x y).blue.val : Nat) : Int)
          = min 255 (max 0 ⌊accumulated_sum rgba_pixel.blue I kernel G intensity_sigma x y
            / normalization_sum I kernel G intensity_sigma x y⌋)) := by
  refine ⟨?_, output_channel_exact I kernel G intensity_sigma x y hN hr' hg' hb'⟩
  unfold main_pixel
  show (((Fin.ofNat (CLAMP_INT (binary64Ops.to_unsigned _)).toNat : Fin 256).val : Nat) : Int)
      = _
    ∧ (((Fin.ofNat (CLAMP_INT (binary64Ops.to_unsigned _)).toNat : Fin 256).val : Nat) : Int)
      = _
    ∧ (((Fin.ofNat (CLAMP_INT (binary64Ops.to_unsigned _)).toNat : Fin 256).val : Nat) : Int)
      = _
  rw [hr.1, hg.1, hb.1]
  exact ⟨to_unsigned_channel qr hr.2.1 hr.2.2, to_unsigned_channel qg hg.2.1 hg.2.2,
    to_unsigned_channel qb hb.2.1 hb.2.2⟩

/-- The hypotheses of `output_channel_floor` hold on the 2×1 raster with the 3×3 kernel at
the pixel `(1, 0)`, where the three exact quotients are 6/7 and the three double quotients
are the double nearest to 6/7: each output channel is `floor(6/7) = 0`. -/
theorem output_channel_floor_witness :
    binary64Ops.div
          (window_loop binary64Ops raster_step (finite_kernel kernel_3x3)
            (finite_weight G_half) (some 5) 1 0).final_red
          (window_loop binary64Ops raster_step (finite_kernel kernel_3x3)
            (finite_weight G_half) (some 5) 1 0).normalization_term
        = some (binary64_round (6 / 7))
      ∧ -1 < binary64_round (6 / 7) ∧ binary64_round (6 / 7) < 4294967296
      ∧ normalization_sum raster_step kernel_3x3 G_half 5 1 0 ≠ 0
      ∧ accumulated_sum rgba_pixel.red raster_step kernel_3x3 G_half 5 1 0
          / normalization_sum raster_step kernel_3x3 G_half 5 1 0 = 6 / 7
      ∧ (((main_pixel binary64Ops raster_step (finite_kernel kernel_3x3)
            (finite_weight G_half) (some 5) 1 0).red.val : Nat) : Int)
          = min 255 (max 0 ⌊binary64_round (6 / 7)⌋) :=
  ⟨by decide!, by decide!, by decide!, by decide!, by decide!,
    (output_channel_floor raster_step kernel_3x3 G_half 5 1 0 (binary64_round (6 / 7))
      (binary64_round (6 / 7)) (binary64_round (6 / 7)) (by decide!) (by decide!) (by decide!)
      (by decide!) (by decide!) (by decide!) (by decide!)).1.1⟩

/-! ## C1: flat rasters -/

/-- C1, as the claim states it, fails under binary64 arithmetic: on the 1×1 raster with the
pixel `(9, 9, 9)`, with the kernel of the default spatial sigma 2.0 and intensity weight 1,
the 49 rounded accumulations give a quotient just below 9, and the cast `(unsigned int)`
truncates it: line 93 writes `(8, 8, 8, 255)`. -/
theorem flat_raster_binary64 :
    (raster_single ⟨9, 9, 9, 255⟩).px 0 0 = ⟨9, 9, 9, 255⟩
      ∧ main_pixel binary64Ops (raster_single ⟨9, 9, 9, 255⟩) (finite_kernel kernel_sigma2)
          (finite_weight G_flat) (some 5) 0 0 = ⟨8, 8, 8, 255⟩
      ∧ main_pixel (exactOps ℚ) (raster_single ⟨9, 9, 9, 255⟩) kernel_sigma2 G_flat 5 0 0
          = ⟨9, 9, 9, 255⟩ := by
  decide!

/-- In exact arithmetic a flat raster is reproduced: the quotient of line 93 is the channel
value itself whenever the normalization term is not zero. -/
theorem flat_raster_exact {K : Type} [LinearOrderedField K] [FloorRing K] (I : Image)
    (kernel : Kernel K) (G : K → K → K) (intensity_sigma : K) (p : rgba_pixel) (x y : Nat)
    (hx : x < I.get_width) (hy : y < I.get_height)
    (hflat : ∀ y' x', same_rgb (I.px y' x') p)
    (hN : (window_loop (exactOps K) I kernel G intensity_sigma x y).normalization_term ≠ 0) :
    main_pixel (exactOps K) I kernel G intensity_sigma x y
        = { red := p.red, green := p.green, blue := p.blue, alpha := 255 }
      ∧ (main_filter (exactOps K) I kernel G intensity_sigma).px y x
        = { red := p.red, green := p.green, blue := p.blue, alpha := 255 } := by
  rw [window_loop_exact] at hN
  have hpix : main_pixel (exactOps K) I kernel G intensity_sigma x y
      = { red := p.red, green := p.green, blue := p.blue, alpha := 255 } := by
    rw [main_pixel_exact]
    unfold PIXEL
    rw [channel_flat rgba_pixel.red I kernel G intensity_sigma x y p.red
        (fun r c => (hflat _ _).1) hN,
      channel_flat rgba_pixel.green I kernel G intensity_sigma x y p.green
        (fun r c => (hflat _ _).2.1) hN,
      channel_flat rgba_pixel.blue I kernel G intensity_sigma x y p.blue
        (fun r c => (hflat _ _).2.2) hN]
  refine ⟨hpix, ?_⟩
  show (if y < I.get_height ∧ x < I.get_width then _ else _ : rgba_pixel) = _
  rw [if_pos ⟨hy, hx⟩, hpix]

/-- C1, amended. For every raster in which all pixels have the red, green and blue of `p`,
every kernel table with weights in [0, 1] on the window, centre weight 1 and at most 2^40
window cells, and every intensity weight with values in [0, 1] and value 1 at distance 0, at
every coordinate `(x, y)` of the raster: evaluated in binary64, line 93 writes alpha 255 and
each of red, green and blue is the value of `p` or that value minus one; evaluated in exact
arithmetic, it writes the red, green and blue of `p` with alpha 255. -/
theorem flat_raster_identity (I : Image) (kernel : Kernel ℚ) (G : ℚ → ℚ → ℚ)
    (intensity_sigma : ℚ) (p : rgba_pixel) (x y : Nat)
    (hx : x < I.get_width) (hy : y < I.get_height)
    (hlen : (window kernel).length ≤ 2 ^ 40)
    (h0 : ((0 : Int), (0 : Int)) ∈ window kernel)
    (hk : ∀ rc ∈ window kernel,
      0 ≤ spatial_weight kernel rc.1 rc.2 ∧ spatial_weight kernel rc.1 rc.2 ≤ 1)
    (hc : spatial_weight kernel 0 0 = 1)
    (hG : ∀ d, 0 ≤ G d intensity_sigma ∧ G d intensity_sigma ≤ 1)
    (hG0 : G 0 intensity_sigma = 1)
    (hflat : ∀ y' x', same_rgb (I.px y' x') p) :
    ((main_filter binary64Ops I (finite_kernel kernel) (finite_weight G)
            (some intensity_sigma)).px y x).alpha = 255
      ∧ (((main_filter binary64Ops I (finite_kernel kernel) (finite_weight G)
            (some intensity_sigma)).px y x).red = p.red
        ∨ ((main_filter binary64Ops I (finite_kernel kernel) (finite_weight G)
            (some intensity_sigma)).px y x).red.val + 1 = p.red.val)
      ∧ (((main_filter binary64Ops I (finite_kernel kernel) (finite_weight G)
            (some intensity_sigma)).px y x).green = p.green
        ∨ ((main_filter binary64Ops I (finite_kernel kernel) (finite_weight G)
            (some intensity_sigma)).px y x).green.val + 1 = p.green.val)
      ∧ (((main_filter binary64Ops I (finite_kernel kernel) (finite_weight G)
            (some intensity_sigma)).px y x).blue = p.blue
        ∨ ((main_filter binary64Ops I (finite_kernel kernel) (finite_weight G)
            (some intensity_sigma)).px y x).blue.val + 1 = p.blue.val)
      ∧ (main_filter (exactOps ℚ) I kernel G intensity_sigma).px y x
        = { red := p.red, green := p.green, blue := p.blue, alpha := 255 } := by
  have hk' : ∀ rc ∈ window kernel, 0 ≤ spatial_weight kernel rc.1 rc.2 :=
    fun rc hrc => (hk rc hrc).1
  have hG' : ∀ d, 0 ≤ G d intensity_sigma := fun d => (hG d).1
  have hN : (window_loop (exactOps ℚ) I kernel G intensity_sigma x y).normalization_term
      ≠ 0 := by
    rw [window_loop_exact]
    have h1 := normalization_ge_one I kernel G intensity_sigma x y hx hy hk' hG' h0 hc hG0
    exact ne_of_gt (lt_of_lt_of_le one_pos h1)
  have hpx : (main_filter binary64Ops I (finite_kernel kernel) (finite_weight G)
            (some intensity_sigma)).px y x
      = main_pixel roundedOps I kernel G intensity_sigma x y := by
    show (if y < I.get_height ∧ x < I.get_width then _ else _ : rgba_pixel) = _
    rw [if_pos ⟨hy, hx⟩]
    exact (main_pixel_finite I kernel G intensity_sigma x y hx hy hlen h0 hk hc hG hG0).1
  rw [hpx, main_pixel_rounded]
  exact ⟨rfl,
    channel_flat_rounded rgba_pixel.red I kernel G intensity_sigma x y p.red hx hy hlen h0
      hk' hc hG hG0 (fun _ _ => (hflat _ _).1),
    channel_flat_rounded rgba_pixel.green I kernel G intensity_sigma x y p.green hx hy hlen
      h0 hk' hc hG hG0 (fun _ _ => (hflat _ _).2.1),
    channel_flat_rounded rgba_pixel.blue I kernel G intensity_sigma x y p.blue hx hy hlen h0
      hk' hc hG hG0 (fun _ _ => (hflat _ _).2.2),
    (flat_raster_exact I kernel G intensity_sigma p x y hx hy hflat hN).2⟩

/-- The 1×1 raster `(9, 9, 9)` with the 7×7 kernel of the default sigma satisfies the
hypotheses of `flat_raster_identity`: in binary64 the red written is 9 or 8. -/
theorem flat_raster_identity_witness :
    0 < (raster_single ⟨9, 9, 9, 255⟩).get_width
      ∧ 0 < (raster_single ⟨9, 9, 9, 255⟩).get_height
      ∧ (window kernel_sigma2).length ≤ 2 ^ 40
      ∧ ((0 : Int), (0 : Int)) ∈ window kernel_sigma2
      ∧ (∀ rc ∈ window kernel_sigma2,
          0 ≤ spatial_weight kernel_sigma2 rc.1 rc.2 ∧ spatial_weight kernel_sigma2 rc.1 rc.2 ≤ 1)
      ∧ spatial_weight kernel_sigma2 0 0 = 1
      ∧ (∀ d, 0 ≤ G_flat d 5 ∧ G_flat d 5 ≤ 1)
      ∧ G_flat 0 5 = 1
      ∧ (∀ y' x', same_rgb ((raster_single ⟨9, 9, 9, 255⟩).px y' x') ⟨9, 9, 9, 255⟩)
      ∧ (((main_filter binary64Ops (raster_single ⟨9, 9, 9, 255⟩) (finite_kernel kernel_sigma2)
              (finite_weight G_flat) (some 5)).px 0 0).red = 9
          ∨ ((main_filter binary64Ops (raster_single ⟨9, 9, 9, 255⟩)
              (finite_kernel kernel_sigma2) (finite_weight G_flat) (some 5)).px 0 0).red.val + 1
            = 9) := by
  have hG : ∀ d, 0 ≤ G_flat d 5 ∧ G_flat d 5 ≤ 1 := by
    intro d
    unfold G_flat
    split_ifs <;> norm_num
  exact ⟨by decide, by decide, by decide!, by decide!, by decide!, by decide!, hG, by decide!,
    fun _ _ => ⟨rfl, rfl, rfl⟩,
    (flat_raster_identity (raster_single ⟨9, 9, 9, 255⟩) kernel_sigma2 G_flat 5
      ⟨9, 9, 9, 255⟩ 0 0 (by decide) (by decide) (by decide!) (by decide!) (by decide!)
      (by decide!) hG (by decide!) (fun _ _ => ⟨rfl, rfl, rfl⟩)).2.1⟩

/-! ## C9: the output lies in the range of the window -/

/-- C9, as the claim states it, fails under binary64 arithmetic: on the 1×1 raster with the
pixel `(91, 91, 91)` every sampled pixel has red 91, the kernel weights are positive and
the normalization term is positive, yet line 93 writes red 90, below the minimum of the
window. -/
theorem window_range_binary64 :
    (∀ rc ∈ window kernel_sigma2,
        (sample (raster_single ⟨91, 91, 91, 255⟩) 0 0 rc.1 rc.2).red = 91
          ∧ 0 < spatial_weight kernel_sigma2 rc.1 rc.2)
      ∧ 0 < ((window_loop binary64Ops (raster_single ⟨91, 91, 91, 255⟩)
            (finite_kernel kernel_sigma2) (finite_weight G_flat) (some 5) 0
            0).normalization_term).getD 0
      ∧ (main_pixel binary64Ops (raster_single ⟨91, 91, 91, 255⟩) (finite_kernel kernel_sigma2)
          (finite_weight G_flat) (some 5) 0 0).red = 90 := by
  decide!

/-- In exact arithmetic the floor of a weighted average of channel values lies between two
of them, and `CLAMP_INT` leaves it unchanged. -/
theorem window_range_exact {K : Type} [LinearOrderedField K] [FloorRing K] (I : Image)
    (kernel : Kernel K) (G : K → K → K) (intensity_sigma : K) (x y : Nat)
    (hk : ∀ rc ∈ window kernel, 0 ≤ spatial_weight kernel rc.1 rc.2)
    (hG : ∀ d, 0 ≤ G d intensity_sigma)
    (hN : 0 < (window_loop (exactOps K) I kernel G intensity_sigma x y).normalization_term) :
    ((∃ rc ∈ window kernel, (sample I x y rc.1 rc.2).red
          ≤ (main_pixel (exactOps K) I kernel G intensity_sigma x y).red)
        ∧ (∃ rc ∈ window kernel, (main_pixel (exactOps K) I kernel G intensity_sigma x y).red
          ≤ (sample I x y rc.1 rc.2).red))
      ∧ ((∃ rc ∈ window kernel, (sample I x y rc.1 rc.2).green
          ≤ (main_pixel (exactOps K) I kernel G intensity_sigma x y).green)
        ∧ (∃ rc ∈ window kernel, (main_pixel (exactOps K) I kernel G intensity_sigma x y).green
          ≤ (sample I x y rc.1 rc.2).green))
      ∧ ((∃ rc ∈ window kernel, (sample I x y rc.1 rc.2).blue
          ≤ (main_pixel (exactOps K) I kernel G intensity_sigma x y).blue)
        ∧ (∃ rc ∈ window kernel, (main_pixel (exactOps K) I kernel G intensity_sigma x y).blue
          ≤ (sample I x y rc.1 rc.2).blue))
      ∧ CLAMP_INT ((exactOps K).to_unsigned
            ((window_loop (exactOps K) I kernel G intensity_sigma x y).final_red
              / (window_loop (exactOps K) I kernel G intensity_sigma x y).normalization_term))
          = (exactOps K).to_unsigned
            ((window_loop (exactOps K) I kernel G intensity_sigma x y).final_red
              / (window_loop (exactOps K) I kernel G intensity_sigma x y).normalization_term)
      ∧ CLAMP_INT ((exactOps K).to_unsigned
            ((window_loop (exactOps K) I kernel G intensity_sigma x y).final_green
              / (window_loop (exactOps K) I kernel G intensity_sigma x y).normalization_term))
          = (exactOps K).to_unsigned
            ((window_loop (exactOps K) I kernel G intensity_sigma x y).final_green
              / (window_loop (exactOps K) I kernel G intensity_sigma x y).normalization_term)
      ∧ CLAMP_INT ((exactOps K).to_unsigned
            ((window_loop (exactOps K) I kernel G intensity_sigma x y).final_blue
              / (window_loop (exactOps K) I kernel G intensity_sigma x y).normalization_term))
          = (exactOps K).to_unsigned
            ((window_loop (exactOps K) I kernel G intensity_sigma x y).final_blue
              / (window_loop (exactOps K) I kernel G intensity_sigma x y).normalization_term) := by
  rw [window_loop_exact] at hN ⊢
  rw [main_pixel_exact]
  have hr := channel_range rgba_pixel.red I kernel G intensity_sigma x y hk hG hN
  have hg := channel_range rgba_pixel.green I kernel G intensity_sigma x y hk hG hN
  have hb := channel_range rgba_pixel.blue I kernel G intensity_sigma x y hk hG hN
  exact ⟨⟨hr.1, hr.2.1⟩, ⟨hg.1, hg.2.1⟩, ⟨hb.1, hb.2.1⟩, hr.2.2, hg.2.2, hb.2.2⟩

/-- C9, amended. For every raster and pixel `(x, y)` of it, every kernel table with weights
in [0, 1] on the window, centre weight 1 and at most 2^40 window cells, and every intensity
weight with values in [0, 1] and value 1 at distance 0: evaluated in binary64, each of the
red, green and blue written at line 93 is at most the value of that channel at a pixel
sampled in the clamped window and at least the value at a sampled pixel minus one (so
between the minimum minus one and the maximum), and `CLAMP_INT` leaves the cast quotient
unchanged; evaluated in exact arithmetic, each channel lies between the values at two
sampled pixels. -/
theorem output_within_window_range (I : Image) (kernel : Kernel ℚ) (G : ℚ → ℚ → ℚ)
    (intensity_sigma : ℚ) (x y : Nat)
    (hx : x < I.get_width) (hy : y < I.get_height)
    (hlen : (window kernel).length ≤ 2 ^ 40)
    (h0 : ((0 : Int), (0 : Int)) ∈ window kernel)
    (hk : ∀ rc ∈ window kernel,
      0 ≤ spatial_weight kernel rc.1 rc.2 ∧ spatial_weight kernel rc.1 rc.2 ≤ 1)
    (hc : spatial_weight kernel 0 0 = 1)
    (hG : ∀ d, 0 ≤ G d intensity_sigma ∧ G d intensity_sigma ≤ 1)
    (hG0 : G 0 intensity_sigma = 1) :
    (((∃ rc ∈ window kernel, (sample I x y rc.1 rc.2).red.val
          ≤ (main_pixel binary64Ops I (finite_kernel kernel) (finite_weight G)
            (some intensity_sigma) x y).red.val + 1)
        ∧ (∃ rc ∈ window kernel, (main_pixel binary64Ops I (finite_kernel kernel) (finite_weight G)
            (some intensity_sigma) x y).red
          ≤ (sample I x y rc.1 rc.2).red))
      ∧ ((∃ rc ∈ window kernel, (sample I x y rc.1 rc.2).green.val
          ≤ (main_pixel binary64Ops I (finite_kernel kernel) (finite_weight G)
            (some intensity_sigma) x y).green.val + 1)
        ∧ (∃ rc ∈ window kernel, (main_pixel binary64Ops I (finite_kernel kernel) (finite_weight G)
            (some intensity_sigma) x y).green
          ≤ (sample I x y rc.1 rc.2).green))
      ∧ ((∃ rc ∈ window kernel, (sample I x y rc.1 rc.2).blue.val
          ≤ (main_pixel binary64Ops I (finite_kernel kernel) (finite_weight G)
            (some intensity_sigma) x y).blue.val + 1)
        ∧ (∃ rc ∈ window kernel, (main_pixel binary64Ops I (finite_kernel kernel) (finite_weight G)
            (some intensity_sigma) x y).blue
          ≤ (sample I x y rc.1 rc.2).blue)))
      ∧ (CLAMP_INT (binary64Ops.to_unsigned (binary64Ops.div
            (window_loop binary64Ops I (finite_kernel kernel) (finite_weight G)
              (some intensity_sigma) x y).final_red
            (window_loop binary64Ops I (finite_kernel kernel) (finite_weight G)
              (some intensity_sigma) x y).normalization_term))
          = binary64Ops.to_unsigned (binary64Ops.div
            (window_loop binary64Ops I (finite_kernel kernel) (finite_weight G)
              (some intensity_sigma) x y).final_red
            (window_loop binary64Ops I (finite_kernel kernel) (finite_weight G)
              (some intensity_sigma) x y).normalization_term)
        ∧ CLAMP_INT (binary64Ops.to_unsigned (binary64Ops.div
            (window_loop binary64Ops I (finite_kernel kernel) (finite_weight G)
              (some intensity_sigma) x y).final_green
            (window_loop binary64Ops I (finite_kernel kernel) (finite_weight G)
              (some intensity_sigma) x y).normalization_term))
          = binary64Ops.to_unsigned (binary64Ops.div
            (window_loop binary64Ops I (finite_kernel kernel) (finite_weight G)
              (some intensity_sigma) x y).final_green
            (window_loop binary64Ops I (finite_kernel kernel) (finite_weight G)
              (some intensity_sigma) x y).normalization_term)
        ∧ CLAMP_INT (binary64Ops.to_unsigned (binary64Ops.div
            (window_loop binary64Ops I (finite_kernel kernel) (finite_weight G)
              (some intensity_sigma) x y).final_blue
            (window_loop binary64Ops I (finite_kernel kernel) (finite_weight G)
              (some intensity_sigma) x y).normalization_term))
          = binary64Ops.to_unsigned (binary64Ops.div
            (window_loop binary64Ops I (finite_kernel kernel) (finite_weight G)
              (some intensity_sigma) x y).final_blue
            (window_loop binary64Ops I (finite_kernel kernel) (finite_weight G)
              (some intensity_sigma) x y).normalization_term))
      ∧ (((∃ rc ∈ window kernel, (sample I x y rc.1 rc.2).red
            ≤ (main_pixel (exactOps ℚ) I kernel G intensity_sigma x y).red)
          ∧ (∃ rc ∈ window kernel,
            (main_pixel (exactOps ℚ) I kernel G intensity_sigma x y).red
              ≤ (sample I x y rc.1 rc.2).red))
        ∧ ((∃ rc ∈ window kernel, (sample I x y rc.1 rc.2).green
            ≤ (main_pixel (exactOps ℚ) I kernel G intensity_sigma x y).green)
          ∧ (∃ rc ∈ window kernel,
            (main_pixel (exactOps ℚ) I kernel G intensity_sigma x y).green
              ≤ (sample I x y rc.1 rc.2).green))
        ∧ ((∃ rc ∈ window kernel, (sample I x y rc.1 rc.2).blue
            ≤ (main_pixel (exactOps ℚ) I kernel G intensity_sigma x y).blue)
          ∧ (∃ rc ∈ window kernel,
            (main_pixel (exactOps ℚ) I kernel G intensity_sigma x y).blue
              ≤ (sample I x y rc.1 rc.2).blue))) := by
  have hk' : ∀ rc ∈ window kernel, 0 ≤ spatial_weight kernel rc.1 rc.2 :=
    fun rc hrc => (hk rc hrc).1
  have hG' : ∀ d, 0 ≤ G d intensity_sigma := fun d => (hG d).1
  have hN : 0 < (window_loop (exactOps ℚ) I kernel G intensity_sigma x y).normalization_term := by
    rw [window_loop_exact]
    exact lt_of_lt_of_le one_pos
      (normalization_ge_one I kernel G intensity_sigma x y hx hy hk' hG' h0 hc hG0)
  have he := window_range_exact I kernel G intensity_sigma x y hk' hG' hN
  have hr := channel_range_rounded rgba_pixel.red I kernel G intensity_sigma x y hx hy hlen
    h0 hk' hc hG hG0
  have hg := channel_range_rounded rgba_pixel.green I kernel G intensity_sigma x y hx hy hlen
    h0 hk' hc hG hG0
  have hb := channel_range_rounded rgba_pixel.blue I kernel G intensity_sigma x y hx hy hlen
    h0 hk' hc hG hG0
  obtain ⟨hm, hqr, hqg, hqb⟩ :=
    main_pixel_finite I kernel G intensity_sigma x y hx hy hlen h0 hk hc hG hG0
  rw [hm, main_pixel_rounded, hqr, hqg, hqb]
  exact ⟨⟨⟨hr.1, hr.2.1⟩, ⟨hg.1, hg.2.1⟩, ⟨hb.1, hb.2.1⟩⟩, ⟨hr.2.2, hg.2.2, hb.2.2⟩,
    ⟨he.1, he.2.1, he.2.2.1⟩⟩

/-- The 1×1 raster `(91, 91, 91)` with the 7×7 kernel of the default sigma satisfies the
hypotheses of `output_within_window_range`: in binary64 a sampled red is at most the red
written plus one, and the red written is at most a sampled red. -/
theorem output_within_window_range_witness :
    0 < (raster_single ⟨91, 91, 91, 255⟩).get_width
      ∧ 0 < (raster_single ⟨91, 91, 91, 255⟩).get_height
      ∧ (window kernel_sigma2).length ≤ 2 ^ 40
      ∧ ((0 : Int), (0 : Int)) ∈ window kernel_sigma2
      ∧ (∀ rc ∈ window kernel_sigma2,
          0 ≤ spatial_weight kernel_sigma2 rc.1 rc.2 ∧ spatial_weight kernel_sigma2 rc.1 rc.2 ≤ 1)
      ∧ spatial_weight kernel_sigma2 0 0 = 1
      ∧ (∀ d, 0 ≤ G_flat d 5 ∧ G_flat d 5 ≤ 1)
      ∧ G_flat 0 5 = 1
      ∧ ((∃ rc ∈ window kernel_sigma2,
            (sample (raster_single ⟨91, 91, 91, 255⟩) 0 0 rc.1 rc.2).red.val
              ≤ (main_pixel binary64Ops (raster_single ⟨91, 91, 91, 255⟩)
                (finite_kernel kernel_sigma2) (finite_weight G_flat) (some 5) 0 0).red.val + 1)
          ∧ (∃ rc ∈ window kernel_sigma2,
            (main_pixel binary64Ops (raster_single ⟨91, 91, 91, 255⟩)
                (finite_kernel kernel_sigma2) (finite_weight G_flat) (some 5) 0 0).red
              ≤ (sample (raster_single ⟨91, 91, 91, 255⟩) 0 0 rc.1 rc.2).red)) := by
  have hG : ∀ d, 0 ≤ G_flat d 5 ∧ G_flat d 5 ≤ 1 := by
    intro d
    unfold G_flat
    split_ifs <;> norm_num
  exact ⟨by decide, by decide, by decide!, by decide!, by decide!, by decide!, hG, by decide!,
    (output_within_window_range (raster_single ⟨91, 91, 91, 255⟩) kernel_sigma2 G_flat 5 0 0
      (by decide) (by decide) (by decide!) (by decide!) (by decide!) (by decide!) hG
      (by decide!)).1.1⟩

/-! ## C8: the normalization term -/

theorem gaussian_kernel_nonneg (dim : Int) (sigma : ℝ) (r c : Int) :
    0 ≤ spatial_weight (get_gaussian_kernel (exactOps ℝ) Real.exp dim sigma) r c := by
  unfold spatial_weight get_gaussian_kernel
  exact Real.exp_nonneg _

theorem gaussian_kernel_center (k : Nat) (sigma : ℝ) :
    spatial_weight (get_gaussian_kernel (exactOps ℝ) Real.exp (2 * (k : Int) + 1) sigma) 0 0 = 1 := by
  unfold spatial_weight get_gaussian_kernel
  simp [exactOps]

theorem G_nonneg (d sigma : ℝ) : 0 ≤ G (exactOps ℝ) Real.exp d sigma := by
  unfold G
  exact Real.exp_nonneg _

theorem G_zero (sigma : ℝ) : G (exactOps ℝ) Real.exp 0 sigma = 1 := by
  unfold G
  simp [exactOps]

theorem gaussian_normalization_ge_one (I : Image) (k : Nat) (sigma_s sigma_i : ℝ) (x y : Nat)
    (hx : x < I.get_width) (hy : y < I.get_height) :
    1 ≤ normalization_sum I (get_gaussian_kernel (exactOps ℝ) Real.exp (2 * (k : Int) + 1) sigma_s)
      (G (exactOps ℝ) Real.exp) sigma_i x y :=
  normalization_ge_one I _ _ sigma_i x y hx hy
    (fun rc _ => gaussian_kernel_nonneg _ sigma_s rc.1 rc.2) (fun d => G_nonneg d sigma_i)
    (zero_mem_window_odd _ k rfl rfl) (gaussian_kernel_center k sigma_s) (G_zero sigma_i)

theorem eta64_eq : eta64 = 1 / 2 ^ 1075 := by
  unfold eta64
  have h : (-1075 : ℤ) = -((1075 : ℕ) : ℤ) := by norm_cast
  rw [h, zpow_neg, zpow_natCast, one_div]

theorem binary64_finite_of_le (q : ℚ) (h : |q| ≤ 2 ^ 1000) :
    binary64_finite q = some (binary64_round q) := by
  unfold binary64_finite
  rw [if_pos]
  have h1 := binary64_round_abs_le q
  have hu := u53_eq
  have he := eta64_le
  have hq0 := abs_nonneg q
  have h2 : |q| * (1 + u53) + eta64 ≤ 2 ^ 1000 * 2 + 1 := by
    rw [hu]
    have : |q| * (1 + 1 / 9007199254740992) ≤ |q| * 2 :=
      mul_le_mul_of_nonneg_left (by norm_num) hq0
    linarith
  have h3 : ((2 : ℚ) ^ 1000 * 2 + 1 : ℚ) < 2 ^ 1024 := by norm_num
  linarith

theorem binary64_round_nonpos (q : ℚ) (hq : q ≤ 0) : binary64_round q ≤ 0 := by
  have h := binary64_round_nonneg (-q) (by linarith)
  rw [binary64_round_neg] at h
  linarith

theorem binary64_round_between (q : ℚ) (hq : 1 / 2 ^ 1000 ≤ q) :
    q / 2 ≤ binary64_round q ∧ binary64_round q ≤ 2 * q := by
  have hq0 : (0 : ℚ) ≤ q := le_trans (by positivity) hq
  have hb := binary64_round_bounds q hq0
  have hu := u53_eq
  have he := eta64_eq
  rw [hu, he] at hb
  have h1 : (1 : ℚ) / 2 ^ 1075 ≤ 1 / 2 ^ 1000 / 4 := by norm_num
  constructor
  · linarith [hb.1]
  · linarith [hb.2]

theorem binary64Ops_two : binary64Ops.of_int 2 = some 2 := by
  have h := binary64Ops_of_int 2 (by norm_num)
  simpa using h

theorem sigma_square_finite (sigma : ℚ) (h0 : 1 / 2 ^ 400 ≤ sigma) (h1 : sigma ≤ 2 ^ 400) :
    ∃ d : ℚ, binary64Ops.mul (binary64Ops.mul (binary64Ops.of_int 2) (some sigma)) (some sigma)
        = some d ∧ 1 / 2 ^ 802 ≤ d ∧ d ≤ 2 ^ 804 := by
  have hs0 : (0 : ℚ) < sigma := lt_of_lt_of_le (by positivity) h0
  have hsq0 : (1 : ℚ) / 2 ^ 800 ≤ sigma * sigma := by
    have h := mul_le_mul h0 h0 (by positivity) hs0.le
    have e : (1 : ℚ) / 2 ^ 400 * (1 / 2 ^ 400) = 1 / 2 ^ 800 := by norm_num
    rw [e] at h
    exact h
  have hsq1 : sigma * sigma ≤ 2 ^ 800 := by
    have h := mul_le_mul h1 h1 hs0.le (by positivity)
    have e : (2 : ℚ) ^ 400 * 2 ^ 400 = 2 ^ 800 := by norm_num
    rw [e] at h
    exact h
  have hb1 := binary64_round_between (2 * sigma) (by
    have : (1 : ℚ) / 2 ^ 1000 ≤ 2 * (1 / 2 ^ 400) := by norm_num
    linarith)
  have hm0 : sigma ≤ binary64_round (2 * sigma) := by linarith [hb1.1]
  have hm1 : binary64_round (2 * sigma) ≤ 4 * sigma := by linarith [hb1.2]
  have hp0 : sigma * sigma ≤ binary64_round (2 * sigma) * sigma :=
    mul_le_mul_of_nonneg_right hm0 hs0.le
  have hp1 : binary64_round (2 * sigma) * sigma ≤ 4 * sigma * sigma :=
    mul_le_mul_of_nonneg_right hm1 hs0.le
  have hb2 := binary64_round_between (binary64_round (2 * sigma) * sigma) (by
    have : (1 : ℚ) / 2 ^ 1000 ≤ 1 / 2 ^ 800 := by norm_num
    linarith)
  have e1 : binary64Ops.mul (binary64Ops.of_int 2) (some sigma)
      = some (binary64_round (2 * sigma)) := by
    rw [binary64Ops_two]
    show binary64_finite (2 * sigma) = _
    apply binary64_finite_of_le
    rw [abs_of_nonneg (by linarith)]
    have : (2 : ℚ) * 2 ^ 400 ≤ 2 ^ 1000 := by norm_num
    linarith
  have e2 : binary64Ops.mul (some (binary64_round (2 * sigma))) (some sigma)
      = some (binary64_round (binary64_round (2 * sigma) * sigma)) := by
    show binary64_finite (binary64_round (2 * sigma) * sigma) = _
    apply binary64_finite_of_le
    rw [abs_of_nonneg (by linarith)]
    have : (4 : ℚ) * 2 ^ 800 ≤ 2 ^ 1000 := by norm_num
    linarith
  refine ⟨binary64_round (binary64_round (2 * sigma) * sigma), by rw [e1, e2], ?_, ?_⟩
  · have : (1 : ℚ) / 2 ^ 802 ≤ 1 / 2 ^ 800 / 2 := by norm_num
    linarith [hb2.1]
  · have : (2 : ℚ) * (4 * 2 ^ 800) ≤ 2 ^ 804 := by norm_num
    linarith [hb2.2]

theorem negation_finite (m : ℚ) (hm0 : 0 ≤ m) (hm1 : m ≤ 4398046511104) :
    ∃ a : ℚ, binary64Ops.sub (binary64Ops.of_int 0) (some m) = some a ∧ a ≤ 0
      ∧ -8796093022208 ≤ a ∧ (m = 0 → a = 0) := by
  have e : binary64Ops.sub (binary64Ops.of_int 0) (some m) = some (binary64_round (0 - m)) := by
    rw [binary64Ops_zero]
    exact binary64Ops_sub 0 m (by
      rw [abs_le]
      constructor <;> linarith)
  have hr : binary64_round (0 - m) = -binary64_round m := by
    rw [zero_sub, binary64_round_neg]
  have hb := binary64_round_le m 4398046511104 hm0 hm1 (by norm_num)
  refine ⟨_, e, ?_, ?_, ?_⟩
  · rw [hr]
    linarith [hb.1]
  · rw [hr]
    linarith [hb.2]
  · intro h
    rw [h, sub_zero, binary64_round_zero]

theorem exp_argument_finite (a d : ℚ) (ha0 : a ≤ 0) (ha1 : -8796093022208 ≤ a)
    (hd0 : 1 / 2 ^ 802 ≤ d) :
    ∃ t : ℚ, binary64Ops.div (some a) (some d) = some t ∧ t ≤ 0 ∧ (a = 0 → t = 0) := by
  have hd : (0 : ℚ) < d := lt_of_lt_of_le (by positivity) hd0
  have hq0 : a / d ≤ 0 := div_nonpos_of_nonpos_of_nonneg ha0 hd.le
  have hq1 : -(2 ^ 1000) ≤ a / d := by
    rw [le_div_iff₀ hd]
    have h1 : -(2 ^ 1000 : ℚ) * d ≤ -(2 ^ 1000) * (1 / 2 ^ 802) :=
      mul_le_mul_of_nonpos_left hd0 (by norm_num)
    have h2 : -(2 ^ 1000 : ℚ) * (1 / 2 ^ 802) ≤ -8796093022208 := by norm_num
    linarith
  have e : binary64Ops.div (some a) (some d) = some (binary64_round (a / d)) := by
    show (if d = 0 then none else binary64_finite (a / d)) = _
    rw [if_neg hd.ne', binary64_finite_of_le _ (by
      rw [abs_of_nonpos hq0]
      linarith)]
  refine ⟨_, e, binary64_round_nonpos _ hq0, ?_⟩
  intro h
  rw [h, zero_div, binary64_round_zero]

theorem G_binary64 (exp : Option ℚ → Option ℚ) (hexp0 : exp (some 0) = some 1)
    (hexp : ∀ t : ℚ, t ≤ 0 → ∃ e : ℚ, exp (some t) = some e ∧ 0 ≤ e ∧ e ≤ 1)
    (x sigma : ℚ) (hx0 : 0 ≤ x) (hx1 : x ≤ 1048576)
    (h0 : 1 / 2 ^ 400 ≤ sigma) (h1 : sigma ≤ 2 ^ 400) :
    ∃ g : ℚ, G binary64Ops exp (some x) (some sigma) = some g ∧ 0 ≤ g ∧ g ≤ 1
      ∧ (x = 0 → g = 1) := by
  obtain ⟨d, hd, hd0, -⟩ := sigma_square_finite sigma h0 h1
  have hxx0 : 0 ≤ x * x := mul_nonneg hx0 hx0
  have hxx1 : x * x ≤ 1099511627776 := by
    have h := mul_le_mul hx1 hx1 hx0 (by norm_num)
    norm_num at h
    exact h
  have hm := binary64_round_le (x * x) 1099511627776 hxx0 hxx1 (by norm_num)
  have e1 : binary64Ops.mul (some x) (some x) = some (binary64_round (x * x)) :=
    binary64Ops_mul x x (by rw [abs_of_nonneg hxx0]; linarith)
  obtain ⟨a, ha, ha0, ha1, haz⟩ := negation_finite (binary64_round (x * x)) hm.1
    (by linarith [hm.2])
  obtain ⟨t, ht, ht0, htz⟩ := exp_argument_finite a d ha0 ha1 hd0
  obtain ⟨e, he, he0, he1⟩ := hexp t ht0
  refine ⟨e, ?_, he0, he1, ?_⟩
  · unfold G
    rw [e1, ha, hd, ht, he]
  · intro hx
    have hm0 : binary64_round (x * x) = 0 := by
      rw [hx, mul_zero, binary64_round_zero]
    have ht' := htz (haz hm0)
    rw [ht', hexp0] at he
    exact (Option.some.inj he).symm

theorem gaussian_cell_binary64 (exp : Option ℚ → Option ℚ) (hexp0 : exp (some 0) = some 1)
    (hexp : ∀ t : ℚ, t ≤ 0 → ∃ e : ℚ, exp (some t) = some e ∧ 0 ≤ e ∧ e ≤ 1)
    (dim : Int) (sigma : ℚ) (i j : Int)
    (hn : (i - Int.tdiv dim 2) * (i - Int.tdiv dim 2)
      + (j - Int.tdiv dim 2) * (j - Int.tdiv dim 2) ≤ 2199023255552)
    (h0 : 1 / 2 ^ 400 ≤ sigma) (h1 : sigma ≤ 2 ^ 400) :
    ∃ w : ℚ, (get_gaussian_kernel binary64Ops exp dim (some sigma)).get i j = some w
      ∧ 0 ≤ w ∧ w ≤ 1
      ∧ ((i - Int.tdiv dim 2) * (i - Int.tdiv dim 2)
          + (j - Int.tdiv dim 2) * (j - Int.tdiv dim 2) = 0 → w = 1) := by
  obtain ⟨d, hd, hd0, -⟩ := sigma_square_finite sigma h0 h1
  generalize hn' : (i - Int.tdiv dim 2) * (i - Int.tdiv dim 2)
      + (j - Int.tdiv dim 2) * (j - Int.tdiv dim 2) = n at hn
  have hn0 : 0 ≤ n := by
    rw [← hn']
    exact add_nonneg (mul_self_nonneg _) (mul_self_nonneg _)
  have hq0 : (0 : ℚ) ≤ (n : ℚ) := by exact_mod_cast hn0
  have hq1 : (n : ℚ) ≤ 2199023255552 := by exact_mod_cast hn
  have hm := binary64_round_le (n : ℚ) 2199023255552 hq0 hq1 (by norm_num)
  have e1 : binary64Ops.of_int n = some (binary64_round (n : ℚ)) := by
    show binary64_finite (n : ℚ) = _
    exact binary64_finite_eq _ (by rw [abs_of_nonneg hq0]; linarith)
  obtain ⟨a, ha, ha0, ha1, haz⟩ := negation_finite (binary64_round (n : ℚ)) hm.1
    (by linarith [hm.2])
  obtain ⟨t, ht, ht0, htz⟩ := exp_argument_finite a d ha0 ha1 hd0
  obtain ⟨e, he, he0, he1⟩ := hexp t ht0
  refine ⟨e, ?_, he0, he1, ?_⟩
  · show exp (binary64Ops.div (binary64Ops.sub (binary64Ops.of_int 0)
        (binary64Ops.of_int ((i - Int.tdiv dim 2) * (i - Int.tdiv dim 2)
          + (j - Int.tdiv dim 2) * (j - Int.tdiv dim 2))))
      (binary64Ops.mul (binary64Ops.mul (binary64Ops.of_int 2) (some sigma)) (some sigma)))
      = some e
    rw [hn', e1, ha, hd, ht, he]
  · intro hz
    have hm0 : binary64_round (n : ℚ) = 0 := by
      rw [hz, Int.cast_zero, binary64_round_zero]
    have ht' := htz (haz hm0)
    rw [ht', hexp0] at he
    exact (Option.some.inj he).symm

theorem window_length_odd {D : Type} (kernel : Kernel D) (k : Nat)
    (hh : kernel.height = 2 * (k : Int) + 1) (hw : kernel.width = 2 * (k : Int) + 1) :
    (window kernel).length = (2 * k + 1) * (2 * k + 1) := by
  unfold window
  rw [rows_odd kernel k hh, cols_odd kernel k hw, List.length_flatMap]
  simp [Function.comp_def]

theorem mem_window_odd {D : Type} (kernel : Kernel D) (k : Nat)
    (hh : kernel.height = 2 * (k : Int) + 1) (hw : kernel.width = 2 * (k : Int) + 1)
    (rc : Int × Int) (hrc : rc ∈ window kernel) :
    -(k : Int) ≤ rc.1 ∧ rc.1 ≤ k ∧ -(k : Int) ≤ rc.2 ∧ rc.2 ≤ k := by
  have hm := (mem_window kernel rc.1 rc.2).mp hrc
  unfold rows cols at hm
  rw [hh, hw, tdiv_two_odd, tdiv_two_neg_odd, mem_int_range, mem_int_range] at hm
  omega

theorem window_loop_congr_weights {D : Type} (ops : DoubleOps D) (I : Image)
    (kernel₁ kernel₂ : Kernel D) (G₁ G₂ : D → D → D) (intensity_sigma : D) (x y : Nat)
    (hh : kernel₁.height = kernel₂.height) (hw : kernel₁.width = kernel₂.width)
    (hk : ∀ rc ∈ window kernel₁,
      spatial_weight kernel₁ rc.1 rc.2 = spatial_weight kernel₂ rc.1 rc.2)
    (hG : ∀ rc ∈ window kernel₁,
      intensity_weight ops G₁ intensity_sigma (pixel_to_grayscale ops (I.px y x))
          (sample I x y rc.1 rc.2)
        = intensity_weight ops G₂ intensity_sigma (pixel_to_grayscale ops (I.px y x))
          (sample I x y rc.1 rc.2)) :
    window_loop ops I kernel₁ G₁ intensity_sigma x y
      = window_loop ops I kernel₂ G₂ intensity_sigma x y := by
  have hwin : window kernel₂ = window kernel₁ := by
    unfold window rows cols
    rw [hh, hw]
  rw [window_loop_eq_foldl, window_loop_eq_foldl, hwin]
  apply List.foldl_ext
  intro acc rc hrc
  unfold loop_body
  simp only [hk rc hrc, hG rc hrc]

theorem gaussian_weight_binary64 (exp : Option ℚ → Option ℚ) (hexp0 : exp (some 0) = some 1)
    (hexp : ∀ t : ℚ, t ≤ 0 → ∃ e : ℚ, exp (some t) = some e ∧ 0 ≤ e ∧ e ≤ 1)
    (k : Nat) (hk : k < 2 ^ 19) (sigma : ℚ) (h0 : 1 / 2 ^ 400 ≤ sigma) (h1 : sigma ≤ 2 ^ 400)
    (r c : Int) (hr0 : -(k : Int) ≤ r) (hr1 : r ≤ k) (hc0 : -(k : Int) ≤ c) (hc1 : c ≤ k) :
    ∃ w : ℚ, spatial_weight
          (get_gaussian_kernel binary64Ops exp (2 * (k : Int) + 1) (some sigma)) r c = some w
      ∧ 0 ≤ w ∧ w ≤ 1 ∧ (r = 0 → c = 0 → w = 1) := by
  have hk' : (k : Int) < 524288 := by
    have : (2 : ℕ) ^ 19 = 524288 := by norm_num
    omega
  have hr2 : r * r ≤ 274877906944 := by nlinarith
  have hc2 : c * c ≤ 274877906944 := by nlinarith
  have hi : ∀ v : Int, v + Int.tdiv (2 * (k : Int) + 1) 2 - Int.tdiv (2 * (k : Int) + 1) 2 = v :=
    fun v => by ring
  obtain ⟨w, hw, hw0, hw1, hwz⟩ := gaussian_cell_binary64 exp hexp0 hexp (2 * (k : Int) + 1)
    sigma (r + Int.tdiv (2 * (k : Int) + 1) 2) (c + Int.tdiv (2 * (k : Int) + 1) 2)
    (by rw [hi, hi]; omega) h0 h1
  refine ⟨w, hw, hw0, hw1, ?_⟩
  intro hr hc
  apply hwz
  rw [hi, hi, hr, hc]
  rfl

theorem gaussian_normalization_binary64 (I : Image) (k : Nat) (exp : Option ℚ → Option ℚ)
    (sigma_s sigma_i : ℚ) (x y : Nat)
    (hexp0 : exp (some 0) = some 1)
    (hexp : ∀ t : ℚ, t ≤ 0 → ∃ e : ℚ, exp (some t) = some e ∧ 0 ≤ e ∧ e ≤ 1)
    (hk : k < 2 ^ 19)
    (hs0 : 1 / 2 ^ 400 ≤ sigma_s) (hs1 : sigma_s ≤ 2 ^ 400)
    (hi0 : 1 / 2 ^ 400 ≤ sigma_i) (hi1 : sigma_i ≤ 2 ^ 400)
    (hx : x < I.get_width) (hy : y < I.get_height) :
    ∃ n : ℚ, (window_loop binary64Ops I
          (get_gaussian_kernel binary64Ops exp (2 * (k : Int) + 1) (some sigma_s))
          (G binary64Ops exp) (some sigma_i) x y).normalization_term = some n ∧ 1 ≤ n := by
  have hcell : ∀ rc ∈ window
      (get_gaussian_kernel binary64Ops exp (2 * (k : Int) + 1) (some sigma_s)),
      ∃ w : ℚ, spatial_weight
          (get_gaussian_kernel binary64Ops exp (2 * (k : Int) + 1) (some sigma_s)) rc.1 rc.2
            = some w
        ∧ 0 ≤ w ∧ w ≤ 1 ∧ (rc.1 = 0 → rc.2 = 0 → w = 1) := by
    intro rc hrc
    obtain ⟨a, b, c, d⟩ := mem_window_odd _ k rfl rfl rc hrc
    exact gaussian_weight_binary64 exp hexp0 hexp k hk sigma_s hs0 hs1 rc.1 rc.2 a b c d
  have hweight : ∀ v : ℚ, |v| ≤ 1048576 →
      ∃ g : ℚ, G binary64Ops exp (some |v|) (some sigma_i) = some g ∧ 0 ≤ g ∧ g ≤ 1
        ∧ (v = 0 → g = 1) := by
    intro v hv
    obtain ⟨g, hg, hg0, hg1, hgz⟩ := G_binary64 exp hexp0 hexp |v| sigma_i (abs_nonneg v) hv
      hi0 hi1
    exact ⟨g, hg, hg0, hg1, fun h => hgz (by rw [h, abs_zero])⟩
  have hwin : window (⟨2 * (k : Int) + 1, 2 * (k : Int) + 1, fun i j =>
        ((get_gaussian_kernel binary64Ops exp (2 * (k : Int) + 1) (some sigma_s)).get i
          j).getD 0⟩ : Kernel ℚ)
      = window (get_gaussian_kernel binary64Ops exp (2 * (k : Int) + 1) (some sigma_s)) := rfl
  have hcongr := window_loop_congr_weights binary64Ops I
    (get_gaussian_kernel binary64Ops exp (2 * (k : Int) + 1) (some sigma_s))
    (finite_kernel ⟨2 * (k : Int) + 1, 2 * (k : Int) + 1, fun i j =>
        ((get_gaussian_kernel binary64Ops exp (2 * (k : Int) + 1) (some sigma_s)).get i
          j).getD 0⟩)
    (G binary64Ops exp)
    (finite_weight (fun v s => min 1 (max 0 ((G binary64Ops exp (some v) (some s)).getD 1))))
    (some sigma_i) x y rfl rfl
    (by
      intro rc hrc
      obtain ⟨w, hw, -⟩ := hcell rc hrc
      rw [hw]
      show some w = some (Option.getD (spatial_weight
        (get_gaussian_kernel binary64Ops exp (2 * (k : Int) + 1) (some sigma_s)) rc.1 rc.2) 0)
      rw [hw]
      rfl)
    (by
      intro rc _
      obtain ⟨hp, hp0, hp1⟩ := pixel_to_grayscale_finite (sample I x y rc.1 rc.2)
      obtain ⟨hq, hq0, hq1⟩ := pixel_to_grayscale_finite (I.px y x)
      have hsub : |pixel_to_grayscale roundedOps (sample I x y rc.1 rc.2)
          - pixel_to_grayscale roundedOps (I.px y x)| ≤ 1024 := by
        rw [abs_le]
        constructor <;> linarith
      have hv := binary64_round_abs_le (pixel_to_grayscale roundedOps (sample I x y rc.1 rc.2)
          - pixel_to_grayscale roundedOps (I.px y x))
      have hu := u53_eq
      have he := eta64_le
      have hv' : |binary64_round (pixel_to_grayscale roundedOps (sample I x y rc.1 rc.2)
          - pixel_to_grayscale roundedOps (I.px y x))| ≤ 1048576 := by
        rw [hu] at hv
        have h2 := abs_nonneg (pixel_to_grayscale roundedOps (sample I x y rc.1 rc.2)
          - pixel_to_grayscale roundedOps (I.px y x))
        nlinarith
      obtain ⟨g, hg, hg0, hg1, -⟩ := hweight _ hv'
      unfold intensity_weight
      rw [hp, hq, binary64Ops_sub _ _ (by linarith)]
      show G binary64Ops exp (some |binary64_round _|) (some sigma_i)
        = some (min 1 (max 0 ((G binary64Ops exp (some |binary64_round _|)
            (some sigma_i)).getD 1)))
      rw [hg]
      show some g = some (min 1 (max 0 g))
      rw [max_eq_right hg0, min_eq_right hg1])
  rw [hcongr]
  apply normalization_binary64_ge_one I _ _ sigma_i x y hx hy
  · rw [window_length_odd _ k rfl rfl]
    have h1 : 2 * k + 1 ≤ 2 ^ 20 := by
      have : (2 : ℕ) ^ 19 = 524288 := by norm_num
      have : (2 : ℕ) ^ 20 = 1048576 := by norm_num
      omega
    calc (2 * k + 1) * (2 * k + 1) ≤ 2 ^ 20 * 2 ^ 20 := Nat.mul_le_mul h1 h1
      _ = 2 ^ 40 := by norm_num
  · exact zero_mem_window_odd _ k rfl rfl
  · intro rc hrc
    rw [hwin] at hrc
    obtain ⟨w, hw, hw0, hw1, -⟩ := hcell rc hrc
    show 0 ≤ Option.getD (spatial_weight
        (get_gaussian_kernel binary64Ops exp (2 * (k : Int) + 1) (some sigma_s)) rc.1 rc.2) 0
      ∧ Option.getD (spatial_weight
        (get_gaussian_kernel binary64Ops exp (2 * (k : Int) + 1) (some sigma_s)) rc.1 rc.2) 0
        ≤ 1
    rw [hw]
    exact ⟨hw0, hw1⟩
  · obtain ⟨w, hw, -, -, hwz⟩ := hcell (0, 0) (zero_mem_window_odd _ k rfl rfl)
    show Option.getD (spatial_weight
        (get_gaussian_kernel binary64Ops exp (2 * (k : Int) + 1) (some sigma_s)) 0 0) 0 = 1
    rw [hw]
    exact hwz rfl rfl
  · intro d
    exact ⟨le_min zero_le_one (le_max_left _ _), min_le_left _ _⟩
  · obtain ⟨g, hg, hg0, hg1, hgz⟩ := hweight 0 (by rw [abs_zero]; norm_num)
    show min 1 (max 0 ((G binary64Ops exp (some 0) (some sigma_i)).getD 1)) = 1
    rw [abs_zero] at hg
    rw [hg]
    show min 1 (max 0 g) = 1
    rw [hgz rfl]
    norm_num

theorem binary64Ops_mul_none (a : Option ℚ) : binary64Ops.mul a none = none := by
  cases a <;> rfl

theorem binary64Ops_add_none (a : Option ℚ) : binary64Ops.add a none = none := by
  cases a <;> rfl

theorem foldl_add_none {β : Type} (l : List β) (f : β → Option ℚ) (a : Option ℚ)
    (hl : l ≠ []) (hf : ∀ b ∈ l, f b = none) :
    l.foldl (fun acc b => binary64Ops.add acc (f b)) a = none := by
  induction l generalizing a with
  | nil => exact absurd rfl hl
  | cons b t ih =>
    rw [List.foldl_cons, hf b (List.mem_cons_self b t), binary64Ops_add_none]
    by_cases ht : t = []
    · rw [ht]
      rfl
    · exact ih none ht (fun b' hb' => hf b' (List.mem_cons_of_mem b hb'))

theorem sigma_square_underflow :
    binary64Ops.mul (binary64Ops.mul (binary64Ops.of_int 2) (some (1 / 2 ^ 600)))
      (some (1 / 2 ^ 600)) = some 0 := by
  decide!

theorem G_underflow (exp : Option ℚ → Option ℚ) (hexp : exp none = none) :
    G binary64Ops exp (some 0) (some (1 / 2 ^ 600)) = none := by
  unfold G
  rw [sigma_square_underflow]
  have h1 : binary64Ops.sub (binary64Ops.of_int 0) (binary64Ops.mul (some 0) (some 0))
      = some 0 := by
    decide!
  rw [h1]
  have h2 : binary64Ops.div (some 0) (some 0) = none := rfl
  rw [h2, hexp]

theorem normalization_underflow (p : rgba_pixel) (kernel : Kernel (Option ℚ))
    (exp : Option ℚ → Option ℚ) (hexp : exp none = none) (hw : window kernel ≠ []) :
    (window_loop binary64Ops (raster_single p) kernel (G binary64Ops exp)
      (some (1 / 2 ^ 600)) 0 0).normalization_term = none := by
  rw [window_loop_eq_foldl, foldl_loop_body]
  apply foldl_add_none _ _ _ hw
  intro rc _
  obtain ⟨hp, -, -⟩ := pixel_to_grayscale_finite p
  have hs : sample (raster_single p) 0 0 rc.1 rc.2 = p := rfl
  have hc : (raster_single p).px 0 0 = p := rfl
  unfold weight_term intensity_weight
  rw [hs, hc, hp, binary64Ops_sub _ _ (by rw [sub_self, abs_zero]; norm_num)]
  have h0 : roundedOps.sub (pixel_to_grayscale roundedOps p) (pixel_to_grayscale roundedOps p)
      = 0 := by
    show binary64_round (_ - _) = 0
    rw [sub_self, binary64_round_zero]
  rw [h0]
  have h1 : binary64Ops.fabs (some 0) = some 0 := by
    show some |(0 : ℚ)| = some 0
    rw [abs_zero]
  rw [h1, G_underflow exp hexp, binary64Ops_mul_none]

/-- C8, as the claim states it, fails under binary64 arithmetic with the formula of the
spec: for the intensity sigma `2^-600 > 0` (a double) the product `2*sigma*sigma` underflows
to 0, the intensity weight at distance 0 is `exp(-0/0) = exp(NaN)`, and on the 1×1 raster
`(9, 9, 9)` with the 7×7 kernel of the default spatial sigma 2.0 the normalization term is
a NaN, for every `exp` that passes a NaN on: it is not a number that is at least 1. -/
theorem normalization_term_underflow :
    (0 : ℚ) < 1 / 2 ^ 600
      ∧ binary64Ops.mul (binary64Ops.mul (binary64Ops.of_int 2) (some (1 / 2 ^ 600)))
          (some (1 / 2 ^ 600)) = some 0
      ∧ ∀ exp : Option ℚ → Option ℚ, exp none = none →
          (window_loop binary64Ops (raster_single ⟨9, 9, 9, 255⟩)
            (get_gaussian_kernel binary64Ops exp 7 (some 2)) (G binary64Ops exp)
            (some (1 / 2 ^ 600)) 0 0).normalization_term = none :=
  ⟨by positivity, sigma_square_underflow, fun exp hexp =>
    normalization_underflow _ _ exp hexp
      (List.ne_nil_of_mem (zero_mem_window_odd _ 3 (by rfl) (by rfl)))⟩

/-- C8, amended. For every input raster, every pixel `(x, y)` of it, every spatial and
intensity sigma between 2^-400 and 2^400 and every kernel of odd side `2k+1 < 2^20` built by
the formula `exp(-(r²+c²)/(2σ_s²))`, where `exp` returns 1 at 0 and a value in [0, 1] at
every non-positive finite argument: the normalization term accumulated by the loop in
binary64 is a finite number and at least 1 (the offset `(0, 0)` contributes 1 * 1, every
other contribution is non-negative, rounding is monotone), so the division of line 93 is
not a division by zero.  In exact real arithmetic the normalization term is at least 1 as
well. -/
theorem normalization_term_ge_one (I : Image) (k : Nat) (exp : Option ℚ → Option ℚ)
    (sigma_s sigma_i : ℚ) (x y : Nat)
    (hexp0 : exp (some 0) = some 1)
    (hexp : ∀ t : ℚ, t ≤ 0 → ∃ e : ℚ, exp (some t) = some e ∧ 0 ≤ e ∧ e ≤ 1)
    (hk : k < 2 ^ 19)
    (hs0 : 1 / 2 ^ 400 ≤ sigma_s) (hs1 : sigma_s ≤ 2 ^ 400)
    (hi0 : 1 / 2 ^ 400 ≤ sigma_i) (hi1 : sigma_i ≤ 2 ^ 400)
    (hx : x < I.get_width) (hy : y < I.get_height) :
    (∃ n : ℚ, (window_loop binary64Ops I
          (get_gaussian_kernel binary64Ops exp (2 * (k : Int) + 1) (some sigma_s))
          (G binary64Ops exp) (some sigma_i) x y).normalization_term = some n ∧ 1 ≤ n)
      ∧ 1 ≤ (window_loop (exactOps ℝ) I
          (get_gaussian_kernel (exactOps ℝ) Real.exp (2 * (k : Int) + 1) (sigma_s : ℝ))
          (G (exactOps ℝ) Real.exp) (sigma_i : ℝ) x y).normalization_term := by
  refine ⟨gaussian_normalization_binary64 I k exp sigma_s sigma_i x y hexp0 hexp hk hs0 hs1
    hi0 hi1 hx hy, ?_⟩
  rw [window_loop_exact]
  exact gaussian_normalization_ge_one I k (sigma_s : ℝ) (sigma_i : ℝ) x y hx hy

/-- The default sigmas 2.0 and 5.0, the 7×7 kernel (`k = 3`), the function `exp_bound` and
the pixel `(1, 0)` of the 2×2 raster satisfy the hypotheses of `normalization_term_ge_one`:
the binary64 normalization term is a finite number at least 1. -/
theorem normalization_term_ge_one_witness :
    exp_bound (some 0) = some 1
      ∧ (∀ t : ℚ, t ≤ 0 → ∃ e : ℚ, exp_bound (some t) = some e ∧ 0 ≤ e ∧ e ≤ 1)
      ∧ 3 < 2 ^ 19
      ∧ (1 : ℚ) / 2 ^ 400 ≤ 2 ∧ (2 : ℚ) ≤ 2 ^ 400
      ∧ (1 : ℚ) / 2 ^ 400 ≤ 5 ∧ (5 : ℚ) ≤ 2 ^ 400
      ∧ 1 < raster_2x2.get_width ∧ 0 < raster_2x2.get_height
      ∧ ∃ n : ℚ, (window_loop binary64Ops raster_2x2
          (get_gaussian_kernel binary64Ops exp_bound (2 * ((3 : Nat) : Int) + 1) (some 2))
          (G binary64Ops exp_bound) (some 5) 1 0).normalization_term = some n ∧ 1 ≤ n := by
  have h0 : exp_bound (some 0) = some 1 := by
    show some ((1 : ℚ) / (1 - 0)) = some 1
    norm_num
  have hexp : ∀ t : ℚ, t ≤ 0 → ∃ e : ℚ, exp_bound (some t) = some e ∧ 0 ≤ e ∧ e ≤ 1 := by
    intro t ht
    have h1 : (0 : ℚ) < 1 - t := by linarith
    refine ⟨1 / (1 - t), rfl, by positivity, ?_⟩
    rw [div_le_one h1]
    linarith
  exact ⟨h0, hexp, by norm_num, by norm_num, by norm_num, by norm_num, by norm_num, by decide,
    by decide,
    (normalization_term_ge_one raster_2x2 3 exp_bound 2 5 1 0 h0 hexp (by norm_num)
      (by norm_num) (by norm_num) (by norm_num) (by norm_num) (by decide) (by decide)).1⟩

/-! ## C6: the limit of a large intensity sigma -/

theorem G_tendsto_one (d : ℝ) :
    Filter.Tendsto (fun sigma : ℝ => G (exactOps ℝ) Real.exp d sigma) Filter.atTop (nhds 1) := by
  have hden : Filter.Tendsto (fun sigma : ℝ => (2 : ℝ) * sigma * sigma) Filter.atTop Filter.atTop :=
    (Filter.tendsto_id.const_mul_atTop (by norm_num : (0 : ℝ) < 2)).atTop_mul_atTop
      Filter.tendsto_id
  have harg : Filter.Tendsto (fun sigma : ℝ => ((0 : ℝ) - d * d) / ((2 : ℝ) * sigma * sigma))
      Filter.atTop (nhds 0) :=
    Filter.Tendsto.div_atTop tendsto_const_nhds hden
  have hexp := (Real.continuous_exp.tendsto 0).comp harg
  rw [Real.exp_zero] at hexp
  have heq : (fun sigma : ℝ => G (exactOps ℝ) Real.exp d sigma)
      = Real.exp ∘ fun sigma : ℝ => ((0 : ℝ) - d * d) / ((2 : ℝ) * sigma * sigma) := by
    funext sigma
    simp [G, exactOps]
  rw [heq]
  exact hexp

theorem weight_at_tendsto (I : Image) (kernel : Kernel ℝ) (x y : Nat) (rc : Int × Int) :
    Filter.Tendsto
      (fun sigma : ℝ => weight_at I kernel (G (exactOps ℝ) Real.exp) sigma x y rc)
      Filter.atTop (nhds (spatial_weight kernel rc.1 rc.2)) := by
  unfold weight_at intensity_weight
  have h := (G_tendsto_one ((exactOps ℝ).fabs ((exactOps ℝ).sub
    (pixel_to_grayscale (exactOps ℝ) (sample I x y rc.1 rc.2))
    (pixel_to_grayscale (exactOps ℝ) (I.px y x))))).const_mul (spatial_weight kernel rc.1 rc.2)
  rw [mul_one] at h
  exact h

theorem blur_limit_channel (ch : rgba_pixel → Fin 256) (I : Image) (kernel : Kernel ℝ)
    (x y : Nat)
    (hk : ((window kernel).map (fun rc => spatial_weight kernel rc.1 rc.2)).sum ≠ 0) :
    Filter.Tendsto
      (fun sigma : ℝ =>
        accumulated_sum ch I kernel (G (exactOps ℝ) Real.exp) sigma x y
          / normalization_sum I kernel (G (exactOps ℝ) Real.exp) sigma x y)
      Filter.atTop (nhds (spatial_blur ch I kernel x y)) := by
  unfold spatial_blur
  apply Filter.Tendsto.div _ _ hk
  · unfold accumulated_sum
    apply tendsto_list_sum
    intro rc _
    exact (weight_at_tendsto I kernel x y rc).mul_const _
  · unfold normalization_sum
    apply tendsto_list_sum
    intro rc _
    exact weight_at_tendsto I kernel x y rc

theorem blur_const_channel {K : Type} [LinearOrderedField K] [FloorRing K]
    (ch : rgba_pixel → Fin 256) (I : Image) (kernel : Kernel K) (sigma : K) (x y : Nat) :
    accumulated_sum ch I kernel (fun _ _ => 1) sigma x y
        / normalization_sum I kernel (fun _ _ => 1) sigma x y
      = spatial_blur ch I kernel x y := by
  unfold accumulated_sum normalization_sum spatial_blur weight_at intensity_weight
  simp only [mul_one]

theorem gaussian_kernel_sum_ne_zero (k : Nat) (sigma_s : ℝ) :
    ((window (get_gaussian_kernel (exactOps ℝ) Real.exp (2 * (k : Int) + 1) sigma_s)).map
      (fun rc =>
        spatial_weight (get_gaussian_kernel (exactOps ℝ) Real.exp (2 * (k : Int) + 1) sigma_s)
          rc.1 rc.2)).sum ≠ 0 := by
  have h1 : (1 : ℝ) ≤ ((window (get_gaussian_kernel (exactOps ℝ) Real.exp (2 * (k : Int) + 1)
      sigma_s)).map (fun rc =>
        spatial_weight (get_gaussian_kernel (exactOps ℝ) Real.exp (2 * (k : Int) + 1) sigma_s)
          rc.1 rc.2)).sum := by
    rw [← gaussian_kernel_center k sigma_s]
    apply List.single_le_sum
    · intro w hw
      obtain ⟨rc, _, rfl⟩ := List.mem_map.mp hw
      exact gaussian_kernel_nonneg _ sigma_s rc.1 rc.2
    · exact List.mem_map.mpr ⟨(0, 0), zero_mem_window_odd _ k rfl rfl, rfl⟩
  linarith

/-- C6. For every input raster, every spatial kernel whose weights over the window do not
sum to zero and every pixel `(x, y)`, the real-valued quotient
`final_channel / normalization_term` of the loop converges, as the intensity sigma tends to
infinity, to the pure spatial blur `(Σ kernel·channel) / (Σ kernel)`, for each of red, green
and blue; and with the intensity weight replaced by the constant 1 the loop computes exactly
that spatial blur, for every intensity sigma. -/
theorem intensity_sigma_limit (I : Image) (kernel : Kernel ℝ) (x y : Nat)
    (hk : ((window kernel).map (fun rc => spatial_weight kernel rc.1 rc.2)).sum ≠ 0) :
    Filter.Tendsto
        (fun sigma : ℝ =>
          (window_loop (exactOps ℝ) I kernel (G (exactOps ℝ) Real.exp) sigma x y).final_red
            / (window_loop (exactOps ℝ) I kernel (G (exactOps ℝ) Real.exp) sigma x y).normalization_term)
        Filter.atTop (nhds (spatial_blur rgba_pixel.red I kernel x y))
      ∧ Filter.Tendsto
        (fun sigma : ℝ =>
          (window_loop (exactOps ℝ) I kernel (G (exactOps ℝ) Real.exp) sigma x y).final_green
            / (window_loop (exactOps ℝ) I kernel (G (exactOps ℝ) Real.exp) sigma x y).normalization_term)
        Filter.atTop (nhds (spatial_blur rgba_pixel.green I kernel x y))
      ∧ Filter.Tendsto
        (fun sigma : ℝ =>
          (window_loop (exactOps ℝ) I kernel (G (exactOps ℝ) Real.exp) sigma x y).final_blue
            / (window_loop (exactOps ℝ) I kernel (G (exactOps ℝ) Real.exp) sigma x y).normalization_term)
        Filter.atTop (nhds (spatial_blur rgba_pixel.blue I kernel x y))
      ∧ (∀ sigma : ℝ,
          (window_loop (exactOps ℝ) I kernel (fun _ _ => 1) sigma x y).final_red
            / (window_loop (exactOps ℝ) I kernel (fun _ _ => 1) sigma x y).normalization_term
          = spatial_blur rgba_pixel.red I kernel x y)
      ∧ (∀ sigma : ℝ,
          (window_loop (exactOps ℝ) I kernel (fun _ _ => 1) sigma x y).final_green
            / (window_loop (exactOps ℝ) I kernel (fun _ _ => 1) sigma x y).normalization_term
          = spatial_blur rgba_pixel.green I kernel x y)
      ∧ (∀ sigma : ℝ,
          (window_loop (exactOps ℝ) I kernel (fun _ _ => 1) sigma x y).final_blue
            / (window_loop (exactOps ℝ) I kernel (fun _ _ => 1) sigma x y).normalization_term
          = spatial_blur rgba_pixel.blue I kernel x y) := by
  simp only [window_loop_exact]
  exact ⟨blur_limit_channel _ I kernel x y hk, blur_limit_channel _ I kernel x y hk,
    blur_limit_channel _ I kernel x y hk, fun sigma => blur_const_channel _ I kernel sigma x y,
    fun sigma => blur_const_channel _ I kernel sigma x y,
    fun sigma => blur_const_channel _ I kernel sigma x y⟩

/-- The 7×7 Gaussian kernel of the default spatial sigma 2.0 satisfies the hypothesis of
`intensity_sigma_limit`: on the 2×2 raster at `(1, 0)` the red quotient converges to the
spatial blur. -/
theorem intensity_sigma_limit_witness :
    ((window (get_gaussian_kernel (exactOps ℝ) Real.exp (2 * ((3 : Nat) : Int) + 1) 2)).map
        (fun rc =>
          spatial_weight (get_gaussian_kernel (exactOps ℝ) Real.exp (2 * ((3 : Nat) : Int) + 1) 2)
            rc.1 rc.2)).sum ≠ 0
      ∧ Filter.Tendsto
        (fun sigma : ℝ =>
          (window_loop (exactOps ℝ) raster_2x2
              (get_gaussian_kernel (exactOps ℝ) Real.exp (2 * ((3 : Nat) : Int) + 1) 2)
              (G (exactOps ℝ) Real.exp) sigma 1 0).final_red
            / (window_loop (exactOps ℝ) raster_2x2
              (get_gaussian_kernel (exactOps ℝ) Real.exp (2 * ((3 : Nat) : Int) + 1) 2)
              (G (exactOps ℝ) Real.exp) sigma 1 0).normalization_term)
        Filter.atTop
        (nhds (spatial_blur rgba_pixel.red raster_2x2
          (get_gaussian_kernel (exactOps ℝ) Real.exp (2 * ((3 : Nat) : Int) + 1) 2) 1 0)) :=
  ⟨gaussian_kernel_sum_ne_zero 3 2,
    (intensity_sigma_limit raster_2x2
      (get_gaussian_kernel (exactOps ℝ) Real.exp (2 * ((3 : Nat) : Int) + 1) 2) 1 0
      (gaussian_kernel_sum_ne_zero 3 2)).1⟩

/-! ## The binary64 reading: the leading bit and the kernel table -/

theorem exp_eighth_bounds :
    (exp_eighth_lower : ℝ) ≤ Real.exp (-1 / 8) ∧ Real.exp (-1 / 8) ≤ (exp_eighth_upper : ℝ) := by
  have h := Real.exp_bound (x := -1 / 8) (by norm_num [abs_le]) (n := 14) (by norm_num)
  have habs : |(-1 / 8 : ℝ)| = 1 / 8 := by
    rw [abs_of_neg (by norm_num)]
    norm_num
  rw [habs, abs_le] at h
  norm_num [Finset.sum_range_succ, Nat.factorial] at h
  have he : Real.exp (-1 / 8) = Real.exp (-(1 / 8)) := by norm_num
  unfold exp_eighth_lower exp_eighth_upper
  push_cast
  rw [he]
  constructor <;> linarith [h.1, h.2]

theorem exp_neg_eighths_pow (d : ℕ) : Real.exp (-(d : ℝ) / 8) = Real.exp (-1 / 8) ^ d := by
  rw [← Real.exp_nat_mul]
  congr 1
  ring

theorem near_exp (d : ℕ) (t h : ℚ) (h1 : t - h < exp_eighth_lower ^ d)
    (h2 : exp_eighth_upper ^ d < t + h) : |(t : ℝ) - Real.exp (-(d : ℝ) / 8)| < (h : ℝ) := by
  have hb := exp_eighth_bounds
  have hlo0 : (0 : ℝ) ≤ (exp_eighth_lower : ℝ) := by
    unfold exp_eighth_lower
    push_cast
    norm_num
  have hlo : (exp_eighth_lower : ℝ) ^ d ≤ Real.exp (-1 / 8) ^ d := pow_le_pow_left₀ hlo0 hb.1 d
  have hhi : Real.exp (-1 / 8) ^ d ≤ (exp_eighth_upper : ℝ) ^ d :=
    pow_le_pow_left₀ (Real.exp_pos _).le hb.2 d
  have h1' : (t : ℝ) - (h : ℝ) < (exp_eighth_lower : ℝ) ^ d := by exact_mod_cast h1
  have h2' : (exp_eighth_upper : ℝ) ^ d < (t : ℝ) + (h : ℝ) := by exact_mod_cast h2
  rw [exp_neg_eighths_pow, abs_lt]
  constructor <;> linarith

/-- Every entry of the table `exp_neg_eighths` is a binary64 number (rounding leaves it
unchanged) in the binade `[2^e, 2^(e+1))` and lies within half a unit in the last place,
`2^(e-53)`, of the real number `exp(-d/8)`: it is the binary64 number nearest to
`exp(-d/8)`. -/
theorem exp_neg_eighths_nearest :
    ∀ de ∈ ([(0, 0), (1, -1), (2, -1), (4, -1), (5, -1), (8, -2), (9, -2), (10, -2), (13, -3),
        (18, -4)] : List (ℕ × ℤ)),
      binary64_round (exp_neg_eighths de.1) = exp_neg_eighths de.1
        ∧ (2 : ℚ) ^ de.2 ≤ exp_neg_eighths de.1 ∧ exp_neg_eighths de.1 < 2 ^ (de.2 + 1)
        ∧ |((exp_neg_eighths de.1 : ℚ) : ℝ) - Real.exp (-((de.1 : ℕ) : ℝ) / 8)|
            < (((2 : ℚ) ^ (de.2 - 53) : ℚ) : ℝ) := by
  intro de hde
  simp only [List.mem_cons, List.mem_singleton, List.not_mem_nil, or_false] at hde
  rcases hde with rfl | rfl | rfl | rfl | rfl | rfl | rfl | rfl | rfl | rfl
  all_goals
    refine ⟨by decide!, by decide!, by decide!, ?_⟩
    apply near_exp
    · norm_num [exp_neg_eighths, exp_eighth_lower]
    · norm_num [exp_neg_eighths, exp_eighth_upper]

/-- Every cell of `kernel_sigma2` read by the window loops holds an entry of the table:
the squared distance of the cell from the centre is one of the ten tabulated values. -/
theorem kernel_sigma2_cells :
    ∀ rc ∈ window kernel_sigma2,
      spatial_weight kernel_sigma2 rc.1 rc.2 = exp_neg_eighths (rc.1 * rc.1 + rc.2 * rc.2)
        ∧ rc.1 * rc.1 + rc.2 * rc.2 ∈ ([0, 1, 2, 4, 5, 8, 9, 10, 13, 18] : List ℤ) := by
  decide!

end BilateralFilter
